import Mathlib

/-!
# Millennium Falcon: minimum number of capture attempts

A shallow embedding of `falcon.go` and proofs about `buildGraph`,
`minCaptureAttempts` and the part of `GiveMeTheOdds` that follows the decoding
of the two files.

* Go's `int` has 64 bits: a sum or a difference is reduced modulo `2^64` into
  `[-2^63, 2^63)`. `wrap64` is that reduction, and `jumps64`, `expand64`,
  `searchLoop64`, `minCaptureAttempts64` and `loopConfig64` are the statements
  of `minCaptureAttempts` with every `+`, `-` and `++` reduced by it.
* `jumps`, `expand`, `searchLoop`, `minCaptureAttempts` and `loopConfig` are
  the same statements over the mathematical integers, without the reduction.
  The search only adds 1 to a day or to `k` and a cost that passed the fuel
  check to a day, so when `max deadline 0 + max autonomy 1 < 2^63` (`NoWrap`)
  no sum leaves the 64-bit range and the two searches return the same
  (`minCaptureAttempts64_eq`, `loopConfig64_eq`). Beyond that bound they
  differ: `arrival := st.day + e.cost` wraps to a negative day, which passes
  both `arrival > deadline` and the goal test; the last section evaluates the
  64-bit search on such inputs.
* `map[string][]edge` is an association list; a missing key reads as the empty
  slice, as in Go. `buildGraph` keeps one entry per key.
* `map[state]int` and `map[string]map[int]bool` are only read and updated
  point-wise by the search, so they are functions (`Option Int` records
  whether the key is present; a missing hunter entry reads `false`).
* `container/heap` is transcribed from the Go standard library (`up`, `down`,
  `Push`, `Pop`) over a list that plays the role of the slice; `heap.Init` on
  the empty heap does nothing.
* The `for pq.Len() > 0` loop is a recursion on an iteration budget; `none`
  means the budget ran out before the loop returned. `float64(k)` and
  `math.Inf(1)` are the two constructors of `Attempts`.
* Floating-point values are not part of the embedding: the three `float64`
  values `GiveMeTheOdds` returns (`0`, `1`, `math.Pow(0.9, minK)`) are
  parameters (`Float64Ops`). Reading the files and decoding JSON are not part
  of the embedding either.
-/

set_option autoImplicit false

namespace Falcon

/-! ## Data model -/

/-- A route record of `millennium-falcon.json`. -/
structure Route where
  Origin : String
  Destination : String
  TravelTime : Int
deriving DecidableEq, Repr

/-- A directed arc of the adjacency structure; `dest` is the field `to`. -/
structure edge where
  dest : String
  cost : Int
deriving DecidableEq, Repr

/-- The adjacency structure `map[string][]edge`. -/
abbrev Graph := List (String × List edge)

/-- Reading `g[p]`: the slice stored under `p`, or the empty slice. -/
def Graph.get : Graph → String → List edge
  | [], _ => []
  | (q, es) :: rest, p => if q = p then es else Graph.get rest p

/-- The statement `g[p] = append(g[p], e)`. -/
def Graph.push : Graph → String → edge → Graph
  | [], p, e => [(p, [e])]
  | (q, es) :: rest, p, e =>
    if q = p then (q, es ++ [e]) :: rest else (q, es) :: Graph.push rest p e

/-- The body of the `for _, r := range routes` loop of `buildGraph`, started
from the map built so far. -/
def buildGraphFrom : Graph → List Route → Except String Graph
  | g, [] => .ok g
  | g, r :: rs =>
    if r.Origin = "" ∨ r.Destination = "" ∨ r.TravelTime ≤ 0 then
      .error "invalid route in millennium-falcon.json"
    else
      buildGraphFrom
        ((g.push r.Origin ⟨r.Destination, r.TravelTime⟩).push
          r.Destination ⟨r.Origin, r.TravelTime⟩) rs

/-- The function `buildGraph`. -/
def buildGraph (routes : List Route) : Except String Graph :=
  buildGraphFrom [] routes

/-- A search state `(day, planet, fuel)`. -/
structure state where
  day : Int
  planet : String
  fuel : Int
deriving DecidableEq, Repr

/-- A heap entry. -/
structure pqNode where
  k : Int
  st : state
deriving DecidableEq, Repr

/-- The slice type `minHeap`. -/
abbrev minHeap := List pqNode

/-- The method `Less`: compares the `k` fields only. -/
def minHeap.Less (h : minHeap) (i j : Nat) : Bool :=
  match h[i]?, h[j]? with
  | some a, some b => decide (a.k < b.k)
  | _, _ => false

/-- The method `Swap`. -/
def minHeap.Swap (h : minHeap) (i j : Nat) : minHeap :=
  match h[i]?, h[j]? with
  | some a, some b => (h.set i b).set j a
  | _, _ => h

/-- The loop `up` of `container/heap`; the first argument bounds the number of
iterations. -/
def heapUp : Nat → minHeap → Nat → minHeap
  | 0, h, _ => h
  | n + 1, h, j =>
    let i := (j - 1) / 2
    if i = j ∨ h.Less j i = false then h else heapUp n (h.Swap i j) i

/-- The loop `down` of `container/heap`; the first argument bounds the number
of iterations. -/
def heapDown : Nat → minHeap → Nat → Nat → minHeap
  | 0, h, _, _ => h
  | m + 1, h, i, n =>
    let j1 := 2 * i + 1
    if j1 ≥ n then h
    else
      let j := if j1 + 1 < n ∧ h.Less (j1 + 1) j1 = true then j1 + 1 else j1
      if h.Less j i = false then h else heapDown m (h.Swap i j) j n

/-- The call `heap.Push(pq, x)`: append, then sift up from the last index. -/
def heapPush (h : minHeap) (x : pqNode) : minHeap :=
  heapUp (h.length + 1) (h ++ [x]) h.length

/-- The call `heap.Pop(pq)`: swap the root with the last entry, sift down
within the first `n` entries, and cut the last entry off. -/
def heapPop (h : minHeap) : Option (pqNode × minHeap) :=
  let n := h.length - 1
  let h2 := heapDown h.length (h.Swap 0 n) 0 n
  match h2[n]? with
  | some x => some (x, h2.take n)
  | none => none

/-- The result of the search: `float64(k)` or `math.Inf(1)`. -/
inductive Attempts where
  | finite (k : Int)
  | inf
deriving DecidableEq, Repr

/-- The hazard lookup `hunters[planet][day]`. -/
abbrev Hunters := String → Int → Bool

/-- The two mutable variables of the search loop. -/
structure searchState where
  pq : minHeap
  best : state → Option Int

/-- The assignment `best[ns] = nk`. -/
def setBest (best : state → Option Int) (ns : state) (nk : Int) :
    state → Option Int :=
  fun s => if s = ns then some nk else best s

/-- The relaxation
`if old, ok := best[ns]; !ok || nk < old { best[ns] = nk; heap.Push(...) }`. -/
def relax (s : searchState) (nk : Int) (ns : state) : searchState :=
  match s.best ns with
  | some old =>
    if nk < old then ⟨heapPush s.pq ⟨nk, ns⟩, setBest s.best ns nk⟩ else s
  | none => ⟨heapPush s.pq ⟨nk, ns⟩, setBest s.best ns nk⟩

/-- The counter after a hazard check, `nk := k; if hunters[p][d] { nk++ }`,
over the integers. -/
def bump (hunters : Hunters) (p : String) (d : Int) (k : Int) : Int :=
  if hunters p d then k + 1 else k

/-- The loop `for _, e := range c.graph[st.planet]` over the remaining edges,
with sums and differences over the integers (`jumps64` has Go's 64-bit
arithmetic). -/
def jumps (hunters : Hunters) (deadline : Int) (k : Int) (st : state) :
    List edge → searchState → searchState
  | [], s => s
  | e :: es, s =>
    if e.cost > st.fuel then jumps hunters deadline k st es s
    else if st.day + e.cost > deadline then jumps hunters deadline k st es s
    else
      jumps hunters deadline k st es
        (relax s (bump hunters e.dest (st.day + e.cost) k)
          ⟨st.day + e.cost, e.dest, st.fuel - e.cost⟩)

/-- The three groups of successors of a popped, non-stale entry, with sums
over the integers (`expand64` has Go's 64-bit arithmetic). -/
def expand (graph : Graph) (autonomy deadline : Int) (hunters : Hunters)
    (k : Int) (st : state) (s : searchState) : searchState :=
  let s1 :=
    if st.day + 1 ≤ deadline then relax s k ⟨st.day + 1, st.planet, st.fuel⟩
    else s
  let s2 :=
    if st.day + 1 ≤ deadline then
      relax s1 (bump hunters st.planet (st.day + 1) k)
        ⟨st.day + 1, st.planet, autonomy⟩
    else s1
  jumps hunters deadline k st (graph.get st.planet) s2

/-- The main loop `for pq.Len() > 0 { ... }` followed by `return math.Inf(1)`,
over the integers. -/
def searchLoop (graph : Graph) (goal : String) (autonomy deadline : Int)
    (hunters : Hunters) : Nat → searchState → Option Attempts
  | 0, _ => none
  | n + 1, s =>
    if s.pq.length > 0 then
      match heapPop s.pq with
      | none => none
      | some (cur, pq1) =>
        if s.best cur.st ≠ some cur.k then
          searchLoop graph goal autonomy deadline hunters n ⟨pq1, s.best⟩
        else if cur.st.planet = goal ∧ cur.st.day ≤ deadline then
          some (.finite cur.k)
        else
          searchLoop graph goal autonomy deadline hunters n
            (expand graph autonomy deadline hunters cur.k cur.st ⟨pq1, s.best⟩)
    else some .inf

/-- The state the loop is entered with. -/
def initState (start : String) (autonomy : Int) : searchState :=
  ⟨heapPush [] ⟨0, ⟨0, start, autonomy⟩⟩,
    setBest (fun _ => none) ⟨0, start, autonomy⟩ 0⟩

/-- The method `minCaptureAttempts` over the integers, run with an iteration
budget. It returns what the method returns in Go's 64-bit arithmetic
(`minCaptureAttempts64`) when `max deadline 0 + max autonomy 1 < 2^63`. -/
def minCaptureAttempts (budget : Nat) (graph : Graph) (start goal : String)
    (autonomy deadline : Int) (hunters : Hunters) : Option Attempts :=
  searchLoop graph goal autonomy deadline hunters budget
    (initState start autonomy)

/-- A route that `buildGraph` rejects. -/
def Route.invalid (r : Route) : Prop :=
  r.Origin = "" ∨ r.Destination = "" ∨ r.TravelTime ≤ 0

instance (r : Route) : Decidable r.invalid := by
  unfold Route.invalid; infer_instance

/-- The sum of the lengths of all adjacency lists. -/
def Graph.size (g : Graph) : Nat := (g.map (fun kv => kv.2.length)).sum

/-- The keys of the map. -/
def Graph.keys (g : Graph) : List String := g.map (fun kv => kv.1)

/-! ## Heap order -/

/-- The `k` field at an index (0 outside the slice). -/
def minHeap.key (h : minHeap) (m : Nat) : Int :=
  match h[m]? with
  | some a => a.k
  | none => 0

/-- The heap order on the first `n` entries: no entry is below its parent. -/
def HeapUpTo (h : minHeap) (n : Nat) : Prop :=
  ∀ m, 0 < m → m < n → h.key ((m - 1) / 2) ≤ h.key m

/-- The heap order on the whole slice. -/
def IsHeap (h : minHeap) : Prop := HeapUpTo h h.length

/-- The heap order with one exception allowed: entry `j` may be below its
parent, and then the children of `j` are not below the parent of `j`. -/
def UpInv (h : minHeap) (j : Nat) : Prop :=
  (∀ m, 0 < m → m < h.length → m ≠ j → h.key ((m - 1) / 2) ≤ h.key m) ∧
  (∀ c, 0 < j → c < h.length → (c - 1) / 2 = j → 0 < c →
    h.key ((j - 1) / 2) ≤ h.key c)

/-- The heap order on the first `n` entries with one exception allowed: the
children of `i` may be below `i`, and then they are not below the parent of
`i`. -/
def DownInv (h : minHeap) (i n : Nat) : Prop :=
  (∀ m, 0 < m → m < n → (m - 1) / 2 ≠ i → h.key ((m - 1) / 2) ≤ h.key m) ∧
  (∀ c, 0 < i → c < n → (c - 1) / 2 = i → 0 < c →
    h.key ((i - 1) / 2) ≤ h.key c)

/-! ## Plans

The moves of the traveller as the specification states them. The search is
compared with these definitions; it is not defined through them. -/

/-- A move of a plan: wait a day, refuel for a day, or jump along an arc. -/
inductive Move where
  | wait
  | refuel
  | jump (e : edge)
deriving DecidableEq, Repr

/-- One move of a plan from `st`: the state it leads to and what it is
charged, or `none` when the move is not allowed. -/
def applyMove (graph : Graph) (autonomy deadline : Int) (hunters : Hunters)
    (st : state) : Move → Option (state × Int)
  | .wait =>
    if st.day + 1 ≤ deadline then some (⟨st.day + 1, st.planet, st.fuel⟩, 0)
    else none
  | .refuel =>
    if st.day + 1 ≤ deadline then
      some (⟨st.day + 1, st.planet, autonomy⟩,
        if hunters st.planet (st.day + 1) then 1 else 0)
    else none
  | .jump e =>
    if e ∈ graph.get st.planet ∧ e.cost ≤ st.fuel ∧ st.day + e.cost ≤ deadline then
      some (⟨st.day + e.cost, e.dest, st.fuel - e.cost⟩,
        if hunters e.dest (st.day + e.cost) then 1 else 0)
    else none

/-- A plan run from `st`: the state it ends in and its total cost, or `none`
when one of its moves is not allowed. -/
def runPlan (graph : Graph) (autonomy deadline : Int) (hunters : Hunters) :
    state → List Move → Option (state × Int)
  | st, [] => some (st, 0)
  | st, m :: ms =>
    match applyMove graph autonomy deadline hunters st m with
    | none => none
    | some (st1, c) =>
      match runPlan graph autonomy deadline hunters st1 ms with
      | none => none
      | some (st2, c2) => some (st2, c + c2)

/-- The state every plan starts from: day 0, at `start`, with a full tank. -/
def startState (start : String) (autonomy : Int) : state := ⟨0, start, autonomy⟩

/-- The plan is legal from the start state, has total cost `c`, and ends at
`goal` on a day that is at most the deadline. -/
def Arrives (graph : Graph) (autonomy deadline : Int) (hunters : Hunters)
    (start goal : String) (plan : List Move) (c : Int) : Prop :=
  ∃ st, runPlan graph autonomy deadline hunters (startState start autonomy) plan
      = some (st, c) ∧ st.planet = goal ∧ st.day ≤ deadline

/-- Some legal plan reaches `st` from the start state with total cost `k`. -/
def Reach (graph : Graph) (autonomy deadline : Int) (hunters : Hunters)
    (start : String) (st : state) (k : Int) : Prop :=
  ∃ plan, runPlan graph autonomy deadline hunters (startState start autonomy) plan
    = some (st, k)

/-- Every arc of the graph has a positive cost. -/
def Graph.PosCosts (g : Graph) : Prop := ∀ p e, e ∈ g.get p → 0 < e.cost

/-- The goal test of the loop. -/
def isGoal (goal : String) (deadline : Int) (st : state) : Prop :=
  st.planet = goal ∧ st.day ≤ deadline

/-! ## Invariants of the search loop -/

/-- Every successor of `st` has a recorded cost of at most `k` plus the
charge of the move. -/
def Relaxed (graph : Graph) (autonomy deadline : Int) (hunters : Hunters)
    (best : state → Option Int) (st : state) (k : Int) : Prop :=
  ∀ m ns c, applyMove graph autonomy deadline hunters st m = some (ns, c) →
    ∃ k1, best ns = some k1 ∧ k1 ≤ k + c

/-- Every recorded cost is the cost of some legal plan to that state. -/
def Sound (graph : Graph) (autonomy deadline : Int) (hunters : Hunters)
    (start : String) (best : state → Option Int) : Prop :=
  ∀ st k, best st = some k → Reach graph autonomy deadline hunters start st k

/-- The invariant of the main loop. -/
structure Inv (graph : Graph) (autonomy deadline : Int) (hunters : Hunters)
    (start goal : String) (s : searchState) : Prop where
  heap : IsHeap s.pq
  sound : Sound graph autonomy deadline hunters start s.best
  origin : ∃ k0, s.best (startState start autonomy) = some k0 ∧ k0 ≤ 0
  closed : ∀ st k, s.best st = some k →
    (⟨k, st⟩ : pqNode) ∈ s.pq ∨
      (¬ isGoal goal deadline st ∧ Relaxed graph autonomy deadline hunters s.best st k)

/-- The second configuration comes from the first by relaxations only: costs
only go down, what changed is on the heap, and nothing left the heap. -/
structure Ext (s t : searchState) : Prop where
  heap : IsHeap s.pq → IsHeap t.pq
  mono : ∀ st k, s.best st = some k → ∃ k1, t.best st = some k1 ∧ k1 ≤ k
  pushed : ∀ st k, t.best st = some k → s.best st = some k ∨ (⟨k, st⟩ : pqNode) ∈ t.pq
  kept : ∀ y, y ∈ s.pq → y ∈ t.pq

/-- What the search has to return: a finite `k` is the cost of some plan that
arrives and no plan that arrives is cheaper; `+Inf` means that no plan
arrives. -/
def Correct (graph : Graph) (autonomy deadline : Int) (hunters : Hunters)
    (start goal : String) : Attempts → Prop
  | .finite k =>
    (∃ plan, Arrives graph autonomy deadline hunters start goal plan k) ∧
      ∀ plan c, Arrives graph autonomy deadline hunters start goal plan c → k ≤ c
  | .inf => ∀ plan c, ¬ Arrives graph autonomy deadline hunters start goal plan c

/-! ## Termination measure -/

/-- The planets a plan can ever be on: `start` and every destination of an
arc. -/
def planets (graph : Graph) (start : String) : List String :=
  start :: graph.flatMap (fun kv => kv.2.map edge.dest)

/-- The states a plan can ever be in. -/
def StateOk (graph : Graph) (autonomy deadline : Int) (start : String)
    (st : state) : Prop :=
  0 ≤ st.day ∧ st.day ≤ max deadline 0 ∧ min autonomy 0 ≤ st.fuel ∧
    st.fuel ≤ autonomy ∧ st.planet ∈ planets graph start

/-- The finite set of the states a plan can ever be in. -/
def stateSpace (graph : Graph) (autonomy deadline : Int) (start : String) :
    Finset state :=
  ((Finset.Icc (0 : Int) (max deadline 0)) ×ˢ
    ((planets graph start).toFinset ×ˢ Finset.Icc (min autonomy 0) autonomy)).image
    (fun t => (⟨t.1, t.2.1, t.2.2⟩ : state))

/-- The room left below a record: a missing record counts as `D + 1`. -/
def pot (D : Nat) : Option Int → Nat
  | none => D + 1
  | some k => k.toNat

/-- The sum of the room left over all states of the state space. -/
def potential (U : Finset state) (D : Nat) (best : state → Option Int) : Nat :=
  ∑ x ∈ U, pot D (best x)

/-- The quantity that every iteration of the main loop decreases. -/
def loopMeasure (graph : Graph) (autonomy deadline : Int) (start : String)
    (s : searchState) : Nat :=
  2 * potential (stateSpace graph autonomy deadline start) deadline.toNat s.best
    + s.pq.length

/-- The pairs `(nk, ns)` the expansion of `(k, st)` may relax with. -/
def Succ (graph : Graph) (autonomy deadline : Int) (hunters : Hunters)
    (st : state) (k : Int) (nk : Int) (ns : state) : Prop :=
  ∃ m c, applyMove graph autonomy deadline hunters st m = some (ns, c) ∧ nk = k + c

/-- A sequence of relaxations, each with a pair allowed by `P`. -/
inductive RelaxSeq (P : Int → state → Prop) : searchState → searchState → Prop
  | refl (s : searchState) : RelaxSeq P s s
  | step {s t : searchState} {nk : Int} {ns : state} :
      P nk ns → RelaxSeq P (relax s nk ns) t → RelaxSeq P s t

/-- The configuration at the head of the main loop after `n` iterations, as
long as the loop has not returned; over the integers. -/
def loopConfig (graph : Graph) (goal : String) (autonomy deadline : Int)
    (hunters : Hunters) : Nat → searchState → Option searchState
  | 0, s => some s
  | n + 1, s =>
    if s.pq.length > 0 then
      match heapPop s.pq with
      | none => none
      | some (cur, pq1) =>
        if s.best cur.st ≠ some cur.k then
          loopConfig graph goal autonomy deadline hunters n ⟨pq1, s.best⟩
        else if cur.st.planet = goal ∧ cur.st.day ≤ deadline then none
        else
          loopConfig graph goal autonomy deadline hunters n
            (expand graph autonomy deadline hunters cur.k cur.st ⟨pq1, s.best⟩)
    else none

/-! ## Notions used by the claims -/

/-- No move of the plan run from `st` is charged: every refuel ends on a
`(planet, day + 1)` that is not hazarded and every jump arrives on a
`(planet, arrival day)` that is not hazarded. -/
def hazardFree (hunters : Hunters) (autonomy : Int) : state → List Move → Prop
  | _, [] => True
  | st, .wait :: ms => hazardFree hunters autonomy ⟨st.day + 1, st.planet, st.fuel⟩ ms
  | st, .refuel :: ms =>
    hunters st.planet (st.day + 1) = false ∧
      hazardFree hunters autonomy ⟨st.day + 1, st.planet, autonomy⟩ ms
  | st, .jump e :: ms =>
    hunters e.dest (st.day + e.cost) = false ∧
      hazardFree hunters autonomy ⟨st.day + e.cost, e.dest, st.fuel - e.cost⟩ ms

/-- The searches on the two graphs return the same value: with every budget
above some bound both return `r`. -/
def SameResult (g1 g2 : Graph) (start goal : String) (autonomy deadline : Int)
    (hunters : Hunters) : Prop :=
  ∃ r n, ∀ m, n ≤ m →
    minCaptureAttempts m g1 start goal autonomy deadline hunters = some r ∧
    minCaptureAttempts m g2 start goal autonomy deadline hunters = some r

/-! ## A small instance -/

/-- Three planets: a direct route of 6 days and a detour of 2 + 3 days. -/
def demoGraph : Graph :=
  [("T", [⟨"E", 6⟩, ⟨"D", 2⟩]), ("E", [⟨"T", 6⟩, ⟨"D", 3⟩]),
    ("D", [⟨"T", 2⟩, ⟨"E", 3⟩])]

/-- Hunters wait on `E` on the days 5, 6 and 7. -/
def demoHunters : Hunters := fun p d => p == "E" && (d == 5 || d == 6 || d == 7)

/-! ## The search in 64-bit arithmetic

Go's `int` has 64 bits on the platforms the program is built for: a sum or a
difference is reduced modulo `2^64` into `[-2^63, 2^63)`. The definitions of
this section are the statements of `minCaptureAttempts` with that arithmetic;
the arguments are values of type `int`, that is, integers of that range. -/

/-- The value Go computes for an `int` whose mathematical value is `x`. -/
def wrap64 (x : Int) : Int :=
  (x + 9223372036854775808) % 18446744073709551616 - 9223372036854775808

/-- The counter after a hazard check, `nk := k; if hunters[p][d] { nk++ }`, in
64-bit arithmetic. -/
def bump64 (hunters : Hunters) (p : String) (d : Int) (k : Int) : Int :=
  if hunters p d then wrap64 (k + 1) else k

/-- The loop `for _, e := range c.graph[st.planet]` over the remaining edges,
in 64-bit arithmetic: `arrival := st.day + e.cost` and `st.fuel - e.cost` are
reduced by `wrap64`. -/
def jumps64 (hunters : Hunters) (deadline : Int) (k : Int) (st : state) :
    List edge → searchState → searchState
  | [], s => s
  | e :: es, s =>
    if e.cost > st.fuel then jumps64 hunters deadline k st es s
    else if wrap64 (st.day + e.cost) > deadline then
      jumps64 hunters deadline k st es s
    else
      jumps64 hunters deadline k st es
        (relax s (bump64 hunters e.dest (wrap64 (st.day + e.cost)) k)
          ⟨wrap64 (st.day + e.cost), e.dest, wrap64 (st.fuel - e.cost)⟩)

/-- The three groups of successors of a popped, non-stale entry, in 64-bit
arithmetic: `st.day + 1` is reduced by `wrap64`. -/
def expand64 (graph : Graph) (autonomy deadline : Int) (hunters : Hunters)
    (k : Int) (st : state) (s : searchState) : searchState :=
  let s1 :=
    if wrap64 (st.day + 1) ≤ deadline then
      relax s k ⟨wrap64 (st.day + 1), st.planet, st.fuel⟩
    else s
  let s2 :=
    if wrap64 (st.day + 1) ≤ deadline then
      relax s1 (bump64 hunters st.planet (wrap64 (st.day + 1)) k)
        ⟨wrap64 (st.day + 1), st.planet, autonomy⟩
    else s1
  jumps64 hunters deadline k st (graph.get st.planet) s2

/-- The main loop `for pq.Len() > 0 { ... }` followed by `return math.Inf(1)`,
in 64-bit arithmetic. -/
def searchLoop64 (graph : Graph) (goal : String) (autonomy deadline : Int)
    (hunters : Hunters) : Nat → searchState → Option Attempts
  | 0, _ => none
  | n + 1, s =>
    if s.pq.length > 0 then
      match heapPop s.pq with
      | none => none
      | some (cur, pq1) =>
        if s.best cur.st ≠ some cur.k then
          searchLoop64 graph goal autonomy deadline hunters n ⟨pq1, s.best⟩
        else if cur.st.planet = goal ∧ cur.st.day ≤ deadline then
          some (.finite cur.k)
        else
          searchLoop64 graph goal autonomy deadline hunters n
            (expand64 graph autonomy deadline hunters cur.k cur.st ⟨pq1, s.best⟩)
    else some .inf

/-- The method `minCaptureAttempts` in 64-bit arithmetic, run with an
iteration budget. -/
def minCaptureAttempts64 (budget : Nat) (graph : Graph) (start goal : String)
    (autonomy deadline : Int) (hunters : Hunters) : Option Attempts :=
  searchLoop64 graph goal autonomy deadline hunters budget
    (initState start autonomy)

/-- The configuration at the head of the main loop after `n` iterations in
64-bit arithmetic, as long as the loop has not returned. -/
def loopConfig64 (graph : Graph) (goal : String) (autonomy deadline : Int)
    (hunters : Hunters) : Nat → searchState → Option searchState
  | 0, s => some s
  | n + 1, s =>
    if s.pq.length > 0 then
      match heapPop s.pq with
      | none => none
      | some (cur, pq1) =>
        if s.best cur.st ≠ some cur.k then
          loopConfig64 graph goal autonomy deadline hunters n ⟨pq1, s.best⟩
        else if cur.st.planet = goal ∧ cur.st.day ≤ deadline then none
        else
          loopConfig64 graph goal autonomy deadline hunters n
            (expand64 graph autonomy deadline hunters cur.k cur.st ⟨pq1, s.best⟩)
    else none

/-- The inputs on which no sum of the search leaves the 64-bit range. -/
def NoWrap (autonomy deadline : Int) : Prop :=
  max deadline 0 + max autonomy 1 < 9223372036854775808

instance (autonomy deadline : Int) : Decidable (NoWrap autonomy deadline) := by
  unfold NoWrap; infer_instance

/-! ## The odds

The part of `GiveMeTheOdds` after the two files are read and decoded. The
`float64` values it returns are parameters: nothing is assumed about them. -/

/-- A bounty-hunter record of `empire.json`. -/
structure Hunter where
  Planet : String
  Day : Int
deriving DecidableEq, Repr

/-- The decoded `empire.json`. -/
structure EmpireConfig where
  Countdown : Int
  BountyHunters : List Hunter

/-- The receiver of `GiveMeTheOdds`. -/
structure C3PO where
  autonomy : Int
  graph : Graph

/-- The assignment `hunters[p][d] = true` (the inner map is created when it
is missing). -/
def setHunter (hunters : Hunters) (p : String) (d : Int) : Hunters :=
  fun q e => if q = p ∧ e = d then true else hunters q e

/-- The loop `for _, h := range emp.BountyHunters`, started from the map built
so far. -/
def buildHuntersFrom : Hunters → List Hunter → Except String Hunters
  | hunters, [] => .ok hunters
  | hunters, h :: rest =>
    if h.Planet = "" ∨ h.Day < 0 then .error "invalid bounty hunter record"
    else buildHuntersFrom (setHunter hunters h.Planet h.Day) rest

/-- Step 2 of `GiveMeTheOdds`: the hazard lookup built from the records. -/
def buildHunters (records : List Hunter) : Except String Hunters :=
  buildHuntersFrom (fun _ _ => false) records

/-- The `float64` values of step 4 of `GiveMeTheOdds`: the constants `0` and
`1`, and `math.Pow(0.9, minK)` for `minK = float64(k)`. -/
structure Float64Ops (F : Type) where
  zero : F
  one : F
  pow : Int → F

/-- Step 4 of `GiveMeTheOdds`: `0` when `math.IsInf(minK, 1)`, `1` when
`minK == 0`, and `math.Pow(0.9, minK)` otherwise. -/
def odds {F : Type} (fl : Float64Ops F) : Attempts → F
  | .inf => fl.zero
  | .finite k => if k = 0 then fl.one else fl.pow k

/-- The method `GiveMeTheOdds` on a decoded `empire.json`: an error when a
record is rejected, otherwise the odds of the result of the search in 64-bit
arithmetic (`none` when the budget of the search ran out). -/
def C3PO.GiveMeTheOdds {F : Type} (c : C3PO) (fl : Float64Ops F) (budget : Nat)
    (emp : EmpireConfig) : Except String (Option F) :=
  match buildHunters emp.BountyHunters with
  | .error msg => .error msg
  | .ok hunters =>
    .ok ((minCaptureAttempts64 budget c.graph "Tatooine" "Endor" c.autonomy
      emp.Countdown hunters).map (odds fl))

/-- One iteration of the main loop over the integers: the configuration at the
head of the next iteration, or `none` when the loop returns in this one. -/
def loopStep (graph : Graph) (goal : String) (autonomy deadline : Int)
    (hunters : Hunters) (s : searchState) : Option searchState :=
  if s.pq.length > 0 then
    match heapPop s.pq with
    | none => none
    | some (cur, pq1) =>
      if s.best cur.st ≠ some cur.k then some ⟨pq1, s.best⟩
      else if cur.st.planet = goal ∧ cur.st.day ≤ deadline then none
      else some (expand graph autonomy deadline hunters cur.k cur.st ⟨pq1, s.best⟩)
  else none

/-! ## Further invariants of the search loop -/

/-- No entry is on the heap twice, and every heap entry belongs to a recorded
state whose record is at most the cost of the entry. -/
def Tidy (s : searchState) : Prop :=
  s.pq.Nodup ∧ ∀ y ∈ s.pq, ∃ b, s.best y.st = some b ∧ b ≤ y.k

/-- Every recorded cost is at least 0. -/
def NonNeg (s : searchState) : Prop := ∀ x k, s.best x = some k → 0 ≤ k

/-- Every heap entry is the cost of some legal plan to its state. -/
def HeapSound (graph : Graph) (autonomy deadline : Int) (hunters : Hunters)
    (start : String) (s : searchState) : Prop :=
  ∀ y ∈ s.pq, Reach graph autonomy deadline hunters start y.st y.k

/-- The move that undoes a move made from planet `p`: waiting and refuelling
take a day either way, a jump is undone along the arc back to `p`. -/
def Move.back (p : String) : Move → Move
  | .wait => .wait
  | .refuel => .refuel
  | .jump e => .jump ⟨p, e.cost⟩

/-! ## Inputs at the end of the 64-bit range -/

/-- The largest value of Go's `int`, `math.MaxInt64`. -/
def maxInt : Int := 9223372036854775807

/-- The smallest value of Go's `int`, `math.MinInt64`. -/
def minInt : Int := -9223372036854775808

/-- The graph `buildGraph` returns for the single route Tatooine-Endor with
travel time `maxInt`. -/
def longRoute : Graph :=
  [("Tatooine", [⟨"Endor", maxInt⟩]), ("Endor", [⟨"Tatooine", maxInt⟩])]

/-- The empty hazard schedule. -/
def noHunters : Hunters := fun _ _ => false

/-! # Theorems -/

/-! ## The graph builder -/

theorem Graph.get_push (g : Graph) (p q : String) (e : edge) :
    (g.push p e).get q = if p = q then g.get q ++ [e] else g.get q := by
  induction g with
  | nil =>
    by_cases h : p = q <;> simp [Graph.push, Graph.get, h]
  | cons kv rest ih =>
    obtain ⟨r, es⟩ := kv
    by_cases h1 : r = p
    · subst h1
      by_cases h2 : r = q <;> simp [Graph.push, Graph.get, h2]
    · by_cases h2 : r = q
      · subst h2
        have h3 : ¬ p = r := fun h => h1 h.symm
        simp [Graph.push, Graph.get, h1, h3]
      · simp [Graph.push, Graph.get, h1, h2, ih]

theorem Graph.size_push (g : Graph) (p : String) (e : edge) :
    (g.push p e).size = g.size + 1 := by
  induction g with
  | nil => simp [Graph.push, Graph.size]
  | cons kv rest ih =>
    obtain ⟨r, es⟩ := kv
    by_cases h1 : r = p
    · simp [Graph.push, Graph.size, h1]; omega
    · simp only [Graph.size] at ih
      simp [Graph.push, Graph.size, h1, ih]; omega

theorem Graph.mem_keys_push (g : Graph) (p q : String) (e : edge) :
    q ∈ (g.push p e).keys ↔ q = p ∨ q ∈ g.keys := by
  induction g with
  | nil => simp [Graph.push, Graph.keys]
  | cons kv rest ih =>
    obtain ⟨r, es⟩ := kv
    by_cases h1 : r = p
    · subst h1
      simp [Graph.push, Graph.keys]
    · simp only [Graph.keys] at ih
      simp only [Graph.push, h1, if_false, Graph.keys, List.map_cons, List.mem_cons, ih]
      tauto

theorem Graph.nodup_keys_push (g : Graph) (p : String) (e : edge)
    (h : g.keys.Nodup) : (g.push p e).keys.Nodup := by
  induction g with
  | nil => simp [Graph.push, Graph.keys]
  | cons kv rest ih =>
    obtain ⟨r, es⟩ := kv
    have hk : Graph.keys ((r, es) :: rest) = r :: Graph.keys rest := rfl
    rw [hk, List.nodup_cons] at h
    by_cases h1 : r = p
    · subst h1
      simpa [Graph.push, Graph.keys] using h
    · have hk2 : Graph.keys (Graph.push ((r, es) :: rest) p e)
          = r :: Graph.keys (Graph.push rest p e) := by
        simp [Graph.push, h1, Graph.keys]
      rw [hk2, List.nodup_cons]
      refine ⟨?_, ih h.2⟩
      rw [Graph.mem_keys_push]
      rintro (h2 | h2)
      · exact h1 h2
      · exact h.1 h2

theorem buildGraphFrom_error_iff (g : Graph) (routes : List Route) :
    (∃ msg, buildGraphFrom g routes = .error msg) ↔ ∃ r ∈ routes, r.invalid := by
  induction routes generalizing g with
  | nil => simp [buildGraphFrom]
  | cons r rs ih =>
    by_cases h : r.Origin = "" ∨ r.Destination = "" ∨ r.TravelTime ≤ 0
    · have : r.invalid := h
      simp only [buildGraphFrom, h, if_true]
      constructor
      · intro _; exact ⟨r, List.mem_cons_self _ _, this⟩
      · intro _; exact ⟨_, rfl⟩
    · have hr : ¬ r.invalid := h
      simp only [buildGraphFrom, h, if_false]
      rw [ih]
      constructor
      · rintro ⟨x, hx, hi⟩; exact ⟨x, List.mem_cons_of_mem _ hx, hi⟩
      · rintro ⟨x, hx, hi⟩
        rcases List.mem_cons.1 hx with rfl | hx
        · exact absurd hi hr
        · exact ⟨x, hx, hi⟩

theorem buildGraphFrom_ok_iff (g : Graph) (routes : List Route) :
    (∃ g1, buildGraphFrom g routes = .ok g1) ↔ ∀ r ∈ routes, ¬ r.invalid := by
  have h := buildGraphFrom_error_iff g routes
  constructor
  · rintro ⟨g1, hg⟩ r hr hi
    obtain ⟨msg, hm⟩ := h.2 ⟨r, hr, hi⟩
    rw [hg] at hm; cases hm
  · intro hall
    cases hb : buildGraphFrom g routes with
    | ok g1 => exact ⟨g1, rfl⟩
    | error msg =>
      obtain ⟨r, hr, hi⟩ := h.1 ⟨msg, hb⟩
      exact absurd hi (hall r hr)

theorem count_after_route (X : List edge) (o d A B : String) (t c : Int) :
    (if d = A then (if o = A then X ++ [⟨d, t⟩] else X) ++ [⟨o, t⟩]
      else (if o = A then X ++ [⟨d, t⟩] else X)).count ⟨B, c⟩
    = X.count ⟨B, c⟩ + (if (⟨o, d, t⟩ : Route) = ⟨A, B, c⟩ then 1 else 0)
        + (if (⟨o, d, t⟩ : Route) = ⟨B, A, c⟩ then 1 else 0) := by
  simp only [Route.mk.injEq]
  rcases eq_or_ne d A with ha | ha <;> rcases eq_or_ne o A with hb | hb <;>
    rcases eq_or_ne o B with hc | hc <;> rcases eq_or_ne d B with hd | hd <;>
    rcases eq_or_ne t c with he | he <;> (try subst_vars) <;>
    simp_all [List.count_append, List.count_cons]

/-- What the loop of `buildGraph` adds to the map it starts from. -/
theorem buildGraphFrom_spec (routes : List Route) :
    ∀ (g g1 : Graph), buildGraphFrom g routes = .ok g1 →
      (∀ A B c, (g1.get A).count ⟨B, c⟩
        = (g.get A).count ⟨B, c⟩ + routes.count ⟨A, B, c⟩ + routes.count ⟨B, A, c⟩) ∧
      g1.size = g.size + 2 * routes.length ∧
      (g.keys.Nodup → g1.keys.Nodup) ∧
      ((∀ A e, e ∈ g.get A → 0 < e.cost) → ∀ A e, e ∈ g1.get A → 0 < e.cost) := by
  induction routes with
  | nil =>
    intro g g1 h
    simp only [buildGraphFrom, Except.ok.injEq] at h
    subst h
    simp
  | cons r rs ih =>
    intro g g1 h
    by_cases hr : r.Origin = "" ∨ r.Destination = "" ∨ r.TravelTime ≤ 0
    · simp [buildGraphFrom, hr] at h
    · simp only [buildGraphFrom, hr, if_false] at h
      obtain ⟨h1, h2, h3, h4⟩ := ih _ _ h
      have hpos : 0 < r.TravelTime := by
        by_contra hc; exact hr (Or.inr (Or.inr (not_lt.1 hc)))
      refine ⟨?_, ?_, ?_, ?_⟩
      · intro A B c
        rw [h1, Graph.get_push, Graph.get_push]
        obtain ⟨o, d, t⟩ := r
        simp only [List.count_cons, beq_iff_eq]
        rw [count_after_route]; omega
      · rw [h2, Graph.size_push, Graph.size_push]
        simp only [List.length_cons]; omega
      · intro hn
        exact h3 (Graph.nodup_keys_push _ _ _ (Graph.nodup_keys_push _ _ _ hn))
      · intro hp
        apply h4
        intro A e he
        rw [Graph.get_push, Graph.get_push] at he
        have hcases : e ∈ g.get A ∨ e.cost = r.TravelTime := by
          by_cases ha : r.Destination = A <;> by_cases hb : r.Origin = A <;>
            simp only [ha, hb, if_true, if_false, List.mem_append,
              List.mem_singleton] at he
          · rcases he with (he | he) | he
            · exact Or.inl he
            · exact Or.inr (by rw [he])
            · exact Or.inr (by rw [he])
          · rcases he with he | he
            · exact Or.inl he
            · exact Or.inr (by rw [he])
          · rcases he with he | he
            · exact Or.inl he
            · exact Or.inr (by rw [he])
          · exact Or.inl he
        rcases hcases with h | h
        · exact hp A e h
        · rw [h]; exact hpos

/-- Claim C3: `buildGraph` returns an error exactly when some route has an
empty origin, an empty destination or a travel time that is not positive, and
it returns a graph (and no error) exactly when every route is valid; an error
result carries no graph. -/
theorem buildGraph_fails_iff_invalid_route (routes : List Route) :
    ((∃ msg, buildGraph routes = .error msg) ↔
        ∃ r ∈ routes, r.Origin = "" ∨ r.Destination = "" ∨ r.TravelTime ≤ 0) ∧
    ((∃ g, buildGraph routes = .ok g) ↔
        ∀ r ∈ routes, ¬ (r.Origin = "" ∨ r.Destination = "" ∨ r.TravelTime ≤ 0)) :=
  ⟨buildGraphFrom_error_iff [] routes, buildGraphFrom_ok_iff [] routes⟩

/-- Claim C4: for a list of valid routes `buildGraph` returns a graph in which
the arc to `B` of cost `c` occurs in the list of `A` once for every route
`(A, B, c)` and once for every route `(B, A, c)`; so the two directions occur
equally often, the adjacency lists (one per key) have total length twice the
number of routes, and every cost is positive. -/
theorem buildGraph_both_arcs_with_duplicates (routes : List Route)
    (hvalid : ∀ r ∈ routes, ¬ r.invalid) :
    ∃ g, buildGraph routes = .ok g ∧
      (∀ A B c, (g.get A).count ⟨B, c⟩
        = routes.count ⟨A, B, c⟩ + routes.count ⟨B, A, c⟩) ∧
      (∀ A B c, (g.get A).count ⟨B, c⟩ = (g.get B).count ⟨A, c⟩) ∧
      g.keys.Nodup ∧ g.size = 2 * routes.length ∧
      (∀ A e, e ∈ g.get A → 0 < e.cost) := by
  obtain ⟨g, hg⟩ := (buildGraphFrom_ok_iff [] routes).2 hvalid
  obtain ⟨h1, h2, h3, h4⟩ := buildGraphFrom_spec routes [] g hg
  have hc : ∀ A B c, (g.get A).count ⟨B, c⟩
      = routes.count ⟨A, B, c⟩ + routes.count ⟨B, A, c⟩ := by
    intro A B c
    rw [h1]; simp [Graph.get]
  refine ⟨g, hg, hc, ?_, h3 (by simp [Graph.keys]), ?_, h4 (by simp [Graph.get])⟩
  · intro A B c
    rw [hc, hc]; omega
  · rw [h2]; simp [Graph.size]

/-- Three valid routes, among them a pair in opposite directions and a loop. -/
theorem buildGraph_both_arcs_with_duplicates_witness :
    ∃ g, buildGraph [⟨"A", "B", 2⟩, ⟨"B", "A", 2⟩, ⟨"A", "A", 1⟩] = .ok g ∧
      (∀ A B c, (g.get A).count ⟨B, c⟩
        = [(⟨"A", "B", 2⟩ : Route), ⟨"B", "A", 2⟩, ⟨"A", "A", 1⟩].count ⟨A, B, c⟩
          + [(⟨"A", "B", 2⟩ : Route), ⟨"B", "A", 2⟩, ⟨"A", "A", 1⟩].count ⟨B, A, c⟩) ∧
      (∀ A B c, (g.get A).count ⟨B, c⟩ = (g.get B).count ⟨A, c⟩) ∧
      g.keys.Nodup ∧
      g.size = 2 * [(⟨"A", "B", 2⟩ : Route), ⟨"B", "A", 2⟩, ⟨"A", "A", 1⟩].length ∧
      (∀ A e, e ∈ g.get A → 0 < e.cost) :=
  buildGraph_both_arcs_with_duplicates _ (by decide)

/-! ## The binary heap -/

theorem minHeap.key_of_getElem? {h : minHeap} {m : Nat} {a : pqNode}
    (ha : h[m]? = some a) : h.key m = a.k := by
  simp [minHeap.key, ha]

theorem minHeap.Less_eq (h : minHeap) (i j : Nat) (hi : i < h.length)
    (hj : j < h.length) : h.Less i j = decide (h.key i < h.key j) := by
  simp [minHeap.Less, minHeap.key, List.getElem?_eq_getElem hi,
    List.getElem?_eq_getElem hj]

theorem minHeap.Swap_length (h : minHeap) (i j : Nat) :
    (h.Swap i j).length = h.length := by
  unfold minHeap.Swap
  split <;> simp

theorem minHeap.Swap_getElem? (h : minHeap) (i j m : Nat) (hi : i < h.length)
    (hj : j < h.length) :
    (h.Swap i j)[m]? = if m = j then h[i]? else if m = i then h[j]? else h[m]? := by
  unfold minHeap.Swap
  rw [List.getElem?_eq_getElem hi, List.getElem?_eq_getElem hj]
  simp only [List.getElem?_set, List.length_set]
  by_cases h1 : m = j
  · subst h1; simp [hj]
  · by_cases h2 : m = i
    · subst h2
      have : ¬ j = m := fun h => h1 h.symm
      simp [this, h1, hi, List.getElem?_eq_getElem hj]
    · have h3 : ¬ j = m := fun h => h1 h.symm
      have h4 : ¬ i = m := fun h => h2 h.symm
      simp [h1, h2, h3, h4]

theorem minHeap.Swap_key (h : minHeap) (i j m : Nat) (hi : i < h.length)
    (hj : j < h.length) :
    (h.Swap i j).key m
      = if m = j then h.key i else if m = i then h.key j else h.key m := by
  unfold minHeap.key
  rw [minHeap.Swap_getElem? h i j m hi hj]
  by_cases h1 : m = j
  · simp [h1]
  · by_cases h2 : m = i
    · subst h2; simp [h1]
    · simp [h1, h2]

theorem minHeap.Swap_perm (h : minHeap) (i j : Nat) : (h.Swap i j).Perm h := by
  unfold minHeap.Swap
  split
  · rename_i a b ha hb
    have hi : i < h.length := (List.getElem?_eq_some.1 ha).1
    have hj : j < h.length := (List.getElem?_eq_some.1 hb).1
    have hai : h[i] = a := (List.getElem?_eq_some.1 ha).2
    have hbj : h[j] = b := (List.getElem?_eq_some.1 hb).2
    rw [List.perm_iff_count]
    intro x
    have hj2 : j < (h.set i b).length := by simpa using hj
    rw [List.count_set _ _ _ _ hj2, List.count_set _ _ _ _ hi]
    have hcnt : (if a == x then 1 else 0) ≤ h.count x := by
      by_cases hax : a = x
      · subst hax
        have : a ∈ h := hai ▸ List.getElem_mem hi
        have hpos := List.count_pos_iff.2 this
        simp only [beq_self_eq_true, if_true]
        exact hpos
      · simp [hax]
    have hget : (h.set i b)[j] = b := by
      rw [List.getElem_set]
      split
      · rfl
      · exact hbj
    rw [hget, hai]
    clear hj2 hget
    generalize (if (a == x) = true then 1 else 0) = p at *
    generalize (if (b == x) = true then 1 else 0) = q at *
    omega
  · exact List.Perm.refl _

theorem minHeap.Swap_key_left (h : minHeap) (i j : Nat) (hi : i < h.length)
    (hj : j < h.length) : (h.Swap i j).key i = h.key j := by
  rw [minHeap.Swap_key h i j i hi hj]
  by_cases hij : i = j
  · simp [hij]
  · simp [hij]

theorem minHeap.Swap_key_right (h : minHeap) (i j : Nat) (hi : i < h.length)
    (hj : j < h.length) : (h.Swap i j).key j = h.key i := by
  rw [minHeap.Swap_key h i j j hi hj]; simp

theorem minHeap.Swap_key_other (h : minHeap) (i j m : Nat) (hi : i < h.length)
    (hj : j < h.length) (hmi : m ≠ i) (hmj : m ≠ j) :
    (h.Swap i j).key m = h.key m := by
  rw [minHeap.Swap_key h i j m hi hj]; simp [hmi, hmj]

theorem heapUp_perm (n : Nat) : ∀ (h : minHeap) (j : Nat), (heapUp n h j).Perm h := by
  induction n with
  | zero => intro h j; exact List.Perm.refl _
  | succ n ih =>
    intro h j
    simp only [heapUp]
    split
    · exact List.Perm.refl _
    · exact (ih _ _).trans (minHeap.Swap_perm _ _ _)

theorem heapUp_isHeap (n : Nat) : ∀ (h : minHeap) (j : Nat), j < n → j < h.length →
    UpInv h j → IsHeap (heapUp n h j) := by
  induction n with
  | zero => intro h j hj; omega
  | succ n ih =>
    intro h j hjn hjl hinv
    simp only [heapUp]
    by_cases h0 : (j - 1) / 2 = j
    · simp only [h0, true_or, if_true]
      intro m hm0 hml
      exact hinv.1 m hm0 hml (by omega)
    · have hij : (j - 1) / 2 < j := by omega
      have hil : (j - 1) / 2 < h.length := by omega
      rw [minHeap.Less_eq h j _ hjl hil]
      by_cases hless : h.key j < h.key ((j - 1) / 2)
      · simp only [h0, hless, decide_True, false_or, if_false]
        simp only [Bool.true_eq_false, if_false]
        apply ih _ _ (by omega) (by rw [minHeap.Swap_length]; exact hil)
        constructor
        · intro m hm0 hml hmi
          rw [minHeap.Swap_length] at hml
          by_cases hmj : m = j
          · rw [hmj, minHeap.Swap_key_left h _ j hil hjl,
              minHeap.Swap_key_right h _ j hil hjl]
            omega
          · by_cases hpj : (m - 1) / 2 = j
            · rw [hpj, minHeap.Swap_key_right h _ j hil hjl,
                minHeap.Swap_key_other h _ j m hil hjl hmi hmj]
              exact hinv.2 m (by omega) hml hpj hm0
            · by_cases hpi : (m - 1) / 2 = (j - 1) / 2
              · rw [hpi, minHeap.Swap_key_left h _ j hil hjl,
                  minHeap.Swap_key_other h _ j m hil hjl hmi hmj]
                have := hinv.1 m hm0 hml hmj
                rw [hpi] at this
                omega
              · rw [minHeap.Swap_key_other h _ j _ hil hjl hpi hpj,
                  minHeap.Swap_key_other h _ j m hil hjl hmi hmj]
                exact hinv.1 m hm0 hml hmj
        · intro c hi0 hcl hpc hc0
          rw [minHeap.Swap_length] at hcl
          have hi1 := hinv.1 ((j - 1) / 2) hi0 hil (by omega)
          rw [minHeap.Swap_key_other h _ j _ hil hjl (by omega) (by omega)]
          by_cases hcj : c = j
          · rw [hcj, minHeap.Swap_key_right h _ j hil hjl]
            exact hi1
          · rw [minHeap.Swap_key_other h _ j c hil hjl (by omega) hcj]
            have := hinv.1 c hc0 hcl hcj
            rw [hpc] at this
            omega
      · simp only [h0, hless, decide_False, or_true, if_true]
        intro m hm0 hml
        by_cases hmj : m = j
        · rw [hmj]; omega
        · exact hinv.1 m hm0 hml hmj

theorem heapDown_perm (f : Nat) : ∀ (h : minHeap) (i n : Nat),
    (heapDown f h i n).Perm h := by
  induction f with
  | zero => intro h i n; exact List.Perm.refl _
  | succ f ih =>
    intro h i n
    simp only [heapDown]
    generalize (if 2 * i + 1 + 1 < n ∧ h.Less (2 * i + 1 + 1) (2 * i + 1) = true
      then 2 * i + 1 + 1 else 2 * i + 1) = j
    split
    · exact List.Perm.refl _
    · split
      · exact List.Perm.refl _
      · exact (ih _ _ _).trans (minHeap.Swap_perm _ _ _)

theorem heapDown_getElem?_ge (f : Nat) : ∀ (h : minHeap) (i n m : Nat),
    n ≤ h.length → n ≤ m → (heapDown f h i n)[m]? = h[m]? := by
  induction f with
  | zero => intro h i n m _ _; rfl
  | succ f ih =>
    intro h i n m hnl hnm
    simp only [heapDown]
    by_cases hj1 : 2 * i + 1 ≥ n
    · simp only [hj1, if_true]
    · simp only [hj1, if_false]
      have hjn : (if 2 * i + 1 + 1 < n ∧ h.Less (2 * i + 1 + 1) (2 * i + 1) = true
          then 2 * i + 1 + 1 else 2 * i + 1) < n := by
        split
        · rename_i hc; exact hc.1
        · omega
      generalize (if 2 * i + 1 + 1 < n ∧ h.Less (2 * i + 1 + 1) (2 * i + 1) = true
        then 2 * i + 1 + 1 else 2 * i + 1) = j at hjn
      split
      · rfl
      · rw [ih _ _ _ _ (by rw [minHeap.Swap_length]; exact hnl) hnm]
        rw [minHeap.Swap_getElem? h _ _ m (by omega) (by omega)]
        rw [if_neg (by omega), if_neg (by omega)]

theorem heapDown_heapUpTo (f : Nat) : ∀ (h : minHeap) (i n : Nat),
    n ≤ h.length → n ≤ f + i → DownInv h i n → HeapUpTo (heapDown f h i n) n := by
  induction f with
  | zero =>
    intro h i n _ hf hinv m hm0 hmn
    exact hinv.1 m hm0 hmn (by omega)
  | succ f ih =>
    intro h i n hnl hf hinv
    simp only [heapDown]
    by_cases hj1 : 2 * i + 1 ≥ n
    · simp only [hj1, if_true]
      intro m hm0 hmn
      exact hinv.1 m hm0 hmn (by omega)
    · simp only [hj1, if_false]
      have hj1n : 2 * i + 1 < n := by omega
      -- the smaller child
      obtain ⟨j, hjdef, hjcases, hjn, hjmin⟩ : ∃ j,
          (if 2 * i + 1 + 1 < n ∧ h.Less (2 * i + 1 + 1) (2 * i + 1) = true
            then 2 * i + 1 + 1 else 2 * i + 1) = j ∧
          (j = 2 * i + 1 ∨ j = 2 * i + 2) ∧ j < n ∧
          (∀ c, c < n → (c - 1) / 2 = i → 0 < c → h.key j ≤ h.key c) := by
        by_cases hc : 2 * i + 1 + 1 < n
        · rw [minHeap.Less_eq h _ _ (by omega) (by omega)]
          by_cases hl : h.key (2 * i + 1 + 1) < h.key (2 * i + 1)
          · refine ⟨2 * i + 1 + 1, by simp [hc, hl], Or.inr rfl, hc, ?_⟩
            intro c hcn hpc hc0
            have : c = 2 * i + 1 ∨ c = 2 * i + 1 + 1 := by omega
            rcases this with rfl | rfl
            · omega
            · exact le_refl _
          · refine ⟨2 * i + 1, by simp [hl], Or.inl rfl, hj1n, ?_⟩
            intro c hcn hpc hc0
            have : c = 2 * i + 1 ∨ c = 2 * i + 1 + 1 := by omega
            rcases this with rfl | rfl
            · exact le_refl _
            · omega
        · refine ⟨2 * i + 1, by simp [hc], Or.inl rfl, hj1n, ?_⟩
          intro c hcn hpc hc0
          have : c = 2 * i + 1 := by omega
          rw [this]
      rw [hjdef]
      have hil : i < h.length := by omega
      have hjl : j < h.length := by omega
      have hpj : (j - 1) / 2 = i := by omega
      rw [minHeap.Less_eq h j i hjl hil]
      by_cases hless : h.key j < h.key i
      · simp only [hless, decide_True, Bool.true_eq_false, if_false]
        apply ih _ _ _ (by rw [minHeap.Swap_length]; exact hnl) (by omega)
        constructor
        · intro m hm0 hmn hpm
          by_cases hmj : m = j
          · rw [hmj, hpj, minHeap.Swap_key_left h i j hil hjl,
              minHeap.Swap_key_right h i j hil hjl]
            omega
          · by_cases hmi : m = i
            · rw [hmi, minHeap.Swap_key_left h i j hil hjl,
                minHeap.Swap_key_other h i j _ hil hjl (by omega) (by omega)]
              exact hinv.2 j (by omega) hjn hpj (by omega)
            · rw [minHeap.Swap_key_other h i j m hil hjl hmi hmj]
              by_cases hpi : (m - 1) / 2 = i
              · rw [hpi, minHeap.Swap_key_left h i j hil hjl]
                exact hjmin m hmn hpi hm0
              · rw [minHeap.Swap_key_other h i j _ hil hjl hpi hpm]
                exact hinv.1 m hm0 hmn hpi
        · intro c hj0 hcn hpc hc0
          rw [hpj, minHeap.Swap_key_left h i j hil hjl,
            minHeap.Swap_key_other h i j c hil hjl (by omega) (by omega)]
          have := hinv.1 c hc0 hcn (by omega)
          rw [hpc] at this
          exact this
      · simp only [hless, decide_False, if_true]
        intro m hm0 hmn
        by_cases hpi : (m - 1) / 2 = i
        · have := hjmin m hmn hpi hm0
          rw [hpi]; omega
        · exact hinv.1 m hm0 hmn hpi

/-- The iteration bound of `up` is never what stops the loop: any two bounds
above `j` give the same slice. -/
theorem heapUp_bound_irrelevant (n : Nat) : ∀ (m : Nat) (h : minHeap) (j : Nat),
    j < n → j < m → heapUp n h j = heapUp m h j := by
  induction n with
  | zero => intro m h j hj; omega
  | succ n ih =>
    intro m h j hjn hjm
    obtain ⟨m1, rfl⟩ : ∃ m1, m = m1 + 1 := ⟨m - 1, by omega⟩
    simp only [heapUp]
    split
    · rfl
    · rename_i hc
      have hne : (j - 1) / 2 ≠ j := fun h0 => hc (Or.inl h0)
      exact ih m1 _ _ (by omega) (by omega)

/-- The iteration bound of `down` is never what stops the loop: any two
bounds of at least `n - i` give the same slice. -/
theorem heapDown_bound_irrelevant (f1 : Nat) : ∀ (f2 : Nat) (h : minHeap) (i n : Nat),
    n ≤ f1 + i → n ≤ f2 + i → heapDown f1 h i n = heapDown f2 h i n := by
  induction f1 with
  | zero =>
    intro f2 h i n h1 _
    cases f2 with
    | zero => rfl
    | succ f2 =>
      simp only [heapDown]
      rw [if_pos (by omega)]
  | succ f1 ih =>
    intro f2 h i n h1 h2
    cases f2 with
    | zero =>
      simp only [heapDown]
      rw [if_pos (by omega)]
    | succ f2 =>
      simp only [heapDown]
      by_cases hj1 : 2 * i + 1 ≥ n
      · rw [if_pos hj1, if_pos hj1]
      · rw [if_neg hj1, if_neg hj1]
        have hjn : i < (if 2 * i + 1 + 1 < n ∧ h.Less (2 * i + 1 + 1) (2 * i + 1) = true
            then 2 * i + 1 + 1 else 2 * i + 1) := by
          split <;> omega
        generalize (if 2 * i + 1 + 1 < n ∧ h.Less (2 * i + 1 + 1) (2 * i + 1) = true
          then 2 * i + 1 + 1 else 2 * i + 1) = j at hjn
        split
        · rfl
        · exact ih f2 _ _ _ (by omega) (by omega)

theorem HeapUpTo.root_le {h : minHeap} {n : Nat} (hh : HeapUpTo h n) :
    ∀ m, m < n → h.key 0 ≤ h.key m := by
  intro m
  induction m using Nat.strong_induction_on with
  | _ m ih =>
    intro hmn
    by_cases hm0 : m = 0
    · rw [hm0]
    · have h1 := hh m (by omega) hmn
      have h2 := ih ((m - 1) / 2) (by omega) (by omega)
      omega

theorem minHeap.key_append_left (h : minHeap) (x : pqNode) (m : Nat)
    (hm : m < h.length) : minHeap.key (h ++ [x]) m = h.key m := by
  unfold minHeap.key
  rw [List.getElem?_append_left hm]

theorem heapPush_perm (h : minHeap) (x : pqNode) : (heapPush h x).Perm (x :: h) :=
  (heapUp_perm _ _ _).trans (List.perm_append_singleton x h)

theorem heapPush_isHeap (h : minHeap) (x : pqNode) (hh : IsHeap h) :
    IsHeap (heapPush h x) := by
  apply heapUp_isHeap _ _ _ (by omega) (by simp)
  constructor
  · intro m hm0 hml hmne
    have hml2 : m < h.length := by
      simp only [List.length_append, List.length_singleton] at hml; omega
    rw [minHeap.key_append_left h x m hml2,
      minHeap.key_append_left h x _ (by omega)]
    exact hh m hm0 hml2
  · intro c _ hcl hpc hc0
    simp only [List.length_append, List.length_singleton] at hcl
    omega

theorem heapPush_mem (h : minHeap) (x y : pqNode) :
    y ∈ heapPush h x ↔ y = x ∨ y ∈ h := by
  rw [(heapPush_perm h x).mem_iff, List.mem_cons]

theorem heapPush_length (h : minHeap) (x : pqNode) :
    (heapPush h x).length = h.length + 1 := by
  rw [(heapPush_perm h x).length_eq, List.length_cons]

/-- A non-empty heap can be popped. -/
theorem heapPop_isSome (h : minHeap) (hne : 0 < h.length) :
    ∃ x h1, heapPop h = some (x, h1) := by
  unfold heapPop
  have hlen : (heapDown h.length (h.Swap 0 (h.length - 1)) 0 (h.length - 1)).length
      = h.length := by
    rw [(heapDown_perm _ _ _ _).length_eq, minHeap.Swap_length]
  have hlt : h.length - 1 <
      (heapDown h.length (h.Swap 0 (h.length - 1)) 0 (h.length - 1)).length := by
    omega
  simp only [List.getElem?_eq_getElem hlt]
  exact ⟨_, _, rfl⟩

/-- What `heap.Pop` returns: the root, which is a least entry of a heap, and
the remaining entries, again in heap order. -/
theorem heapPop_spec (h : minHeap) (x : pqNode) (h1 : minHeap)
    (hp : heapPop h = some (x, h1)) :
    (x :: h1).Perm h ∧ h[0]? = some x ∧
      (IsHeap h → IsHeap h1 ∧ ∀ y ∈ h, x.k ≤ y.k) := by
  unfold heapPop at hp
  simp only at hp
  generalize hn : h.length - 1 = n at hp
  generalize hh2 : heapDown h.length (h.Swap 0 n) 0 n = h2 at hp
  have hperm : h2.Perm h := by
    rw [← hh2]; exact (heapDown_perm _ _ _ _).trans (minHeap.Swap_perm _ _ _)
  have hlen : h2.length = h.length := hperm.length_eq
  cases hx : h2[n]? with
  | none => rw [hx] at hp; cases hp
  | some y =>
    rw [hx] at hp
    simp only [Option.some.injEq, Prod.mk.injEq] at hp
    obtain ⟨rfl, rfl⟩ := hp
    have hnl : n < h2.length := (List.getElem?_eq_some.1 hx).1
    have hyn : h2[n] = y := (List.getElem?_eq_some.1 hx).2
    have hpos : 0 < h.length := by omega
    have hnlen : n + 1 = h.length := by omega
    have hsplit : h2 = h2.take n ++ [y] := by
      conv_lhs => rw [← List.take_append_drop n h2]
      congr 1
      rw [List.drop_eq_getElem_cons hnl, hyn, List.drop_eq_nil_of_le (by omega)]
    have hroot : h[0]? = some y := by
      rw [← hx, ← hh2,
        heapDown_getElem?_ge _ _ _ _ _ (by rw [minHeap.Swap_length]; omega) (le_refl n),
        minHeap.Swap_getElem? h 0 n n hpos (by omega)]
      simp
    refine ⟨?_, hroot, ?_⟩
    · have : (y :: h2.take n).Perm h2 := by
        conv_rhs => rw [hsplit]
        exact (List.perm_append_singleton _ _).symm
      exact this.trans hperm
    · intro hheap
      constructor
      · -- the first `n` entries after the sift are in heap order
        have hdown : HeapUpTo h2 n := by
          rw [← hh2]
          apply heapDown_heapUpTo _ _ _ _ (by rw [minHeap.Swap_length]; omega) (by omega)
          constructor
          · intro m hm0 hmn hpm
            rw [minHeap.Swap_key_other h 0 n _ hpos (by omega) hpm (by omega),
              minHeap.Swap_key_other h 0 n m hpos (by omega) (by omega) (by omega)]
            exact hheap m hm0 (by omega)
          · intro c hc; omega
        intro m hm0 hml
        have hml2 : m < n := by
          simp only [List.length_take] at hml; omega
        have hk : ∀ q, q < n → minHeap.key (h2.take n) q = h2.key q := by
          intro q hq
          unfold minHeap.key
          rw [List.getElem?_take, if_pos hq]
        rw [hk m hml2, hk _ (by omega)]
        exact hdown m hm0 hml2
      · intro z hz
        obtain ⟨m, hm, hzm⟩ := List.getElem_of_mem hz
        have h1 := HeapUpTo.root_le hheap m hm
        rw [minHeap.key_of_getElem? hroot,
          minHeap.key_of_getElem? (List.getElem?_eq_some.2 ⟨hm, hzm⟩)] at h1
        exact h1

/-! ## Plans and reachability -/

section Search

variable (graph : Graph) (autonomy deadline : Int) (hunters : Hunters)

theorem runPlan_append (p q : List Move) : ∀ (st : state),
    runPlan graph autonomy deadline hunters st (p ++ q) =
      match runPlan graph autonomy deadline hunters st p with
      | none => none
      | some (st1, c1) =>
        match runPlan graph autonomy deadline hunters st1 q with
        | none => none
        | some (st2, c2) => some (st2, c1 + c2) := by
  induction p with
  | nil =>
    intro st
    simp only [List.nil_append, runPlan]
    cases runPlan graph autonomy deadline hunters st q with
    | none => rfl
    | some r => simp
  | cons m ms ih =>
    intro st
    simp only [List.cons_append, runPlan]
    cases applyMove graph autonomy deadline hunters st m with
    | none => rfl
    | some r =>
      obtain ⟨st1, c⟩ := r
      simp only [List.append_eq, ih st1]
      cases runPlan graph autonomy deadline hunters st1 ms with
      | none => rfl
      | some r1 =>
        obtain ⟨st2, c2⟩ := r1
        simp only
        cases runPlan graph autonomy deadline hunters st2 q with
        | none => rfl
        | some r2 => simp [add_assoc]

theorem runPlan_singleton (st : state) (m : Move) (ns : state) (c : Int)
    (h : applyMove graph autonomy deadline hunters st m = some (ns, c)) :
    runPlan graph autonomy deadline hunters st [m] = some (ns, c) := by
  simp [runPlan, h]

theorem Reach.init (start : String) :
    Reach graph autonomy deadline hunters start (startState start autonomy) 0 :=
  ⟨[], rfl⟩

theorem Reach.step {start : String} {st ns : state} {k c : Int} {m : Move}
    (hr : Reach graph autonomy deadline hunters start st k)
    (hm : applyMove graph autonomy deadline hunters st m = some (ns, c)) :
    Reach graph autonomy deadline hunters start ns (k + c) := by
  obtain ⟨plan, hp⟩ := hr
  refine ⟨plan ++ [m], ?_⟩
  rw [runPlan_append, hp]
  simp [runPlan_singleton graph autonomy deadline hunters st m ns c hm]

/-- The charge of a move is 0 or 1, and the day moves on by at least the
charge. -/
theorem applyMove_cost (hpos : graph.PosCosts) {st ns : state} {c : Int} {m : Move}
    (hm : applyMove graph autonomy deadline hunters st m = some (ns, c)) :
    0 ≤ c ∧ c ≤ 1 ∧ st.day + 1 ≤ ns.day ∧ ns.day ≤ deadline := by
  cases m with
  | wait =>
    simp only [applyMove] at hm
    split at hm
    · simp only [Option.some.injEq, Prod.mk.injEq] at hm
      obtain ⟨rfl, rfl⟩ := hm
      simp; omega
    · cases hm
  | refuel =>
    simp only [applyMove] at hm
    split at hm
    · simp only [Option.some.injEq, Prod.mk.injEq] at hm
      obtain ⟨rfl, rfl⟩ := hm
      split <;> simp <;> omega
    · cases hm
  | jump e =>
    simp only [applyMove] at hm
    split at hm
    · rename_i hc
      simp only [Option.some.injEq, Prod.mk.injEq] at hm
      obtain ⟨rfl, rfl⟩ := hm
      have := hpos _ _ hc.1
      split <;> simp <;> omega
    · cases hm

theorem runPlan_cost (hpos : graph.PosCosts) (plan : List Move) :
    ∀ (st ns : state) (c : Int),
      runPlan graph autonomy deadline hunters st plan = some (ns, c) →
      0 ≤ c ∧ st.day + c ≤ ns.day := by
  induction plan with
  | nil =>
    intro st ns c h
    simp only [runPlan, Option.some.injEq, Prod.mk.injEq] at h
    obtain ⟨rfl, rfl⟩ := h
    simp
  | cons m ms ih =>
    intro st ns c h
    simp only [runPlan] at h
    cases hm : applyMove graph autonomy deadline hunters st m with
    | none => rw [hm] at h; cases h
    | some r =>
      obtain ⟨st1, c1⟩ := r
      rw [hm] at h
      simp only at h
      cases hr : runPlan graph autonomy deadline hunters st1 ms with
      | none => rw [hr] at h; cases h
      | some r2 =>
        obtain ⟨st2, c2⟩ := r2
        rw [hr] at h
        simp only [Option.some.injEq, Prod.mk.injEq] at h
        obtain ⟨rfl, rfl⟩ := h
        have h1 := applyMove_cost graph autonomy deadline hunters hpos hm
        have h2 := ih _ _ _ hr
        omega

end Search

/-! ## Relaxations -/

theorem Ext.refl (s : searchState) : Ext s s :=
  ⟨id, fun _ k h => ⟨k, h, le_refl _⟩, fun _ _ h => Or.inl h, fun _ h => h⟩

theorem Ext.trans {s t u : searchState} (h1 : Ext s t) (h2 : Ext t u) : Ext s u := by
  refine ⟨fun h => h2.heap (h1.heap h), ?_, ?_, fun y h => h2.kept y (h1.kept y h)⟩
  · intro st k h
    obtain ⟨k1, hk1, hle1⟩ := h1.mono st k h
    obtain ⟨k2, hk2, hle2⟩ := h2.mono st k1 hk1
    exact ⟨k2, hk2, le_trans hle2 hle1⟩
  · intro st k h
    rcases h2.pushed st k h with h | h
    · rcases h1.pushed st k h with h | h
      · exact Or.inl h
      · exact Or.inr (h2.kept _ h)
    · exact Or.inr h

theorem setBest_self (best : state → Option Int) (ns : state) (nk : Int) :
    setBest best ns nk ns = some nk := by
  simp [setBest]

theorem setBest_other (best : state → Option Int) (ns st : state) (nk : Int)
    (h : st ≠ ns) : setBest best ns nk st = best st := by
  simp [setBest, h]

/-- Recording a new or smaller cost and pushing it. -/
theorem ext_of_update (s : searchState) (nk : Int) (ns : state)
    (h : ∀ old, s.best ns = some old → nk ≤ old) :
    Ext s ⟨heapPush s.pq ⟨nk, ns⟩, setBest s.best ns nk⟩ := by
  refine ⟨fun hh => heapPush_isHeap _ _ hh, ?_, ?_, ?_⟩
  · intro st k hk
    by_cases hst : st = ns
    · subst hst
      exact ⟨nk, setBest_self _ _ _, h k hk⟩
    · exact ⟨k, by simp only [setBest_other _ _ _ _ hst, hk], le_refl _⟩
  · intro st k hk
    by_cases hst : st = ns
    · subst hst
      simp only [setBest_self, Option.some.injEq] at hk
      subst hk
      exact Or.inr ((heapPush_mem _ _ _).2 (Or.inl rfl))
    · simp only [setBest_other _ _ _ _ hst] at hk
      exact Or.inl hk
  · intro y hy
    exact (heapPush_mem _ _ _).2 (Or.inr hy)

theorem relax_ext (s : searchState) (nk : Int) (ns : state) :
    Ext s (relax s nk ns) := by
  unfold relax
  cases hb : s.best ns with
  | none =>
    simp only
    apply ext_of_update
    intro old ho; rw [hb] at ho; cases ho
  | some old =>
    simp only
    split
    · rename_i hlt
      apply ext_of_update
      intro o ho
      rw [hb] at ho
      simp only [Option.some.injEq] at ho
      omega
    · exact Ext.refl s

theorem relax_best_le (s : searchState) (nk : Int) (ns : state) :
    ∃ k1, (relax s nk ns).best ns = some k1 ∧ k1 ≤ nk := by
  unfold relax
  cases hb : s.best ns with
  | none => exact ⟨nk, setBest_self _ _ _, le_refl _⟩
  | some old =>
    simp only
    split
    · exact ⟨nk, setBest_self _ _ _, le_refl _⟩
    · exact ⟨old, hb, by omega⟩

section Search

variable (graph : Graph) (autonomy deadline : Int) (hunters : Hunters)

theorem relax_sound {start : String} (s : searchState) (nk : Int) (ns : state)
    (hs : Sound graph autonomy deadline hunters start s.best)
    (hr : Reach graph autonomy deadline hunters start ns nk) :
    Sound graph autonomy deadline hunters start (relax s nk ns).best := by
  have key : Sound graph autonomy deadline hunters start (setBest s.best ns nk) := by
    intro st k hk
    by_cases hst : st = ns
    · subst hst
      simp only [setBest_self, Option.some.injEq] at hk
      subst hk
      exact hr
    · simp only [setBest_other _ _ _ _ hst] at hk
      exact hs st k hk
  unfold relax
  cases hb : s.best ns with
  | none => exact key
  | some old =>
    simp only
    split
    · exact key
    · exact hs

theorem bump_eq (p : String) (d k : Int) :
    bump hunters p d k = k + (if hunters p d then 1 else 0) := by
  unfold bump
  split <;> simp

/-- The loop over the arcs: it only relaxes, keeps the records sound, and
afterwards every arc that passes the fuel and deadline checks is relaxed. -/
theorem jumps_spec {start : String} (k : Int) (st : state)
    (hreach : Reach graph autonomy deadline hunters start st k) :
    ∀ (es : List edge) (s : searchState), (∀ e ∈ es, e ∈ graph.get st.planet) →
      Sound graph autonomy deadline hunters start s.best →
      Ext s (jumps hunters deadline k st es s) ∧
      Sound graph autonomy deadline hunters start (jumps hunters deadline k st es s).best ∧
      ∀ e ∈ es, e.cost ≤ st.fuel → st.day + e.cost ≤ deadline →
        ∃ k1, (jumps hunters deadline k st es s).best
            ⟨st.day + e.cost, e.dest, st.fuel - e.cost⟩ = some k1 ∧
          k1 ≤ k + (if hunters e.dest (st.day + e.cost) then 1 else 0) := by
  intro es
  induction es with
  | nil =>
    intro s _ hs
    exact ⟨Ext.refl s, hs, fun e he => absurd he (List.not_mem_nil e)⟩
  | cons e es ih =>
    intro s hsub hs
    have hsub2 : ∀ x ∈ es, x ∈ graph.get st.planet :=
      fun x hx => hsub x (List.mem_cons_of_mem _ hx)
    simp only [jumps]
    by_cases h1 : e.cost > st.fuel
    · simp only [h1, if_true]
      obtain ⟨a, b, c⟩ := ih s hsub2 hs
      refine ⟨a, b, ?_⟩
      intro x hx hf hd
      rcases List.mem_cons.1 hx with rfl | hx
      · omega
      · exact c x hx hf hd
    · by_cases h2 : st.day + e.cost > deadline
      · simp only [h1, h2, if_true, if_false]
        obtain ⟨a, b, c⟩ := ih s hsub2 hs
        refine ⟨a, b, ?_⟩
        intro x hx hf hd
        rcases List.mem_cons.1 hx with rfl | hx
        · omega
        · exact c x hx hf hd
      · simp only [h1, h2, if_false]
        have hmove : applyMove graph autonomy deadline hunters st (.jump e)
            = some (⟨st.day + e.cost, e.dest, st.fuel - e.cost⟩,
                if hunters e.dest (st.day + e.cost) then 1 else 0) := by
          have : e ∈ graph.get st.planet ∧ e.cost ≤ st.fuel ∧ st.day + e.cost ≤ deadline :=
            ⟨hsub e (List.mem_cons_self _ _), by omega, by omega⟩
          simp only [applyMove, this, and_self, if_true]
        have hr := Reach.step graph autonomy deadline hunters hreach hmove
        rw [← bump_eq] at hr
        have hs1 := relax_sound graph autonomy deadline hunters s _ _ hs hr
        obtain ⟨a, b, c⟩ := ih _ hsub2 hs1
        refine ⟨(relax_ext s _ _).trans a, b, ?_⟩
        intro x hx hf hd
        rcases List.mem_cons.1 hx with rfl | hx
        · obtain ⟨k1, hk1, hle1⟩ := relax_best_le s
            (bump hunters x.dest (st.day + x.cost) k)
            ⟨st.day + x.cost, x.dest, st.fuel - x.cost⟩
          obtain ⟨k2, hk2, hle2⟩ := a.mono _ _ hk1
          rw [bump_eq] at hle1
          exact ⟨k2, hk2, le_trans hle2 hle1⟩
        · exact c x hx hf hd

/-- The expansion of a popped entry: it only relaxes, keeps the records sound,
and afterwards every successor of the popped state is relaxed. -/
theorem expand_spec {start : String} (k : Int) (st : state) (s : searchState)
    (hreach : Reach graph autonomy deadline hunters start st k)
    (hs : Sound graph autonomy deadline hunters start s.best) :
    Ext s (expand graph autonomy deadline hunters k st s) ∧
    Sound graph autonomy deadline hunters start
      (expand graph autonomy deadline hunters k st s).best ∧
    Relaxed graph autonomy deadline hunters
      (expand graph autonomy deadline hunters k st s).best st k := by
  unfold expand
  by_cases hd : st.day + 1 ≤ deadline
  · simp only [hd, if_true]
    have hw : applyMove graph autonomy deadline hunters st .wait
        = some (⟨st.day + 1, st.planet, st.fuel⟩, 0) := by
      simp only [applyMove, hd, if_true]
    have hf : applyMove graph autonomy deadline hunters st .refuel
        = some (⟨st.day + 1, st.planet, autonomy⟩,
            if hunters st.planet (st.day + 1) then 1 else 0) := by
      simp only [applyMove, hd, if_true]
    have hrw := Reach.step graph autonomy deadline hunters hreach hw
    rw [add_zero] at hrw
    have hrf := Reach.step graph autonomy deadline hunters hreach hf
    rw [← bump_eq] at hrf
    have hs1 := relax_sound graph autonomy deadline hunters s _ _ hs hrw
    have hs2 := relax_sound graph autonomy deadline hunters _ _ _ hs1 hrf
    have e1 := relax_ext s k ⟨st.day + 1, st.planet, st.fuel⟩
    have e2 := relax_ext (relax s k ⟨st.day + 1, st.planet, st.fuel⟩)
      (bump hunters st.planet (st.day + 1) k) ⟨st.day + 1, st.planet, autonomy⟩
    obtain ⟨a, b, c⟩ := jumps_spec graph autonomy deadline hunters k st hreach
      (graph.get st.planet) _ (fun _ h => h) hs2
    refine ⟨(e1.trans e2).trans a, b, ?_⟩
    intro m ns cst hm
    cases m with
    | wait =>
      rw [hw] at hm
      simp only [Option.some.injEq, Prod.mk.injEq] at hm
      obtain ⟨rfl, rfl⟩ := hm
      obtain ⟨k1, hk1, hle1⟩ := relax_best_le s k ⟨st.day + 1, st.planet, st.fuel⟩
      obtain ⟨k2, hk2, hle2⟩ := (e2.trans a).mono _ _ hk1
      exact ⟨k2, hk2, by omega⟩
    | refuel =>
      rw [hf] at hm
      simp only [Option.some.injEq, Prod.mk.injEq] at hm
      obtain ⟨rfl, rfl⟩ := hm
      obtain ⟨k1, hk1, hle1⟩ := relax_best_le (relax s k ⟨st.day + 1, st.planet, st.fuel⟩)
        (bump hunters st.planet (st.day + 1) k) ⟨st.day + 1, st.planet, autonomy⟩
      obtain ⟨k2, hk2, hle2⟩ := a.mono _ _ hk1
      rw [bump_eq] at hle1
      exact ⟨k2, hk2, le_trans hle2 hle1⟩
    | jump e =>
      simp only [applyMove] at hm
      split at hm
      · rename_i hc
        simp only [Option.some.injEq, Prod.mk.injEq] at hm
        obtain ⟨rfl, rfl⟩ := hm
        exact c e hc.1 hc.2.1 hc.2.2
      · cases hm
  · simp only [hd, if_false]
    obtain ⟨a, b, c⟩ := jumps_spec graph autonomy deadline hunters k st hreach
      (graph.get st.planet) s (fun _ h => h) hs
    refine ⟨a, b, ?_⟩
    intro m ns cst hm
    cases m with
    | wait => simp only [applyMove, hd, if_false] at hm; cases hm
    | refuel => simp only [applyMove, hd, if_false] at hm; cases hm
    | jump e =>
      simp only [applyMove] at hm
      split at hm
      · rename_i hc
        simp only [Option.some.injEq, Prod.mk.injEq] at hm
        obtain ⟨rfl, rfl⟩ := hm
        exact c e hc.1 hc.2.1 hc.2.2
      · cases hm

end Search

/-! ## The main loop: what it returns -/

section Search

variable (graph : Graph) (autonomy deadline : Int) (hunters : Hunters)

/-- Along any plan that starts at a recorded state, either some heap entry is
at most as costly as the plan so far, or the plan ends in a recorded state
that is not a goal state. -/
theorem exists_heap_entry_le (hpos : graph.PosCosts) {start goal : String}
    {s : searchState}
    (hinv : Inv graph autonomy deadline hunters start goal s) (plan : List Move) :
    ∀ (st : state) (k : Int) (st1 : state) (c : Int), s.best st = some k →
      runPlan graph autonomy deadline hunters st plan = some (st1, c) →
      (∃ y ∈ s.pq, y.k ≤ k + c) ∨
        (∃ k1, s.best st1 = some k1 ∧ k1 ≤ k + c ∧ ¬ isGoal goal deadline st1) := by
  induction plan with
  | nil =>
    intro st k st1 c hk hrun
    simp only [runPlan, Option.some.injEq, Prod.mk.injEq] at hrun
    obtain ⟨rfl, rfl⟩ := hrun
    rcases hinv.closed st k hk with h | h
    · exact Or.inl ⟨_, h, by simp⟩
    · exact Or.inr ⟨k, hk, by simp, h.1⟩
  | cons m ms ih =>
    intro st k st1 c hk hrun
    have hc := runPlan_cost graph autonomy deadline hunters hpos _ _ _ _ hrun
    simp only [runPlan] at hrun
    cases hm : applyMove graph autonomy deadline hunters st m with
    | none => rw [hm] at hrun; cases hrun
    | some r =>
      obtain ⟨st2, c2⟩ := r
      rw [hm] at hrun
      simp only at hrun
      cases hr : runPlan graph autonomy deadline hunters st2 ms with
      | none => rw [hr] at hrun; cases hrun
      | some r2 =>
        obtain ⟨st3, c3⟩ := r2
        rw [hr] at hrun
        simp only [Option.some.injEq, Prod.mk.injEq] at hrun
        obtain ⟨rfl, rfl⟩ := hrun
        rcases hinv.closed st k hk with h | h
        · exact Or.inl ⟨_, h, by simp only; omega⟩
        · obtain ⟨k2, hk2, hle2⟩ := h.2 m st2 c2 hm
          rcases ih st2 k2 st3 c3 hk2 hr with ⟨y, hy, hyle⟩ | ⟨k3, hk3, hle3, hg⟩
          · exact Or.inl ⟨y, hy, by omega⟩
          · exact Or.inr ⟨k3, hk3, by omega, hg⟩

/-- The invariant holds when the loop is entered. -/
theorem initState_inv (start goal : String) :
    Inv graph autonomy deadline hunters start goal (initState start autonomy) := by
  have hbest : ∀ st k, (initState start autonomy).best st = some k →
      st = startState start autonomy ∧ k = 0 := by
    intro st k hk
    by_cases hst : st = ⟨0, start, autonomy⟩
    · subst hst
      have h0 : (initState start autonomy).best ⟨0, start, autonomy⟩ = some 0 := by
        simp [initState, setBest]
      rw [h0] at hk
      exact ⟨rfl, (Option.some.inj hk).symm⟩
    · have h0 : (initState start autonomy).best st = none := by
        simp [initState, setBest, hst]
      rw [h0] at hk
      cases hk
  refine ⟨?_, ?_, ?_, ?_⟩
  · show IsHeap (heapPush [] _)
    apply heapPush_isHeap
    intro m _ hm
    simp at hm
  · intro st k hk
    obtain ⟨rfl, rfl⟩ := hbest st k hk
    exact Reach.init graph autonomy deadline hunters start
  · exact ⟨0, by simp [initState, setBest, startState], le_refl _⟩
  · intro st k hk
    obtain ⟨rfl, rfl⟩ := hbest st k hk
    exact Or.inl ((heapPush_mem [] _ _).2 (Or.inl rfl))

/-- Discarding a stale entry keeps the invariant. -/
theorem inv_of_stale {start goal : String} {s : searchState} {cur : pqNode}
    {pq1 : minHeap} (hinv : Inv graph autonomy deadline hunters start goal s)
    (hpop : heapPop s.pq = some (cur, pq1)) (hstale : s.best cur.st ≠ some cur.k) :
    Inv graph autonomy deadline hunters start goal ⟨pq1, s.best⟩ := by
  obtain ⟨hperm, _, hheap⟩ := heapPop_spec _ _ _ hpop
  refine ⟨(hheap hinv.heap).1, hinv.sound, hinv.origin, ?_⟩
  intro st k hk
  rcases hinv.closed st k hk with h | h
  · rcases List.mem_cons.1 (hperm.mem_iff.2 h) with h1 | h1
    · exfalso
      apply hstale
      rw [← h1]
      exact hk
    · exact Or.inl h1
  · exact Or.inr h

/-- Expanding a popped entry that is not stale and not a goal state keeps the
invariant. -/
theorem inv_of_expand {start goal : String} {s : searchState} {cur : pqNode}
    {pq1 : minHeap} (hinv : Inv graph autonomy deadline hunters start goal s)
    (hpop : heapPop s.pq = some (cur, pq1)) (hfresh : s.best cur.st = some cur.k)
    (hgoal : ¬ isGoal goal deadline cur.st) :
    Inv graph autonomy deadline hunters start goal
      (expand graph autonomy deadline hunters cur.k cur.st ⟨pq1, s.best⟩) := by
  obtain ⟨hperm, _, hheap⟩ := heapPop_spec _ _ _ hpop
  obtain ⟨hext, hsound, hrel⟩ := expand_spec graph autonomy deadline hunters cur.k cur.st
    ⟨pq1, s.best⟩ (hinv.sound _ _ hfresh) hinv.sound
  refine ⟨hext.heap (hheap hinv.heap).1, hsound, ?_, ?_⟩
  · obtain ⟨k0, hk0, hle0⟩ := hinv.origin
    obtain ⟨k1, hk1, hle1⟩ := hext.mono _ _ hk0
    exact ⟨k1, hk1, le_trans hle1 hle0⟩
  · intro st k hk
    rcases hext.pushed st k hk with h | h
    · rcases hinv.closed st k h with h1 | h1
      · rcases List.mem_cons.1 (hperm.mem_iff.2 h1) with h2 | h2
        · subst h2
          exact Or.inr ⟨hgoal, hrel⟩
        · exact Or.inl (hext.kept _ h2)
      · right
        refine ⟨h1.1, ?_⟩
        intro m ns c hm
        obtain ⟨k1, hk1, hle1⟩ := h1.2 m ns c hm
        obtain ⟨k2, hk2, hle2⟩ := hext.mono _ _ hk1
        exact ⟨k2, hk2, le_trans hle2 hle1⟩
    · exact Or.inl h

/-- Whatever the loop returns from a configuration that satisfies the
invariant is what the search has to return. -/
theorem searchLoop_correct (hpos : graph.PosCosts) {start goal : String} (n : Nat) :
    ∀ (s : searchState) (r : Attempts),
      Inv graph autonomy deadline hunters start goal s →
      searchLoop graph goal autonomy deadline hunters n s = some r →
      Correct graph autonomy deadline hunters start goal r := by
  induction n with
  | zero => intro s r _ h; simp [searchLoop] at h
  | succ n ih =>
    intro s r hinv h
    simp only [searchLoop] at h
    by_cases hlen : s.pq.length > 0
    · simp only [hlen, if_true] at h
      cases hpop : heapPop s.pq with
      | none => rw [hpop] at h; cases h
      | some x =>
        obtain ⟨cur, pq1⟩ := x
        rw [hpop] at h
        simp only at h
        by_cases hstale : s.best cur.st ≠ some cur.k
        · rw [if_pos hstale] at h
          exact ih _ _ (inv_of_stale graph autonomy deadline hunters hinv hpop hstale) h
        · have hfresh : s.best cur.st = some cur.k := not_not.1 hstale
          rw [if_neg hstale] at h
          by_cases hgoal : cur.st.planet = goal ∧ cur.st.day ≤ deadline
          · simp only [hgoal, and_self, if_true, Option.some.injEq] at h
            subst h
            obtain ⟨_, _, hheap⟩ := heapPop_spec _ _ _ hpop
            have hmin := (hheap hinv.heap).2
            constructor
            · obtain ⟨plan, hplan⟩ := hinv.sound _ _ hfresh
              exact ⟨plan, cur.st, hplan, hgoal.1, hgoal.2⟩
            · intro plan c ⟨st1, hrun, hg1, hg2⟩
              obtain ⟨k0, hk0, hle0⟩ := hinv.origin
              rcases exists_heap_entry_le graph autonomy deadline hunters hpos hinv plan
                _ _ _ _ hk0 hrun with ⟨y, hy, hyle⟩ | ⟨k1, _, _, hng⟩
              · have := hmin y hy
                omega
              · exact absurd ⟨hg1, hg2⟩ hng
          · simp only [hgoal, if_false] at h
            exact ih _ _
              (inv_of_expand graph autonomy deadline hunters hinv hpop hfresh hgoal) h
    · simp only [hlen, if_false, Option.some.injEq] at h
      subst h
      intro plan c ⟨st1, hrun, hg1, hg2⟩
      obtain ⟨k0, hk0, hle0⟩ := hinv.origin
      have hnil : s.pq = [] := List.length_eq_zero.1 (by omega)
      rcases exists_heap_entry_le graph autonomy deadline hunters hpos hinv plan
        _ _ _ _ hk0 hrun with ⟨y, hy, hyle⟩ | ⟨k1, _, _, hng⟩
      · rw [hnil] at hy
        cases hy
      · exact absurd ⟨hg1, hg2⟩ hng

end Search

/-! ## Termination -/

section Search

variable (graph : Graph) (autonomy deadline : Int) (hunters : Hunters)

theorem mem_planets_of_edge {p : String} {e : edge} (start : String)
    (he : e ∈ graph.get p) : e.dest ∈ planets graph start := by
  have hex : ∃ kv ∈ graph, e ∈ kv.2 := by
    induction graph with
    | nil => simp [Graph.get] at he
    | cons kv rest ih =>
      obtain ⟨q, es⟩ := kv
      simp only [Graph.get] at he
      split at he
      · exact ⟨(q, es), List.mem_cons_self _ _, he⟩
      · obtain ⟨kv, hkv, hmem⟩ := ih he
        exact ⟨kv, List.mem_cons_of_mem _ hkv, hmem⟩
  obtain ⟨kv, hkv, hmem⟩ := hex
  unfold planets
  apply List.mem_cons_of_mem
  rw [List.mem_flatMap]
  exact ⟨kv, hkv, List.mem_map.2 ⟨e, hmem, rfl⟩⟩

theorem applyMove_stateOk (hpos : graph.PosCosts) {start : String} {st ns : state}
    {c : Int} {m : Move}
    (hm : applyMove graph autonomy deadline hunters st m = some (ns, c))
    (hok : StateOk graph autonomy deadline start st) :
    StateOk graph autonomy deadline start ns := by
  obtain ⟨h1, h2, h3, h4, h5⟩ := hok
  cases m with
  | wait =>
    simp only [applyMove] at hm
    split at hm
    · simp only [Option.some.injEq, Prod.mk.injEq] at hm
      obtain ⟨rfl, rfl⟩ := hm
      exact ⟨by simp only; omega, by simp only; omega, h3, h4, h5⟩
    · cases hm
  | refuel =>
    simp only [applyMove] at hm
    split at hm
    · simp only [Option.some.injEq, Prod.mk.injEq] at hm
      obtain ⟨rfl, _⟩ := hm
      exact ⟨by simp only; omega, by simp only; omega, by simp only; omega,
        le_refl _, h5⟩
    · cases hm
  | jump e =>
    simp only [applyMove] at hm
    split at hm
    · rename_i hc
      simp only [Option.some.injEq, Prod.mk.injEq] at hm
      obtain ⟨rfl, _⟩ := hm
      have := hpos _ _ hc.1
      exact ⟨by simp only; omega, by simp only; omega, by simp only; omega,
        by simp only; omega, mem_planets_of_edge graph start hc.1⟩
    · cases hm

theorem runPlan_stateOk (hpos : graph.PosCosts) {start : String} (plan : List Move) :
    ∀ (st ns : state) (c : Int),
      runPlan graph autonomy deadline hunters st plan = some (ns, c) →
      StateOk graph autonomy deadline start st →
      StateOk graph autonomy deadline start ns := by
  induction plan with
  | nil =>
    intro st ns c h hok
    simp only [runPlan, Option.some.injEq, Prod.mk.injEq] at h
    obtain ⟨rfl, _⟩ := h
    exact hok
  | cons m ms ih =>
    intro st ns c h hok
    simp only [runPlan] at h
    cases hm : applyMove graph autonomy deadline hunters st m with
    | none => rw [hm] at h; cases h
    | some r =>
      obtain ⟨st1, c1⟩ := r
      rw [hm] at h
      simp only at h
      cases hr : runPlan graph autonomy deadline hunters st1 ms with
      | none => rw [hr] at h; cases h
      | some r2 =>
        obtain ⟨st2, c2⟩ := r2
        rw [hr] at h
        simp only [Option.some.injEq, Prod.mk.injEq] at h
        obtain ⟨rfl, _⟩ := h
        exact ih _ _ _ hr (applyMove_stateOk graph autonomy deadline hunters hpos hm hok)

theorem startState_stateOk (start : String) :
    StateOk graph autonomy deadline start (startState start autonomy) := by
  refine ⟨le_refl _, le_max_right _ _, min_le_left _ _, le_refl _, ?_⟩
  exact List.mem_cons_self _ _

/-- A state reached by a plan lies in the state space, and the cost of the plan
is between 0 and the day reached. -/
theorem Reach.bounds (hpos : graph.PosCosts) {start : String} {st : state} {k : Int}
    (hr : Reach graph autonomy deadline hunters start st k) :
    st ∈ stateSpace graph autonomy deadline start ∧ 0 ≤ k ∧ k ≤ st.day ∧
      st.day ≤ max deadline 0 := by
  obtain ⟨plan, hp⟩ := hr
  have hok := runPlan_stateOk graph autonomy deadline hunters hpos plan _ _ _ hp
    (startState_stateOk graph autonomy deadline start)
  have hc := runPlan_cost graph autonomy deadline hunters hpos plan _ _ _ hp
  obtain ⟨h1, h2, h3, h4, h5⟩ := hok
  refine ⟨?_, hc.1, by simpa [startState] using hc.2, h2⟩
  unfold stateSpace
  rw [Finset.mem_image]
  refine ⟨(st.day, st.planet, st.fuel), ?_, rfl⟩
  simp only [Finset.mem_product, Finset.mem_Icc, List.mem_toFinset]
  exact ⟨⟨h1, h2⟩, h5, h3, h4⟩

theorem potential_setBest_lt (U : Finset state) (D : Nat) (best : state → Option Int)
    (ns : state) (nk : Int) (hmem : ns ∈ U)
    (hlt : pot D (some nk) < pot D (best ns)) :
    potential U D (setBest best ns nk) < potential U D best := by
  unfold potential
  apply Finset.sum_lt_sum
  · intro x _
    by_cases hx : x = ns
    · subst hx
      rw [setBest_self]
      exact le_of_lt hlt
    · rw [setBest_other _ _ _ _ hx]
  · exact ⟨ns, hmem, by rw [setBest_self]; exact hlt⟩

/-- A relaxation with the cost of a plan never increases the measure. -/
theorem relax_measure_le (hpos : graph.PosCosts) {start : String} (s : searchState)
    (nk : Int) (ns : state)
    (hr : Reach graph autonomy deadline hunters start ns nk) :
    loopMeasure graph autonomy deadline start (relax s nk ns)
      ≤ loopMeasure graph autonomy deadline start s := by
  obtain ⟨hU, h0, hday, hdl⟩ := Reach.bounds graph autonomy deadline hunters hpos hr
  have key : pot deadline.toNat (some nk) < pot deadline.toNat (s.best ns) →
      loopMeasure graph autonomy deadline start
          ⟨heapPush s.pq ⟨nk, ns⟩, setBest s.best ns nk⟩
        ≤ loopMeasure graph autonomy deadline start s := by
    intro hlt
    have := potential_setBest_lt (stateSpace graph autonomy deadline start)
      deadline.toNat s.best ns nk hU hlt
    unfold loopMeasure
    simp only [heapPush_length]
    omega
  unfold relax
  cases hb : s.best ns with
  | none =>
    apply key
    rw [hb]
    simp only [pot]
    omega
  | some old =>
    simp only
    split
    · apply key
      rw [hb]
      simp only [pot]
      omega
    · exact le_refl _

end Search

/-- What one relaxation changes: the record of `ns`, which becomes `nk`, and
the heap, which gains the entry `(nk, ns)`. -/
theorem relax_changes (s : searchState) (nk : Int) (ns : state) :
    (∀ x, (relax s nk ns).best x ≠ s.best x → x = ns ∧ (relax s nk ns).best x = some nk) ∧
    (∀ y, y ∈ (relax s nk ns).pq → y ∈ s.pq ∨ y = ⟨nk, ns⟩) := by
  have key : (∀ x, setBest s.best ns nk x ≠ s.best x →
        x = ns ∧ setBest s.best ns nk x = some nk) ∧
      (∀ y, y ∈ heapPush s.pq ⟨nk, ns⟩ → y ∈ s.pq ∨ y = ⟨nk, ns⟩) := by
    constructor
    · intro x hx
      by_cases hxn : x = ns
      · subst hxn; exact ⟨rfl, setBest_self _ _ _⟩
      · exact absurd (setBest_other _ _ _ _ hxn) hx
    · intro y hy
      rcases (heapPush_mem _ _ _).1 hy with h | h
      · exact Or.inr h
      · exact Or.inl h
  unfold relax
  cases hb : s.best ns with
  | none => exact key
  | some old =>
    simp only
    split
    · exact key
    · exact ⟨fun x hx => absurd rfl hx, fun y hy => Or.inl hy⟩

/-- Whatever a sequence of relaxations records or pushes is one of its
pairs. -/
theorem RelaxSeq.changes {P : Int → state → Prop} {s t : searchState}
    (h : RelaxSeq P s t) :
    (∀ x, t.best x ≠ s.best x → ∃ nk, P nk x ∧ t.best x = some nk) ∧
    (∀ y, y ∈ t.pq → y ∈ s.pq ∨ P y.k y.st) := by
  induction h with
  | refl s => exact ⟨fun x hx => absurd rfl hx, fun y hy => Or.inl hy⟩
  | @step s t nk ns hp _ ih =>
    obtain ⟨ih1, ih2⟩ := ih
    obtain ⟨hc1, hc2⟩ := relax_changes s nk ns
    constructor
    · intro x hx
      by_cases hx2 : t.best x = (relax s nk ns).best x
      · rw [hx2] at hx
        obtain ⟨rfl, hv⟩ := hc1 x hx
        exact ⟨nk, hp, by rw [hx2]; exact hv⟩
      · exact ih1 x hx2
    · intro y hy
      rcases ih2 y hy with h | h
      · rcases hc2 y h with h1 | h1
        · exact Or.inl h1
        · subst h1; exact Or.inr hp
      · exact Or.inr h

section Search

variable (graph : Graph) (autonomy deadline : Int) (hunters : Hunters)

theorem RelaxSeq.measure_le (hpos : graph.PosCosts) {start : String}
    {P : Int → state → Prop}
    (hP : ∀ nk ns, P nk ns → Reach graph autonomy deadline hunters start ns nk)
    {s t : searchState} (h : RelaxSeq P s t) :
    loopMeasure graph autonomy deadline start t
      ≤ loopMeasure graph autonomy deadline start s := by
  induction h with
  | refl s => exact le_refl _
  | @step s t nk ns hp _ ih =>
    exact le_trans ih
      (relax_measure_le graph autonomy deadline hunters hpos s nk ns (hP nk ns hp))

theorem jumps_relaxSeq (k : Int) (st : state) :
    ∀ (es : List edge) (s : searchState), (∀ e ∈ es, e ∈ graph.get st.planet) →
      RelaxSeq (Succ graph autonomy deadline hunters st k) s
        (jumps hunters deadline k st es s) := by
  intro es
  induction es with
  | nil => intro s _; exact RelaxSeq.refl s
  | cons e es ih =>
    intro s hsub
    have hsub2 : ∀ x ∈ es, x ∈ graph.get st.planet :=
      fun x hx => hsub x (List.mem_cons_of_mem _ hx)
    simp only [jumps]
    by_cases h1 : e.cost > st.fuel
    · simp only [h1, if_true]
      exact ih s hsub2
    · by_cases h2 : st.day + e.cost > deadline
      · simp only [h1, h2, if_true, if_false]
        exact ih s hsub2
      · simp only [h1, h2, if_false]
        refine RelaxSeq.step ?_ (ih _ hsub2)
        refine ⟨.jump e, if hunters e.dest (st.day + e.cost) then 1 else 0, ?_,
          bump_eq hunters _ _ _⟩
        have : e ∈ graph.get st.planet ∧ e.cost ≤ st.fuel ∧ st.day + e.cost ≤ deadline :=
          ⟨hsub e (List.mem_cons_self _ _), by omega, by omega⟩
        simp only [applyMove, this, and_self, if_true]

/-- The expansion of `(k, st)` is a sequence of relaxations with successors
of `st`, each at `k` plus the charge of the move. -/
theorem expand_relaxSeq (k : Int) (st : state) (s : searchState) :
    RelaxSeq (Succ graph autonomy deadline hunters st k) s
      (expand graph autonomy deadline hunters k st s) := by
  unfold expand
  by_cases hd : st.day + 1 ≤ deadline
  · simp only [hd, if_true]
    have hw : Succ graph autonomy deadline hunters st k k
        ⟨st.day + 1, st.planet, st.fuel⟩ :=
      ⟨.wait, 0, by simp only [applyMove, hd, if_true], by simp⟩
    have hf : Succ graph autonomy deadline hunters st k
        (bump hunters st.planet (st.day + 1) k) ⟨st.day + 1, st.planet, autonomy⟩ :=
      ⟨.refuel, if hunters st.planet (st.day + 1) then 1 else 0,
        by simp only [applyMove, hd, if_true], bump_eq hunters _ _ _⟩
    exact RelaxSeq.step hw (RelaxSeq.step hf
      (jumps_relaxSeq graph autonomy deadline hunters k st _ _ (fun _ h => h)))
  · simp only [hd, if_false]
    exact jumps_relaxSeq graph autonomy deadline hunters k st _ _ (fun _ h => h)

theorem Succ.reach {start : String} {st : state} {k : Int}
    (hr : Reach graph autonomy deadline hunters start st k) (nk : Int) (ns : state)
    (h : Succ graph autonomy deadline hunters st k nk ns) :
    Reach graph autonomy deadline hunters start ns nk := by
  obtain ⟨m, c, hm, rfl⟩ := h
  exact Reach.step graph autonomy deadline hunters hr hm

/-- Enough budget: from a configuration that satisfies the invariant the loop
returns within `loopMeasure + 1` iterations. -/
theorem searchLoop_terminates (hpos : graph.PosCosts) {start goal : String} (n : Nat) :
    ∀ (s : searchState), Inv graph autonomy deadline hunters start goal s →
      loopMeasure graph autonomy deadline start s < n →
      ∃ r, searchLoop graph goal autonomy deadline hunters n s = some r := by
  induction n with
  | zero => intro s _ h; omega
  | succ n ih =>
    intro s hinv hlt
    simp only [searchLoop]
    by_cases hlen : s.pq.length > 0
    · simp only [hlen, if_true]
      obtain ⟨cur, pq1, hpop⟩ := heapPop_isSome s.pq hlen
      obtain ⟨hperm, _, _⟩ := heapPop_spec _ _ _ hpop
      have hl : pq1.length + 1 = s.pq.length := by
        rw [← hperm.length_eq, List.length_cons]
      have hm1 : loopMeasure graph autonomy deadline start ⟨pq1, s.best⟩ < n := by
        unfold loopMeasure at hlt ⊢
        simp only
        omega
      rw [hpop]
      simp only
      by_cases hstale : s.best cur.st ≠ some cur.k
      · rw [if_pos hstale]
        exact ih _ (inv_of_stale graph autonomy deadline hunters hinv hpop hstale) hm1
      · have hfresh : s.best cur.st = some cur.k := not_not.1 hstale
        rw [if_neg hstale]
        by_cases hgoal : cur.st.planet = goal ∧ cur.st.day ≤ deadline
        · rw [if_pos hgoal]
          exact ⟨_, rfl⟩
        · rw [if_neg hgoal]
          apply ih _ (inv_of_expand graph autonomy deadline hunters hinv hpop hfresh hgoal)
          have := RelaxSeq.measure_le graph autonomy deadline hunters hpos
            (Succ.reach graph autonomy deadline hunters (hinv.sound _ _ hfresh))
            (expand_relaxSeq graph autonomy deadline hunters cur.k cur.st ⟨pq1, s.best⟩)
          omega
    · simp only [hlen, if_false]
      exact ⟨_, rfl⟩

/-- A larger budget does not change what the loop returns. -/
theorem searchLoop_mono (goal : String) (n : Nat) :
    ∀ (s : searchState) (r : Attempts) (m : Nat), n ≤ m →
      searchLoop graph goal autonomy deadline hunters n s = some r →
      searchLoop graph goal autonomy deadline hunters m s = some r := by
  induction n with
  | zero => intro s r m _ h; simp [searchLoop] at h
  | succ n ih =>
    intro s r m hm h
    obtain ⟨m1, rfl⟩ : ∃ m1, m = m1 + 1 := ⟨m - 1, by omega⟩
    simp only [searchLoop] at h ⊢
    by_cases hlen : s.pq.length > 0
    · simp only [hlen, if_true] at h ⊢
      cases hpop : heapPop s.pq with
      | none => rw [hpop] at h; cases h
      | some x =>
        obtain ⟨cur, pq1⟩ := x
        rw [hpop] at h
        simp only at h ⊢
        by_cases hstale : s.best cur.st ≠ some cur.k
        · rw [if_pos hstale] at h ⊢
          exact ih _ _ _ (by omega) h
        · rw [if_neg hstale] at h ⊢
          by_cases hgoal : cur.st.planet = goal ∧ cur.st.day ≤ deadline
          · rw [if_pos hgoal] at h ⊢
            exact h
          · rw [if_neg hgoal] at h ⊢
            exact ih _ _ _ (by omega) h
    · simp only [hlen, if_false] at h ⊢
      exact h

end Search

/-! ## The search as a whole -/

theorem Graph.posCosts_of_entries (g : Graph)
    (h : ∀ kv ∈ g, ∀ e ∈ kv.2, 0 < e.cost) : g.PosCosts := by
  intro p e he
  induction g with
  | nil => simp [Graph.get] at he
  | cons kv rest ih =>
    obtain ⟨q, es⟩ := kv
    simp only [Graph.get] at he
    split at he
    · exact h (q, es) (List.mem_cons_self _ _) e he
    · exact ih (fun kv hkv => h kv (List.mem_cons_of_mem _ hkv)) he

section Search

variable (graph : Graph) (autonomy deadline : Int) (hunters : Hunters)

/-- At most one result is what the search has to return. -/
theorem Correct.unique {start goal : String} {r1 r2 : Attempts}
    (h1 : Correct graph autonomy deadline hunters start goal r1)
    (h2 : Correct graph autonomy deadline hunters start goal r2) : r1 = r2 := by
  cases r1 with
  | finite k1 =>
    cases r2 with
    | finite k2 =>
      obtain ⟨⟨p1, hp1⟩, hmin1⟩ := h1
      obtain ⟨⟨p2, hp2⟩, hmin2⟩ := h2
      have := hmin1 p2 k2 hp2
      have := hmin2 p1 k1 hp1
      have : k1 = k2 := by omega
      rw [this]
    | inf =>
      obtain ⟨⟨p1, hp1⟩, _⟩ := h1
      exact absurd hp1 (h2 p1 k1)
  | inf =>
    cases r2 with
    | finite k2 =>
      obtain ⟨⟨p2, hp2⟩, _⟩ := h2
      exact absurd hp2 (h1 p2 k2)
    | inf => rfl

/-- The search returns, with every budget above a bound, the one result it has
to return. -/
theorem minCaptureAttempts_total (hpos : graph.PosCosts) (start goal : String) :
    ∃ r, (∃ n, ∀ m, n ≤ m →
        minCaptureAttempts m graph start goal autonomy deadline hunters = some r) ∧
      (∀ m r1, minCaptureAttempts m graph start goal autonomy deadline hunters = some r1 →
        r1 = r) ∧
      Correct graph autonomy deadline hunters start goal r := by
  have hinv := initState_inv graph autonomy deadline hunters start goal
  obtain ⟨r, hr⟩ := searchLoop_terminates graph autonomy deadline hunters hpos
    (loopMeasure graph autonomy deadline start (initState start autonomy) + 1)
    (initState start autonomy) hinv (Nat.lt_succ_self _)
  have hc := searchLoop_correct graph autonomy deadline hunters hpos _ _ _ hinv hr
  refine ⟨r, ⟨_, fun m hm => searchLoop_mono graph autonomy deadline hunters goal _ _ _ m hm hr⟩,
    ?_, hc⟩
  intro m r1 h1
  exact Correct.unique graph autonomy deadline hunters
    (searchLoop_correct graph autonomy deadline hunters hpos _ _ _ hinv h1) hc

/-- The invariant and the bound on the measure hold at the head of every
iteration of the loop. -/
theorem loopConfig_inv (hpos : graph.PosCosts) {start goal : String} (i : Nat) :
    ∀ (s t : searchState), Inv graph autonomy deadline hunters start goal s →
      loopConfig graph goal autonomy deadline hunters i s = some t →
      Inv graph autonomy deadline hunters start goal t ∧
        loopMeasure graph autonomy deadline start t
          ≤ loopMeasure graph autonomy deadline start s := by
  induction i with
  | zero =>
    intro s t hinv h
    simp only [loopConfig, Option.some.injEq] at h
    subst h
    exact ⟨hinv, le_refl _⟩
  | succ i ih =>
    intro s t hinv h
    simp only [loopConfig] at h
    by_cases hlen : s.pq.length > 0
    · simp only [hlen, if_true] at h
      cases hpop : heapPop s.pq with
      | none => rw [hpop] at h; cases h
      | some x =>
        obtain ⟨cur, pq1⟩ := x
        rw [hpop] at h
        simp only at h
        obtain ⟨hperm, _, _⟩ := heapPop_spec _ _ _ hpop
        have hl : pq1.length + 1 = s.pq.length := by
          rw [← hperm.length_eq, List.length_cons]
        have hm1 : loopMeasure graph autonomy deadline start ⟨pq1, s.best⟩
            ≤ loopMeasure graph autonomy deadline start s := by
          unfold loopMeasure
          simp only
          omega
        by_cases hstale : s.best cur.st ≠ some cur.k
        · rw [if_pos hstale] at h
          obtain ⟨a, b⟩ :=
            ih _ _ (inv_of_stale graph autonomy deadline hunters hinv hpop hstale) h
          exact ⟨a, le_trans b hm1⟩
        · have hfresh : s.best cur.st = some cur.k := not_not.1 hstale
          rw [if_neg hstale] at h
          by_cases hgoal : cur.st.planet = goal ∧ cur.st.day ≤ deadline
          · rw [if_pos hgoal] at h; cases h
          · rw [if_neg hgoal] at h
            obtain ⟨a, b⟩ := ih _ _
              (inv_of_expand graph autonomy deadline hunters hinv hpop hfresh hgoal) h
            have := RelaxSeq.measure_le graph autonomy deadline hunters hpos
              (Succ.reach graph autonomy deadline hunters (hinv.sound _ _ hfresh))
              (expand_relaxSeq graph autonomy deadline hunters cur.k cur.st ⟨pq1, s.best⟩)
            exact ⟨a, le_trans b (le_trans this hm1)⟩
    · simp only [hlen, if_false] at h
      cases h

end Search

/-! ## The claims about the search -/

/-- Over the integers: on a graph with positive costs, whenever `minCaptureAttempts`
returns a finite `k`, some legal plan from `(0, start, autonomy)` ends at
`goal` on a day `≤ deadline` with total cost exactly `k`, and no such plan has
a smaller total cost. -/
theorem minCaptureAttempts_optimal (graph : Graph) (autonomy deadline : Int)
    (hunters : Hunters) (start goal : String) (budget : Nat) (k : Int)
    (hpos : graph.PosCosts)
    (hret : minCaptureAttempts budget graph start goal autonomy deadline hunters
      = some (.finite k)) :
    (∃ plan, Arrives graph autonomy deadline hunters start goal plan k) ∧
      ∀ plan c, Arrives graph autonomy deadline hunters start goal plan c → k ≤ c :=
  searchLoop_correct graph autonomy deadline hunters hpos budget _ _
    (initState_inv graph autonomy deadline hunters start goal) hret

/-- On the demo graph with a full tank of 6 and deadline 7 the optimum is 1. -/
theorem minCaptureAttempts_optimal_witness :
    (∃ plan, Arrives demoGraph 6 7 demoHunters "T" "E" plan 1) ∧
      ∀ plan c, Arrives demoGraph 6 7 demoHunters "T" "E" plan c → 1 ≤ c :=
  minCaptureAttempts_optimal demoGraph 6 7 demoHunters "T" "E" 40 1
    (Graph.posCosts_of_entries _ (by decide)) (by decide)

/-- Over the integers: on a graph with positive costs the search returns one result,
the same for every budget that is large enough and never a different one; the
result is `+Inf` exactly when no legal plan from `(0, start, autonomy)` ends at
`goal` on a day `≤ deadline`, and otherwise a finite count that is not
negative. -/
theorem minCaptureAttempts_inf_iff_no_arrival (graph : Graph)
    (autonomy deadline : Int) (hunters : Hunters) (start goal : String)
    (hpos : graph.PosCosts) :
    ∃ r, (∃ n, ∀ m, n ≤ m →
        minCaptureAttempts m graph start goal autonomy deadline hunters = some r) ∧
      (∀ m r1, minCaptureAttempts m graph start goal autonomy deadline hunters = some r1 →
        r1 = r) ∧
      (r = .inf ↔ ¬ ∃ plan c, Arrives graph autonomy deadline hunters start goal plan c) ∧
      (r = .inf ∨ ∃ k, 0 ≤ k ∧ r = .finite k) := by
  obtain ⟨r, h1, h2, hc⟩ := minCaptureAttempts_total graph autonomy deadline hunters
    hpos start goal
  refine ⟨r, h1, h2, ?_, ?_⟩
  · cases r with
    | finite k =>
      obtain ⟨⟨plan, hp⟩, _⟩ := hc
      constructor
      · intro h; cases h
      · intro h; exact absurd ⟨plan, k, hp⟩ h
    | inf =>
      constructor
      · rintro _ ⟨plan, c, hp⟩
        exact hc plan c hp
      · intro _; rfl
  · cases r with
    | finite k =>
      obtain ⟨⟨plan, st, hrun, _⟩, _⟩ := hc
      exact Or.inr ⟨k,
        (runPlan_cost graph autonomy deadline hunters hpos plan _ _ _ hrun).1, rfl⟩
    | inf => exact Or.inl rfl

/-- A single route of 6 days and a deadline of 5 days. -/
theorem minCaptureAttempts_inf_iff_no_arrival_witness :
    ∃ r, (∃ n, ∀ m, n ≤ m →
        minCaptureAttempts m [("T", [⟨"E", 6⟩]), ("E", [⟨"T", 6⟩])] "T" "E" 6 5
          (fun _ _ => false) = some r) ∧
      (∀ m r1, minCaptureAttempts m [("T", [⟨"E", 6⟩]), ("E", [⟨"T", 6⟩])] "T" "E" 6 5
          (fun _ _ => false) = some r1 → r1 = r) ∧
      (r = .inf ↔ ¬ ∃ plan c, Arrives [("T", [⟨"E", 6⟩]), ("E", [⟨"T", 6⟩])] 6 5
          (fun _ _ => false) "T" "E" plan c) ∧
      (r = .inf ∨ ∃ k, 0 ≤ k ∧ r = .finite k) :=
  minCaptureAttempts_inf_iff_no_arrival _ 6 5 _ "T" "E"
    (Graph.posCosts_of_entries _ (by decide))

/-! ## Comparing searches -/

section Search

variable (autonomy : Int) (hunters : Hunters)

/-- A plan without a charged move costs nothing. -/
theorem runPlan_hazardFree (graph : Graph) (deadline : Int) (plan : List Move) :
    ∀ (st ns : state) (c : Int),
      runPlan graph autonomy deadline hunters st plan = some (ns, c) →
      hazardFree hunters autonomy st plan → c = 0 := by
  induction plan with
  | nil =>
    intro st ns c h _
    simp only [runPlan, Option.some.injEq, Prod.mk.injEq] at h
    exact h.2.symm
  | cons m ms ih =>
    intro st ns c h hf
    simp only [runPlan] at h
    cases hm : applyMove graph autonomy deadline hunters st m with
    | none => rw [hm] at h; cases h
    | some r =>
      obtain ⟨st1, c1⟩ := r
      rw [hm] at h
      simp only at h
      cases hr : runPlan graph autonomy deadline hunters st1 ms with
      | none => rw [hr] at h; cases h
      | some r2 =>
        obtain ⟨st2, c2⟩ := r2
        rw [hr] at h
        simp only [Option.some.injEq, Prod.mk.injEq] at h
        obtain ⟨rfl, rfl⟩ := h
        cases m with
        | wait =>
          simp only [applyMove] at hm
          split at hm
          · simp only [Option.some.injEq, Prod.mk.injEq] at hm
            obtain ⟨rfl, rfl⟩ := hm
            simp only [hazardFree] at hf
            rw [ih _ _ _ hr hf]; rfl
          · cases hm
        | refuel =>
          simp only [applyMove] at hm
          split at hm
          · simp only [Option.some.injEq, Prod.mk.injEq] at hm
            obtain ⟨rfl, rfl⟩ := hm
            simp only [hazardFree] at hf
            rw [ih _ _ _ hr hf.2, hf.1]; rfl
          · cases hm
        | jump e =>
          simp only [applyMove] at hm
          split at hm
          · simp only [Option.some.injEq, Prod.mk.injEq] at hm
            obtain ⟨rfl, rfl⟩ := hm
            simp only [hazardFree] at hf
            rw [ih _ _ _ hr hf.2, hf.1]; rfl
          · cases hm

/-- With an empty hazard schedule no move of any plan is charged. -/
theorem hazardFree_of_no_hunters (plan : List Move) :
    ∀ (st : state), hazardFree (fun _ _ => false) autonomy st plan := by
  induction plan with
  | nil => intro st; trivial
  | cons m ms ih =>
    intro st
    cases m with
    | wait => exact ih _
    | refuel => exact ⟨rfl, ih _⟩
    | jump e => exact ⟨rfl, ih _⟩

end Search

/-- Over the integers: on a graph with positive costs the main loop terminates (with
every budget above a bound the search returns); every state an expansion
records or pushes has a day strictly after the day of the expanded state and
at most the deadline; and at the head of every iteration every recorded state
lies in the finite state space and the heap is no longer than the initial
measure. -/
theorem minCaptureAttempts_terminates (graph : Graph) (autonomy deadline : Int)
    (hunters : Hunters) (start goal : String) (hpos : graph.PosCosts) :
    (∃ n, ∀ m, n ≤ m →
      ∃ r, minCaptureAttempts m graph start goal autonomy deadline hunters = some r) ∧
    (∀ (k : Int) (st : state) (s : searchState),
      (∀ x, (expand graph autonomy deadline hunters k st s).best x ≠ s.best x →
        st.day < x.day ∧ x.day ≤ deadline) ∧
      (∀ y, y ∈ (expand graph autonomy deadline hunters k st s).pq →
        y ∈ s.pq ∨ (st.day < y.st.day ∧ y.st.day ≤ deadline))) ∧
    (∀ (i : Nat) (s : searchState),
      loopConfig graph goal autonomy deadline hunters i (initState start autonomy)
        = some s →
      (∀ x k, s.best x = some k → x ∈ stateSpace graph autonomy deadline start) ∧
      s.pq.length ≤ loopMeasure graph autonomy deadline start
        (initState start autonomy)) := by
  refine ⟨?_, ?_, ?_⟩
  · obtain ⟨r, ⟨n, hn⟩, _⟩ := minCaptureAttempts_total graph autonomy deadline hunters
      hpos start goal
    exact ⟨n, fun m hm => ⟨r, hn m hm⟩⟩
  · intro k st s
    obtain ⟨h1, h2⟩ := (expand_relaxSeq graph autonomy deadline hunters k st s).changes
    have hsucc : ∀ nk ns, Succ graph autonomy deadline hunters st k nk ns →
        st.day < ns.day ∧ ns.day ≤ deadline := by
      rintro nk ns ⟨m, c, hm, _⟩
      have := applyMove_cost graph autonomy deadline hunters hpos hm
      omega
    constructor
    · intro x hx
      obtain ⟨nk, hs, _⟩ := h1 x hx
      exact hsucc nk x hs
    · intro y hy
      rcases h2 y hy with h | h
      · exact Or.inl h
      · exact Or.inr (hsucc _ _ h)
  · intro i s hs
    obtain ⟨hinv, hle⟩ := loopConfig_inv graph autonomy deadline hunters hpos i _ _
      (initState_inv graph autonomy deadline hunters start goal) hs
    constructor
    · intro x k hk
      exact (Reach.bounds graph autonomy deadline hunters hpos (hinv.sound x k hk)).1
    · unfold loopMeasure at hle
      unfold loopMeasure
      omega

/-- A single route of 6 days and a deadline of 7 days. -/
theorem minCaptureAttempts_terminates_witness :
    (∃ n, ∀ m, n ≤ m →
      ∃ r, minCaptureAttempts m [("T", [⟨"E", 6⟩]), ("E", [⟨"T", 6⟩])] "T" "E" 6 7
        (fun p d => p == "E" && d == 6) = some r) ∧
    (∀ (k : Int) (st : state) (s : searchState),
      (∀ x, (expand [("T", [⟨"E", 6⟩]), ("E", [⟨"T", 6⟩])] 6 7
          (fun p d => p == "E" && d == 6) k st s).best x ≠ s.best x →
        st.day < x.day ∧ x.day ≤ 7) ∧
      (∀ y, y ∈ (expand [("T", [⟨"E", 6⟩]), ("E", [⟨"T", 6⟩])] 6 7
          (fun p d => p == "E" && d == 6) k st s).pq →
        y ∈ s.pq ∨ (st.day < y.st.day ∧ y.st.day ≤ 7))) ∧
    (∀ (i : Nat) (s : searchState),
      loopConfig [("T", [⟨"E", 6⟩]), ("E", [⟨"T", 6⟩])] "E" 6 7
        (fun p d => p == "E" && d == 6) i (initState "T" 6) = some s →
      (∀ x k, s.best x = some k →
        x ∈ stateSpace [("T", [⟨"E", 6⟩]), ("E", [⟨"T", 6⟩])] 6 7 "T") ∧
      s.pq.length ≤ loopMeasure [("T", [⟨"E", 6⟩]), ("E", [⟨"T", 6⟩])] 6 7 "T"
        (initState "T" 6)) :=
  minCaptureAttempts_terminates _ 6 7 _ "T" "E"
    (Graph.posCosts_of_entries _ (by decide))

/-! ## Reordering, pruning and cutting arcs -/

theorem buildGraph_posCosts (routes : List Route) (g : Graph)
    (h : buildGraph routes = .ok g) : g.PosCosts := by
  obtain ⟨_, _, _, h4⟩ := buildGraphFrom_spec routes [] g h
  exact h4 (by simp [Graph.get])

section Search

variable (autonomy : Int) (hunters : Hunters)

end Search

theorem buildHuntersFrom_error_iff (records : List Hunter) : ∀ (hunters : Hunters),
    (∃ msg, buildHuntersFrom hunters records = .error msg) ↔
      ∃ h ∈ records, h.Planet = "" ∨ h.Day < 0 := by
  induction records with
  | nil => intro hunters; simp [buildHuntersFrom]
  | cons h rest ih =>
    intro hunters
    by_cases hb : h.Planet = "" ∨ h.Day < 0
    · simp only [buildHuntersFrom, hb, if_true]
      constructor
      · intro _; exact ⟨h, List.mem_cons_self _ _, hb⟩
      · intro _; exact ⟨_, rfl⟩
    · simp only [buildHuntersFrom, hb, if_false]
      rw [ih]
      constructor
      · rintro ⟨x, hx, hi⟩; exact ⟨x, List.mem_cons_of_mem _ hx, hi⟩
      · rintro ⟨x, hx, hi⟩
        rcases List.mem_cons.1 hx with rfl | hx
        · exact absurd hi hb
        · exact ⟨x, hx, hi⟩

theorem buildHuntersFrom_ok (records : List Hunter) : ∀ (hunters built : Hunters),
    buildHuntersFrom hunters records = .ok built →
    ∀ p d, built p d = true ↔ hunters p d = true ∨ (⟨p, d⟩ : Hunter) ∈ records := by
  induction records with
  | nil =>
    intro hunters built h p d
    simp only [buildHuntersFrom, Except.ok.injEq] at h
    subst h
    simp
  | cons h rest ih =>
    intro hunters built hb p d
    by_cases hc : h.Planet = "" ∨ h.Day < 0
    · simp [buildHuntersFrom, hc] at hb
    · simp only [buildHuntersFrom, hc, if_false] at hb
      rw [ih _ _ hb p d]
      obtain ⟨hp, hd⟩ := h
      simp only [setHunter, List.mem_cons, Hunter.mk.injEq]
      by_cases hx : p = hp ∧ d = hd
      · simp [hx]
      · simp only [hx, if_false, false_or]

/-- What `GiveMeTheOdds` returns once the hazard lookup is built and the
64-bit search has returned: `0` for `+Inf`, `1` for the count 0, and
`math.Pow(0.9, minK)` for any other count. -/
theorem giveMeTheOdds_of_result {F : Type} (fl : Float64Ops F) (c : C3PO) (budget : Nat)
    (emp : EmpireConfig) (hunters : Hunters) (r : Attempts)
    (hb : buildHunters emp.BountyHunters = .ok hunters)
    (hr : minCaptureAttempts64 budget c.graph "Tatooine" "Endor" c.autonomy emp.Countdown
      hunters = some r) :
    c.GiveMeTheOdds fl budget emp = .ok (some (odds fl r)) ∧
      odds fl .inf = fl.zero ∧ odds fl (.finite 0) = fl.one ∧
      ∀ k : Int, k ≠ 0 → odds fl (.finite k) = fl.pow k := by
  refine ⟨?_, rfl, by simp [odds], fun k hk => by simp [odds, hk]⟩
  simp only [C3PO.GiveMeTheOdds, hb, hr, Option.map_some']

/-- Claim C14: building the hazard lookup fails exactly when some record has
an empty planet or a negative day, and then `GiveMeTheOdds` returns that error
without a search; when it succeeds, `hunters[p][d]` is true exactly for the
pairs `(p, d)` in the list, so two lists with the same records give the same
lookup. -/
theorem buildHunters_fails_iff_invalid_record (records : List Hunter) :
    ((∃ msg, buildHunters records = .error msg) ↔
      ∃ h ∈ records, h.Planet = "" ∨ h.Day < 0) ∧
    (∀ (F : Type) (fl : Float64Ops F) (c : C3PO) (budget : Nat) (countdown : Int)
        (msg : String),
      buildHunters records = .error msg →
      c.GiveMeTheOdds fl budget ⟨countdown, records⟩ = .error msg) ∧
    (∀ hunters, buildHunters records = .ok hunters →
      ∀ p d, hunters p d = true ↔ (⟨p, d⟩ : Hunter) ∈ records) ∧
    (∀ records2 hunters hunters2, (∀ x, x ∈ records ↔ x ∈ records2) →
      buildHunters records = .ok hunters → buildHunters records2 = .ok hunters2 →
      hunters = hunters2) := by
  have hok : ∀ (l : List Hunter) hunters, buildHunters l = .ok hunters →
      ∀ p d, hunters p d = true ↔ (⟨p, d⟩ : Hunter) ∈ l := by
    intro l hunters h p d
    rw [buildHuntersFrom_ok l _ _ h p d]
    simp
  refine ⟨buildHuntersFrom_error_iff records _, ?_, hok records, ?_⟩
  · intro F fl c budget countdown msg h
    simp only [C3PO.GiveMeTheOdds, h]
  · intro records2 hunters hunters2 hsame h1 h2
    funext p d
    have a := hok records hunters h1 p d
    have b := hok records2 hunters2 h2 p d
    rw [hsame] at a
    cases hv : hunters p d <;> cases hw : hunters2 p d <;> simp_all

/-- Two records, one of them twice: the lookup marks exactly these pairs. -/
theorem buildHunters_fails_iff_invalid_record_witness :
    ∃ hunters, buildHunters [⟨"Endor", 6⟩, ⟨"Hoth", 2⟩, ⟨"Endor", 6⟩] = .ok hunters ∧
      ∀ p d, hunters p d = true ↔
        (⟨p, d⟩ : Hunter) ∈ [(⟨"Endor", 6⟩ : Hunter), ⟨"Hoth", 2⟩, ⟨"Endor", 6⟩] :=
  ⟨_, rfl, (buildHunters_fails_iff_invalid_record _).2.2.1 _ rfl⟩

/-! ## Single routes and short deadlines -/

theorem buildGraph_single (start goal : String) (c : Int) (g : Graph)
    (hne : start ≠ goal) (hb : buildGraph [⟨start, goal, c⟩] = .ok g) :
    0 < c ∧ g.PosCosts ∧ g.get start = [⟨goal, c⟩] := by
  have hpos := buildGraph_posCosts _ g hb
  simp only [buildGraph, buildGraphFrom] at hb
  split at hb
  · cases hb
  · rename_i hv
    simp only [Except.ok.injEq] at hb
    have hc : 0 < c := by
      by_contra h
      exact hv (Or.inr (Or.inr (not_lt.1 h)))
    have hget : g.get start = [⟨goal, c⟩] := by
      rw [← hb, Graph.get_push, Graph.get_push]
      simp [Graph.get, hne, Ne.symm hne]
    exact ⟨hc, hpos, hget⟩

section Search

variable (graph : Graph) (autonomy deadline : Int) (hunters : Hunters)

/-- When every arc out of `start` costs more than the deadline, a plan that
begins at `start` on a day `≥ 0` never leaves `start`. -/
theorem runPlan_stays (start : String)
    (hshort : ∀ e ∈ graph.get start, deadline < e.cost) (plan : List Move) :
    ∀ (st ns : state) (c : Int), st.planet = start → 0 ≤ st.day →
      runPlan graph autonomy deadline hunters st plan = some (ns, c) →
      ns.planet = start := by
  induction plan with
  | nil =>
    intro st ns c hp _ h
    simp only [runPlan, Option.some.injEq, Prod.mk.injEq] at h
    rw [← h.1]; exact hp
  | cons m ms ih =>
    intro st ns c hp hd h
    simp only [runPlan] at h
    cases hm : applyMove graph autonomy deadline hunters st m with
    | none => rw [hm] at h; cases h
    | some r =>
      obtain ⟨st1, c1⟩ := r
      rw [hm] at h
      simp only at h
      cases hr : runPlan graph autonomy deadline hunters st1 ms with
      | none => rw [hr] at h; cases h
      | some r2 =>
        obtain ⟨st2, c2⟩ := r2
        rw [hr] at h
        simp only [Option.some.injEq, Prod.mk.injEq] at h
        obtain ⟨rfl, _⟩ := h
        cases m with
        | wait =>
          simp only [applyMove] at hm
          split at hm
          · simp only [Option.some.injEq, Prod.mk.injEq] at hm
            obtain ⟨rfl, _⟩ := hm
            exact ih ⟨st.day + 1, st.planet, st.fuel⟩ _ _ hp (by simp only; omega) hr
          · cases hm
        | refuel =>
          simp only [applyMove] at hm
          split at hm
          · simp only [Option.some.injEq, Prod.mk.injEq] at hm
            obtain ⟨rfl, _⟩ := hm
            exact ih ⟨st.day + 1, st.planet, autonomy⟩ _ _ hp (by simp only; omega) hr
          · cases hm
        | jump e =>
          simp only [applyMove] at hm
          split at hm
          · rename_i hc
            rw [hp] at hc
            have := hshort e hc.1
            omega
          · cases hm

/-- With deadline 0 the only legal plan is the empty one. -/
theorem runPlan_deadline_zero (hpos : graph.PosCosts) (st ns : state) (c : Int)
    (plan : List Move) (hd : 0 ≤ st.day)
    (h : runPlan graph autonomy 0 hunters st plan = some (ns, c)) : ns = st := by
  cases plan with
  | nil =>
    simp only [runPlan, Option.some.injEq, Prod.mk.injEq] at h
    exact h.1.symm
  | cons m ms =>
    exfalso
    simp only [runPlan] at h
    cases hm : applyMove graph autonomy 0 hunters st m with
    | none => rw [hm] at h; cases h
    | some r =>
      obtain ⟨st1, c1⟩ := r
      have := applyMove_cost graph autonomy 0 hunters hpos hm
      omega

/-- No arriving plan means that the search returns `+Inf`. -/
theorem result_inf_of_no_arrival (hpos : graph.PosCosts) (start goal : String)
    (hno : ∀ plan c, ¬ Arrives graph autonomy deadline hunters start goal plan c) :
    ∃ n, ∀ m, n ≤ m →
      minCaptureAttempts m graph start goal autonomy deadline hunters = some .inf := by
  obtain ⟨r, ⟨n, hn⟩, _, hc⟩ := minCaptureAttempts_total graph autonomy deadline hunters
    hpos start goal
  cases r with
  | inf => exact ⟨n, hn⟩
  | finite k =>
    obtain ⟨⟨plan, hp⟩, _⟩ := hc
    exact absurd hp (hno plan k)

/-- An arriving plan of cost `k` that no arriving plan undercuts means that the
search returns `k`. -/
theorem result_of_optimal_plan (hpos : graph.PosCosts) (start goal : String)
    (plan : List Move) (k : Int)
    (hp : Arrives graph autonomy deadline hunters start goal plan k)
    (hmin : ∀ plan1 c, Arrives graph autonomy deadline hunters start goal plan1 c → k ≤ c) :
    ∃ n, ∀ m, n ≤ m →
      minCaptureAttempts m graph start goal autonomy deadline hunters
        = some (.finite k) := by
  obtain ⟨r, ⟨n, hn⟩, _, hc⟩ := minCaptureAttempts_total graph autonomy deadline hunters
    hpos start goal
  have : r = .finite k := Correct.unique graph autonomy deadline hunters hc ⟨⟨plan, hp⟩, hmin⟩
  subst this
  exact ⟨n, hn⟩

end Search

/-- On the graph of a single route of cost `c`, with deadline `c` and hunters
on the goal on day `c`, every plan from `start` that ends on the goal is
charged at least once. -/
theorem single_route_cost_ge_one (g : Graph) (start goal : String) (c autonomy : Int)
    (hunters : Hunters) (hpos : g.PosCosts) (hne : start ≠ goal)
    (hget : g.get start = [⟨goal, c⟩]) (hh : hunters goal c = true)
    (plan : List Move) :
    ∀ (st ns : state) (cost : Int), st.planet = start → 0 ≤ st.day →
      runPlan g autonomy c hunters st plan = some (ns, cost) →
      ns.planet = goal → 1 ≤ cost := by
  induction plan with
  | nil =>
    intro st ns cost hp _ h hg
    simp only [runPlan, Option.some.injEq, Prod.mk.injEq] at h
    rw [← h.1, hp] at hg
    exact absurd hg hne
  | cons m ms ih =>
    intro st ns cost hp hd h hg
    simp only [runPlan] at h
    cases hm : applyMove g autonomy c hunters st m with
    | none => rw [hm] at h; cases h
    | some r =>
      obtain ⟨st1, c1⟩ := r
      rw [hm] at h
      simp only at h
      cases hr : runPlan g autonomy c hunters st1 ms with
      | none => rw [hr] at h; cases h
      | some r2 =>
        obtain ⟨st2, c2⟩ := r2
        rw [hr] at h
        simp only [Option.some.injEq, Prod.mk.injEq] at h
        obtain ⟨rfl, rfl⟩ := h
        have hc1 := applyMove_cost g autonomy c hunters hpos hm
        have hc2 := runPlan_cost g autonomy c hunters hpos ms _ _ _ hr
        cases m with
        | wait =>
          simp only [applyMove] at hm
          split at hm
          · simp only [Option.some.injEq, Prod.mk.injEq] at hm
            obtain ⟨rfl, _⟩ := hm
            have := ih ⟨st.day + 1, st.planet, st.fuel⟩ _ _ hp (by simp only; omega) hr hg
            omega
          · cases hm
        | refuel =>
          simp only [applyMove] at hm
          split at hm
          · simp only [Option.some.injEq, Prod.mk.injEq] at hm
            obtain ⟨rfl, _⟩ := hm
            have := ih ⟨st.day + 1, st.planet, autonomy⟩ _ _ hp (by simp only; omega) hr hg
            omega
          · cases hm
        | jump e =>
          simp only [applyMove] at hm
          split at hm
          · rename_i hc
            rw [hp, hget, List.mem_singleton] at hc
            obtain ⟨rfl, _, hday⟩ := hc
            simp only at hday
            have hd0 : st.day = 0 := by omega
            simp only [Option.some.injEq, Prod.mk.injEq, hd0, zero_add, hh, if_true] at hm
            omega
          · cases hm

/-- Over the integers: on the graph built from the single route `start`-`goal`
of cost `c` (`start ≠ goal`), with `autonomy = c`, `deadline = c` and hunters
on the goal on day `c`, the search returns 1; so it does for the route
Tatooine-Endor of cost 6 with hunters exactly on (Endor, 6). -/
theorem single_route_hazard_on_arrival (start goal : String) (c : Int)
    (hunters : Hunters) (g : Graph) (hne : start ≠ goal)
    (hb : buildGraph [⟨start, goal, c⟩] = .ok g) (hh : hunters goal c = true) :
    (∃ n, ∀ m, n ≤ m →
      minCaptureAttempts m g start goal c c hunters = some (.finite 1)) ∧
    (∃ gT hT, buildGraph [⟨"Tatooine", "Endor", 6⟩] = .ok gT ∧
      buildHunters [⟨"Endor", 6⟩] = .ok hT ∧
      ∃ n, ∀ m, n ≤ m →
        minCaptureAttempts m gT "Tatooine" "Endor" 6 6 hT = some (.finite 1)) := by
  have key : ∀ (start goal : String) (c : Int) (hunters : Hunters) (g : Graph),
      start ≠ goal → buildGraph [⟨start, goal, c⟩] = .ok g → hunters goal c = true →
      ∃ n, ∀ m, n ≤ m →
        minCaptureAttempts m g start goal c c hunters = some (.finite 1) := by
    intro start goal c hunters g hne hb hh
    obtain ⟨hc, hpos, hget⟩ := buildGraph_single start goal c g hne hb
    apply result_of_optimal_plan g c c hunters hpos start goal [.jump ⟨goal, c⟩] 1
    · refine ⟨⟨c, goal, 0⟩, ?_, rfl, le_refl _⟩
      have hcond : (⟨goal, c⟩ : edge) ∈ g.get (startState start c).planet ∧
          (⟨goal, c⟩ : edge).cost ≤ (startState start c).fuel ∧
          (startState start c).day + (⟨goal, c⟩ : edge).cost ≤ c := by
        refine ⟨?_, le_refl _, ?_⟩
        · show (⟨goal, c⟩ : edge) ∈ g.get start
          rw [hget]; exact List.mem_singleton.2 rfl
        · show (0 : Int) + c ≤ c
          omega
      simp only [runPlan, applyMove, hcond, and_self, if_true]
      simp [startState, hh]
    · intro plan1 cost ⟨ns, hrun, hg, _⟩
      exact single_route_cost_ge_one g start goal c c hunters hpos hne hget hh plan1
        _ _ _ rfl (le_refl _) hrun hg
  exact ⟨key start goal c hunters g hne hb hh, _, _, rfl, rfl,
    key "Tatooine" "Endor" 6 (setHunter (fun _ _ => false) "Endor" 6) _
      (by decide) rfl rfl⟩

/-- A single route of 3 days, a tank of 3, deadline 3 and hunters on the goal
on day 3. -/
theorem single_route_hazard_on_arrival_witness :
    ∃ n, ∀ m, n ≤ m →
      minCaptureAttempts m [("A", [⟨"B", 3⟩]), ("B", [⟨"A", 3⟩])] "A" "B" 3 3
        (fun p d => p == "B" && d == 3) = some (.finite 1) :=
  (single_route_hazard_on_arrival "A" "B" 3 (fun p d => p == "B" && d == 3)
    [("A", [⟨"B", 3⟩]), ("B", [⟨"A", 3⟩])] (by decide) rfl rfl).1

/-- Over the integers: on a graph with positive costs and with `start ≠ goal`, if the
deadline is smaller than the cost of every arc out of `start`, the search
returns `+Inf`. With deadline 0 no state other than the initial one is ever
recorded, and for `start ≠ goal` the result is `+Inf`; so is the result for
the single route Tatooine-Endor of cost 6 with a tank of 6 and deadline 5. -/
theorem deadline_too_short_for_first_jump (graph : Graph) (autonomy deadline : Int)
    (hunters : Hunters) (start goal : String) (hpos : graph.PosCosts)
    (hne : start ≠ goal) (hshort : ∀ e ∈ graph.get start, deadline < e.cost) :
    (∃ n, ∀ m, n ≤ m →
      minCaptureAttempts m graph start goal autonomy deadline hunters = some .inf) ∧
    (∃ n, ∀ m, n ≤ m →
      minCaptureAttempts m graph start goal autonomy 0 hunters = some .inf) ∧
    (∀ (i : Nat) (s : searchState),
      loopConfig graph goal autonomy 0 hunters i (initState start autonomy) = some s →
      ∀ x k, s.best x = some k → x = startState start autonomy) ∧
    (∃ gT, buildGraph [⟨"Tatooine", "Endor", 6⟩] = .ok gT ∧
      ∃ n, ∀ m, n ≤ m →
        minCaptureAttempts m gT "Tatooine" "Endor" 6 5 hunters = some .inf) := by
  have key : ∀ (graph : Graph) (autonomy deadline : Int) (start goal : String),
      graph.PosCosts → start ≠ goal → (∀ e ∈ graph.get start, deadline < e.cost) →
      ∃ n, ∀ m, n ≤ m →
        minCaptureAttempts m graph start goal autonomy deadline hunters = some .inf := by
    intro graph autonomy deadline start goal hpos hne hshort
    apply result_inf_of_no_arrival graph autonomy deadline hunters hpos
    rintro plan c ⟨ns, hrun, hg, _⟩
    have := runPlan_stays graph autonomy deadline hunters start hshort plan _ _ _ rfl
      (le_refl _) hrun
    rw [hg] at this
    exact hne this.symm
  refine ⟨key graph autonomy deadline start goal hpos hne hshort,
    key graph autonomy 0 start goal hpos hne (fun e he => hpos _ e he), ?_, ?_⟩
  · intro i s hs x k hk
    obtain ⟨hinv, _⟩ := loopConfig_inv graph autonomy 0 hunters hpos i _ _
      (initState_inv graph autonomy 0 hunters start goal) hs
    obtain ⟨plan, hp⟩ := hinv.sound x k hk
    exact runPlan_deadline_zero graph autonomy hunters hpos _ _ _ plan (le_refl _) hp
  · obtain ⟨_, hposT, hget⟩ := buildGraph_single "Tatooine" "Endor" 6
      [("Tatooine", [⟨"Endor", 6⟩]), ("Endor", [⟨"Tatooine", 6⟩])] (by decide) rfl
    refine ⟨[("Tatooine", [⟨"Endor", 6⟩]), ("Endor", [⟨"Tatooine", 6⟩])], rfl,
      key _ 6 5 "Tatooine" "Endor" hposT (by decide) ?_⟩
    intro e he
    rw [hget, List.mem_singleton] at he
    subst he
    decide

/-- The demo graph from T to E with deadline 1: both arcs out of T take
longer. -/
theorem deadline_too_short_for_first_jump_witness :
    ∃ n, ∀ m, n ≤ m →
      minCaptureAttempts m demoGraph "T" "E" 6 1 demoHunters = some .inf :=
  (deadline_too_short_for_first_jump demoGraph 6 1 demoHunters "T" "E"
    (Graph.posCosts_of_entries _ (by decide)) (by decide) (by decide)).1

/-! ## Runs of the main loop -/

section Search

variable (graph : Graph) (goal : String) (autonomy deadline : Int) (hunters : Hunters)

/-- What an iteration that does not return does: it pops an entry and either
discards it as stale or expands it. -/
theorem loopStep_cases {s t : searchState}
    (h : loopStep graph goal autonomy deadline hunters s = some t) :
    ∃ cur pq1, heapPop s.pq = some (cur, pq1) ∧
      ((s.best cur.st ≠ some cur.k ∧ t = ⟨pq1, s.best⟩) ∨
        (s.best cur.st = some cur.k ∧ ¬ isGoal goal deadline cur.st ∧
          t = expand graph autonomy deadline hunters cur.k cur.st ⟨pq1, s.best⟩)) := by
  unfold loopStep at h
  by_cases hlen : s.pq.length > 0
  · rw [if_pos hlen] at h
    cases hpop : heapPop s.pq with
    | none => rw [hpop] at h; cases h
    | some x =>
      obtain ⟨cur, pq1⟩ := x
      rw [hpop] at h
      simp only at h
      refine ⟨cur, pq1, rfl, ?_⟩
      by_cases hstale : s.best cur.st ≠ some cur.k
      · rw [if_pos hstale] at h
        exact Or.inl ⟨hstale, (Option.some.inj h).symm⟩
      · rw [if_neg hstale] at h
        by_cases hgoal : cur.st.planet = goal ∧ cur.st.day ≤ deadline
        · rw [if_pos hgoal] at h; cases h
        · rw [if_neg hgoal] at h
          exact Or.inr ⟨not_not.1 hstale, hgoal, (Option.some.inj h).symm⟩
  · rw [if_neg hlen] at h; cases h

theorem loopConfig_succ_left (n : Nat) (s : searchState) :
    loopConfig graph goal autonomy deadline hunters (n + 1) s
      = (loopStep graph goal autonomy deadline hunters s).bind
          (loopConfig graph goal autonomy deadline hunters n) := by
  simp only [loopConfig, loopStep]
  by_cases hlen : s.pq.length > 0
  · rw [if_pos hlen, if_pos hlen]
    cases hpop : heapPop s.pq with
    | none => rfl
    | some x =>
      obtain ⟨cur, pq1⟩ := x
      simp only
      by_cases hstale : s.best cur.st ≠ some cur.k
      · rw [if_pos hstale, if_pos hstale]; rfl
      · rw [if_neg hstale, if_neg hstale]
        by_cases hgoal : cur.st.planet = goal ∧ cur.st.day ≤ deadline
        · rw [if_pos hgoal, if_pos hgoal]; rfl
        · rw [if_neg hgoal, if_neg hgoal]; rfl
  · rw [if_neg hlen, if_neg hlen]; rfl

/-- A property that every iteration preserves holds at the head of every
iteration. -/
theorem loopConfig_invariant (Q : searchState → Prop)
    (hstep : ∀ s t, Q s → loopStep graph goal autonomy deadline hunters s = some t → Q t)
    (i : Nat) : ∀ (s t : searchState), Q s →
      loopConfig graph goal autonomy deadline hunters i s = some t → Q t := by
  induction i with
  | zero =>
    intro s t hq h
    simp only [loopConfig, Option.some.injEq] at h
    subst h
    exact hq
  | succ i ih =>
    intro s t hq h
    rw [loopConfig_succ_left] at h
    cases hs : loopStep graph goal autonomy deadline hunters s with
    | none => rw [hs] at h; cases h
    | some u =>
      rw [hs] at h
      exact ih u t (hstep s u hq hs) h

end Search

/-! ## What single relaxations preserve -/

/-- A relaxation either changes nothing, or it records `nk` for `ns` and
pushes `(nk, ns)`; it does the latter only if `ns` had no record or a larger
one. -/
theorem relax_cases (s : searchState) (nk : Int) (ns : state) :
    (relax s nk ns = s ∧ ∃ old, s.best ns = some old ∧ old ≤ nk) ∨
      (relax s nk ns = ⟨heapPush s.pq ⟨nk, ns⟩, setBest s.best ns nk⟩ ∧
        ∀ old, s.best ns = some old → nk < old) := by
  unfold relax
  cases hb : s.best ns with
  | none =>
    right
    exact ⟨rfl, fun old ho => by cases ho⟩
  | some old =>
    simp only
    by_cases hlt : nk < old
    · right
      rw [if_pos hlt]
      refine ⟨rfl, ?_⟩
      intro o ho
      simp only [Option.some.injEq] at ho
      omega
    · left
      rw [if_neg hlt]
      exact ⟨rfl, old, rfl, by omega⟩

theorem RelaxSeq.preserves {P : Int → state → Prop} (Q : searchState → Prop)
    (hQ : ∀ s nk ns, P nk ns → Q s → Q (relax s nk ns)) {s t : searchState}
    (h : RelaxSeq P s t) : Q s → Q t := by
  induction h with
  | refl s => exact id
  | @step s t nk ns hp _ ih => exact fun hq => ih (hQ s nk ns hp hq)

section Search

variable (graph : Graph) (autonomy deadline : Int) (hunters : Hunters)

theorem relax_heapSound {start : String} (s : searchState) (nk : Int) (ns : state)
    (hr : Reach graph autonomy deadline hunters start ns nk)
    (h : HeapSound graph autonomy deadline hunters start s) :
    HeapSound graph autonomy deadline hunters start (relax s nk ns) := by
  rcases relax_cases s nk ns with ⟨he, _⟩ | ⟨he, _⟩
  · rw [he]; exact h
  · rw [he]
    intro y hy
    rcases (heapPush_mem _ _ _).1 hy with rfl | hy
    · exact hr
    · exact h y hy

end Search

/-! ## What an iteration preserves -/

section Search

variable (graph : Graph) (goal : String) (autonomy deadline : Int) (hunters : Hunters)

theorem loopStep_inv {start : String} {s t : searchState}
    (h : loopStep graph goal autonomy deadline hunters s = some t)
    (hinv : Inv graph autonomy deadline hunters start goal s) :
    Inv graph autonomy deadline hunters start goal t := by
  obtain ⟨cur, pq1, hpop, hc⟩ := loopStep_cases graph goal autonomy deadline hunters h
  rcases hc with ⟨hs, rfl⟩ | ⟨hf, hg, rfl⟩
  · exact inv_of_stale graph autonomy deadline hunters hinv hpop hs
  · exact inv_of_expand graph autonomy deadline hunters hinv hpop hf hg

theorem loopStep_heapSound {start : String} {s t : searchState}
    (h : loopStep graph goal autonomy deadline hunters s = some t)
    (hs : Sound graph autonomy deadline hunters start s.best)
    (hh : HeapSound graph autonomy deadline hunters start s) :
    HeapSound graph autonomy deadline hunters start t := by
  obtain ⟨cur, pq1, hpop, hc⟩ := loopStep_cases graph goal autonomy deadline hunters h
  obtain ⟨hperm, _, _⟩ := heapPop_spec _ _ _ hpop
  have h1 : HeapSound graph autonomy deadline hunters start ⟨pq1, s.best⟩ :=
    fun y hy => hh y (hperm.mem_iff.1 (List.mem_cons_of_mem _ hy))
  rcases hc with ⟨_, rfl⟩ | ⟨hf, _, rfl⟩
  · exact h1
  · refine (expand_relaxSeq graph autonomy deadline hunters cur.k cur.st _).preserves
      (HeapSound graph autonomy deadline hunters start) ?_ h1
    intro u nk ns hp hq
    exact relax_heapSound graph autonomy deadline hunters u nk ns
      (Succ.reach graph autonomy deadline hunters (hs _ _ hf) nk ns hp) hq

/-- What holds when the loop is entered: the heap holds the one entry of the
one recorded state. -/
theorem initState_facts (start : String) :
    IsHeap (initState start autonomy).pq ∧ Tidy (initState start autonomy) ∧
    NonNeg (initState start autonomy) ∧
    HeapSound graph autonomy deadline hunters start (initState start autonomy) ∧
    (∀ x k, (initState start autonomy).best x = some k →
      (⟨k, x⟩ : pqNode) ∈ (initState start autonomy).pq) := by
  have hbest : ∀ st k, (initState start autonomy).best st = some k →
      st = startState start autonomy ∧ k = 0 := by
    intro st k hk
    by_cases hst : st = ⟨0, start, autonomy⟩
    · subst hst
      have h0 : (initState start autonomy).best ⟨0, start, autonomy⟩ = some 0 := by
        simp [initState, setBest]
      rw [h0] at hk
      exact ⟨rfl, (Option.some.inj hk).symm⟩
    · have h0 : (initState start autonomy).best st = none := by
        simp [initState, setBest, hst]
      rw [h0] at hk
      cases hk
  have hpq : ∀ y, y ∈ (initState start autonomy).pq ↔
      y = ⟨0, startState start autonomy⟩ := by
    intro y
    show y ∈ heapPush [] _ ↔ _
    rw [heapPush_mem]
    simp [startState]
  have hb0 : (initState start autonomy).best (startState start autonomy) = some 0 := by
    simp [initState, setBest, startState]
  refine ⟨(initState_inv graph autonomy deadline hunters start start).heap, ⟨?_, ?_⟩, ?_, ?_, ?_⟩
  · show (heapPush [] _).Nodup
    rw [(heapPush_perm _ _).nodup_iff]
    simp
  · intro y hy
    rw [(hpq y).1 hy]
    exact ⟨0, hb0, le_refl _⟩
  · intro x k hk
    rw [(hbest x k hk).2]
  · intro y hy
    rw [(hpq y).1 hy]
    exact Reach.init graph autonomy deadline hunters start
  · intro x k hk
    obtain ⟨rfl, rfl⟩ := hbest x k hk
    exact (hpq _).2 rfl

end Search

/-! ## The claims about the run of the loop -/

section Search

variable (graph : Graph) (goal : String) (autonomy deadline : Int) (hunters : Hunters)

theorem Reach.stateOk (hpos : graph.PosCosts) {start : String} {st : state} {k : Int}
    (hr : Reach graph autonomy deadline hunters start st k) :
    StateOk graph autonomy deadline start st := by
  obtain ⟨plan, hp⟩ := hr
  exact runPlan_stateOk graph autonomy deadline hunters hpos plan _ _ _ hp
    (startState_stateOk graph autonomy deadline start)

end Search

/-- Over the integers: on a graph with positive costs, with `autonomy ≥ 0` and
`deadline ≥ 0`, every state that is recorded in `best` or sits on the heap at
the head of an iteration has `0 ≤ day ≤ deadline` and `0 ≤ fuel ≤ autonomy`. -/
theorem recorded_states_within_bounds (graph : Graph) (autonomy deadline : Int)
    (hunters : Hunters) (start goal : String) (hpos : graph.PosCosts)
    (ha : 0 ≤ autonomy) (hd : 0 ≤ deadline) (i : Nat) (s : searchState)
    (hs : loopConfig graph goal autonomy deadline hunters i (initState start autonomy)
      = some s) :
    (∀ x k, s.best x = some k →
      0 ≤ x.day ∧ x.day ≤ deadline ∧ 0 ≤ x.fuel ∧ x.fuel ≤ autonomy) ∧
    (∀ y, y ∈ s.pq →
      0 ≤ y.st.day ∧ y.st.day ≤ deadline ∧ 0 ≤ y.st.fuel ∧ y.st.fuel ≤ autonomy) := by
  have hq := loopConfig_invariant graph goal autonomy deadline hunters
    (fun u => Inv graph autonomy deadline hunters start goal u ∧
      HeapSound graph autonomy deadline hunters start u)
    (fun u v hq hstep =>
      ⟨loopStep_inv graph goal autonomy deadline hunters hstep hq.1,
        loopStep_heapSound graph goal autonomy deadline hunters hstep hq.1.sound hq.2⟩)
    i _ _ ⟨initState_inv graph autonomy deadline hunters start goal,
      (initState_facts graph autonomy deadline hunters start).2.2.2.1⟩ hs
  have hb : ∀ x k, Reach graph autonomy deadline hunters start x k →
      0 ≤ x.day ∧ x.day ≤ deadline ∧ 0 ≤ x.fuel ∧ x.fuel ≤ autonomy := by
    intro x k hr
    obtain ⟨h1, h2, h3, h4, _⟩ := Reach.stateOk graph autonomy deadline hunters hpos hr
    rw [max_eq_left hd] at h2
    rw [min_eq_right ha] at h3
    exact ⟨h1, h2, h3, h4⟩
  exact ⟨fun x k hk => hb x k (hq.1.sound x k hk), fun y hy => hb y.st y.k (hq.2 y hy)⟩

/-- The demo graph after three iterations of the loop. -/
theorem recorded_states_within_bounds_witness :
    ∃ s, loopConfig demoGraph "E" 6 7 demoHunters 3 (initState "T" 6) = some s ∧
      (∀ x k, s.best x = some k → 0 ≤ x.day ∧ x.day ≤ 7 ∧ 0 ≤ x.fuel ∧ x.fuel ≤ 6) ∧
      (∀ y, y ∈ s.pq →
        0 ≤ y.st.day ∧ y.st.day ≤ 7 ∧ 0 ≤ y.st.fuel ∧ y.st.fuel ≤ 6) :=
  ⟨_, rfl, recorded_states_within_bounds demoGraph 6 7 demoHunters "T" "E"
    (Graph.posCosts_of_entries _ (by decide)) (by decide) (by decide) 3 _ rfl⟩

section Search

variable (graph : Graph) (goal : String) (autonomy deadline : Int) (hunters : Hunters)

end Search

section Search

variable (graph : Graph) (autonomy deadline : Int)

end Search

/-- The arcs of the graph built from a valid route list: one in each
direction for every route. -/
theorem buildGraph_mem_get (routes : List Route) (g : Graph)
    (hg : buildGraph routes = .ok g) (A B : String) (c : Int) :
    (⟨B, c⟩ : edge) ∈ g.get A ↔
      (⟨A, B, c⟩ : Route) ∈ routes ∨ (⟨B, A, c⟩ : Route) ∈ routes := by
  obtain ⟨h1, _⟩ := buildGraphFrom_spec routes [] g hg
  have hc := h1 A B c
  simp only [Graph.get, List.count_nil, zero_add] at hc
  rw [← List.count_pos_iff, hc, ← List.count_pos_iff, ← List.count_pos_iff]
  omega

section Search

variable (autonomy deadline : Int) (hunters : Hunters)

theorem runPlan_subgraph (g g1 : Graph) (hsub : ∀ p e, e ∈ g1.get p → e ∈ g.get p)
    (plan : List Move) : ∀ (st : state) (x : state × Int),
      runPlan g1 autonomy deadline hunters st plan = some x →
      runPlan g autonomy deadline hunters st plan = some x := by
  induction plan with
  | nil => intro st x h; exact h
  | cons m ms ih =>
    intro st x h
    simp only [runPlan] at h ⊢
    cases hm : applyMove g1 autonomy deadline hunters st m with
    | none => rw [hm] at h; cases h
    | some r =>
      obtain ⟨st1, c1⟩ := r
      rw [hm] at h
      have hm2 : applyMove g autonomy deadline hunters st m = some (st1, c1) := by
        cases m with
        | wait => exact hm
        | refuel => exact hm
        | jump e =>
          simp only [applyMove] at hm ⊢
          split at hm
          · rename_i hc
            have hc2 : e ∈ g.get st.planet ∧ e.cost ≤ st.fuel ∧
                st.day + e.cost ≤ deadline := ⟨hsub _ _ hc.1, hc.2⟩
            rw [if_pos hc2]; exact hm
          · cases hm
      rw [hm2]
      simp only at h ⊢
      cases hr : runPlan g1 autonomy deadline hunters st1 ms with
      | none => rw [hr] at h; cases h
      | some r2 =>
        rw [hr] at h
        rw [ih _ _ hr]
        exact h

/-- Waiting `n` days is free and keeps planet and fuel. -/
theorem runPlan_waits (g : Graph) (n : Nat) : ∀ (st : state),
    st.day + n ≤ deadline →
    runPlan g autonomy deadline hunters st (List.replicate n .wait)
      = some (⟨st.day + n, st.planet, st.fuel⟩, 0) := by
  induction n with
  | zero =>
    intro st _
    simp [runPlan]
  | succ n ih =>
    intro st hd
    have hd1 : st.day + (n : Int) + 1 ≤ deadline := by push_cast at hd; omega
    have h1 : st.day + 1 ≤ deadline := by omega
    rw [List.replicate_succ]
    simp only [runPlan, applyMove, h1, if_true]
    have h2 : (⟨st.day + 1, st.planet, st.fuel⟩ : state).day + (n : Int) ≤ deadline := by
      show st.day + 1 + (n : Int) ≤ deadline
      omega
    rw [ih ⟨st.day + 1, st.planet, st.fuel⟩ h2]
    simp only [zero_add, Option.some.injEq, Prod.mk.injEq, state.mk.injEq, and_true]
    push_cast
    omega

/-- If every arc of `g` has a counterpart in `g1` to the same planet that
costs at most as much, a plan in `g` can be followed in `g1`, from at least as
much fuel, to the same planet on the same day at the same cost, with at least
as much fuel left. -/
theorem runPlan_dominated (g g1 : Graph) (hpos1 : g1.PosCosts)
    (hdom : ∀ p e, e ∈ g.get p → ∃ e1 ∈ g1.get p, e1.dest = e.dest ∧ e1.cost ≤ e.cost)
    (plan : List Move) :
    ∀ (st st1 ns : state) (c : Int),
      runPlan g autonomy deadline hunters st plan = some (ns, c) →
      st1.day = st.day → st1.planet = st.planet → st.fuel ≤ st1.fuel →
      ∃ plan1 ns1, runPlan g1 autonomy deadline hunters st1 plan1 = some (ns1, c) ∧
        ns1.day = ns.day ∧ ns1.planet = ns.planet ∧ ns.fuel ≤ ns1.fuel := by
  induction plan with
  | nil =>
    intro st st1 ns c h hd hp hf
    simp only [runPlan, Option.some.injEq, Prod.mk.injEq] at h
    obtain ⟨rfl, rfl⟩ := h
    exact ⟨[], st1, rfl, hd, hp, hf⟩
  | cons m ms ih =>
    intro st st1 ns c h hd hp hf
    simp only [runPlan] at h
    cases hm : applyMove g autonomy deadline hunters st m with
    | none => rw [hm] at h; cases h
    | some r =>
      obtain ⟨st2, c1⟩ := r
      rw [hm] at h
      simp only at h
      cases hr : runPlan g autonomy deadline hunters st2 ms with
      | none => rw [hr] at h; cases h
      | some r2 =>
        obtain ⟨st3, c2⟩ := r2
        rw [hr] at h
        simp only [Option.some.injEq, Prod.mk.injEq] at h
        obtain ⟨rfl, rfl⟩ := h
        -- one step in `g1` that reaches a state at least as good as `st2`
        have hstep : ∃ q t, runPlan g1 autonomy deadline hunters st1 q = some (t, c1) ∧
            t.day = st2.day ∧ t.planet = st2.planet ∧ st2.fuel ≤ t.fuel := by
          obtain ⟨d1, p1, f1⟩ := st1
          simp only at hd hp hf
          subst hd hp
          cases m with
          | wait =>
            simp only [applyMove] at hm
            split at hm
            · rename_i hdl
              simp only [Option.some.injEq, Prod.mk.injEq] at hm
              obtain ⟨rfl, rfl⟩ := hm
              refine ⟨[.wait], ⟨st.day + 1, st.planet, f1⟩, ?_, rfl, rfl, hf⟩
              simp only [runPlan, applyMove, hdl, if_true, add_zero]
            · cases hm
          | refuel =>
            simp only [applyMove] at hm
            split at hm
            · rename_i hdl
              simp only [Option.some.injEq, Prod.mk.injEq] at hm
              obtain ⟨rfl, rfl⟩ := hm
              refine ⟨[.refuel], ⟨st.day + 1, st.planet, autonomy⟩, ?_, rfl, rfl, le_refl _⟩
              simp only [runPlan, applyMove, hdl, if_true, add_zero]
            · cases hm
          | jump e =>
            simp only [applyMove] at hm
            split at hm
            · rename_i hc
              simp only [Option.some.injEq, Prod.mk.injEq] at hm
              obtain ⟨rfl, rfl⟩ := hm
              obtain ⟨e1, he1, hdest, hcost⟩ := hdom _ _ hc.1
              have he1pos := hpos1 _ _ he1
              have hcast : ((e.cost - e1.cost).toNat : Int) = e.cost - e1.cost :=
                Int.toNat_of_nonneg (by omega)
              have hn : (⟨st.day, st.planet, f1⟩ : state).day
                  + ((e.cost - e1.cost).toNat : Int) ≤ deadline := by
                show st.day + ((e.cost - e1.cost).toNat : Int) ≤ deadline
                rw [hcast]; omega
              refine ⟨List.replicate (e.cost - e1.cost).toNat .wait ++ [.jump e1],
                ⟨st.day + e.cost, e.dest, f1 - e1.cost⟩, ?_, rfl, rfl, ?_⟩
              · rw [runPlan_append, runPlan_waits autonomy deadline hunters g1 _ _ hn]
                have hday : st.day + ((e.cost - e1.cost).toNat : Int) + e1.cost
                    = st.day + e.cost := by
                  rw [hcast]; omega
                have hcond : e1 ∈ g1.get st.planet ∧ e1.cost ≤ f1 ∧
                    st.day + ((e.cost - e1.cost).toNat : Int) + e1.cost ≤ deadline := by
                  refine ⟨he1, by omega, ?_⟩
                  rw [hday]; exact hc.2.2
                have happly : applyMove g1 autonomy deadline hunters
                    ⟨st.day + ((e.cost - e1.cost).toNat : Int), st.planet, f1⟩ (.jump e1)
                    = some (⟨st.day + e.cost, e.dest, f1 - e1.cost⟩,
                        if hunters e.dest (st.day + e.cost) then 1 else 0) := by
                  simp only [applyMove]
                  rw [if_pos hcond, hday, hdest]
                simp only [runPlan, happly, zero_add, add_zero]
              · show st.fuel - e.cost ≤ f1 - e1.cost
                omega
            · cases hm
        obtain ⟨q, t, hq, htd, htp, htf⟩ := hstep
        obtain ⟨plan1, ns1, hrun1, h1, h2, h3⟩ := ih st2 t st3 c2 hr htd htp htf
        refine ⟨q ++ plan1, ns1, ?_, h1, h2, h3⟩
        rw [runPlan_append, hq]
        simp only [hrun1]

/-- Graphs in which the same costs are achieved by arriving plans give the
same result. -/
theorem sameResult_of_arrival_costs (g1 g2 : Graph) (hpos1 : g1.PosCosts)
    (hpos2 : g2.PosCosts) (start goal : String)
    (h : ∀ c, (∃ plan, Arrives g1 autonomy deadline hunters start goal plan c) ↔
      (∃ plan, Arrives g2 autonomy deadline hunters start goal plan c)) :
    SameResult g1 g2 start goal autonomy deadline hunters := by
  obtain ⟨r1, ⟨n1, hn1⟩, _, hc1⟩ := minCaptureAttempts_total g1 autonomy deadline hunters
    hpos1 start goal
  obtain ⟨r2, ⟨n2, hn2⟩, _, hc2⟩ := minCaptureAttempts_total g2 autonomy deadline hunters
    hpos2 start goal
  have hc12 : Correct g2 autonomy deadline hunters start goal r1 := by
    cases r1 with
    | finite k =>
      obtain ⟨hex, hmin⟩ := hc1
      refine ⟨(h k).1 hex, ?_⟩
      intro plan c hpc
      obtain ⟨p1, hp1⟩ := (h c).2 ⟨plan, hpc⟩
      exact hmin p1 c hp1
    | inf =>
      intro plan c hpc
      obtain ⟨p1, hp1⟩ := (h c).2 ⟨plan, hpc⟩
      exact hc1 p1 c hp1
  have : r1 = r2 := Correct.unique g2 autonomy deadline hunters hc12 hc2
  subst this
  exact ⟨r1, max n1 n2, fun m hm =>
    ⟨hn1 m (le_trans (le_max_left _ _) hm), hn2 m (le_trans (le_max_right _ _) hm)⟩⟩

end Search

/-- Over the integers: let a valid route list contain two routes between the same pair
of locations (in either direction) with costs `c1 ≤ c2`. Then the search on
the graph built from the whole list and the search on the graph built from
the list without the route of cost `c2` return the same value. -/
theorem parallel_routes_cheaper_decides (routes : List Route) (r1 r2 : Route)
    (g g1 : Graph) (autonomy deadline : Int) (hunters : Hunters) (start goal : String)
    (h2 : r2 ∈ routes) (h1 : r1 ∈ routes.erase r2)
    (hpair : (r1.Origin = r2.Origin ∧ r1.Destination = r2.Destination) ∨
      (r1.Origin = r2.Destination ∧ r1.Destination = r2.Origin))
    (hcost : r1.TravelTime ≤ r2.TravelTime)
    (hg : buildGraph routes = .ok g) (hg1 : buildGraph (routes.erase r2) = .ok g1) :
    SameResult g g1 start goal autonomy deadline hunters := by
  have hpos := buildGraph_posCosts routes g hg
  have hpos1 := buildGraph_posCosts _ g1 hg1
  have hsub : ∀ p e, e ∈ g1.get p → e ∈ g.get p := by
    rintro p ⟨B, c⟩ he
    rw [buildGraph_mem_get _ g1 hg1] at he
    rw [buildGraph_mem_get _ g hg]
    rcases he with he | he
    · exact Or.inl (List.mem_of_mem_erase he)
    · exact Or.inr (List.mem_of_mem_erase he)
  have hdom : ∀ p e, e ∈ g.get p → ∃ e1 ∈ g1.get p, e1.dest = e.dest ∧ e1.cost ≤ e.cost := by
    rintro p ⟨B, c⟩ he
    rw [buildGraph_mem_get _ g hg] at he
    -- the arc of the cheaper route from `p` to `B`
    have hcheap : ∀ x : Route, x = r2 → (x = ⟨p, B, c⟩ ∨ x = ⟨B, p, c⟩) →
        ∃ e1 ∈ g1.get p, e1.dest = B ∧ e1.cost ≤ c := by
      intro x hx hxe
      subst hx
      obtain ⟨o1, d1, t1⟩ := r1
      refine ⟨⟨B, t1⟩, ?_, rfl, ?_⟩
      · rw [buildGraph_mem_get _ g1 hg1]
        rcases hxe with rfl | rfl
        · rcases hpair with ⟨ha, hb⟩ | ⟨ha, hb⟩
          · simp only at ha hb; subst ha hb; exact Or.inl h1
          · simp only at ha hb; subst ha hb; exact Or.inr h1
        · rcases hpair with ⟨ha, hb⟩ | ⟨ha, hb⟩
          · simp only at ha hb; subst ha hb; exact Or.inr h1
          · simp only at ha hb; subst ha hb; exact Or.inl h1
      · rcases hxe with rfl | rfl <;> exact hcost
    rcases he with he | he
    · by_cases hx : (⟨p, B, c⟩ : Route) = r2
      · exact hcheap _ hx (Or.inl rfl)
      · refine ⟨⟨B, c⟩, ?_, rfl, le_refl _⟩
        rw [buildGraph_mem_get _ g1 hg1]
        exact Or.inl ((List.mem_erase_of_ne hx).2 he)
    · by_cases hx : (⟨B, p, c⟩ : Route) = r2
      · exact hcheap _ hx (Or.inr rfl)
      · refine ⟨⟨B, c⟩, ?_, rfl, le_refl _⟩
        rw [buildGraph_mem_get _ g1 hg1]
        exact Or.inr ((List.mem_erase_of_ne hx).2 he)
  apply sameResult_of_arrival_costs autonomy deadline hunters g g1 hpos hpos1
  intro c
  constructor
  · rintro ⟨plan, st, hrun, hgoal, hday⟩
    obtain ⟨plan1, ns1, hrun1, hd1, hp1, _⟩ :=
      runPlan_dominated autonomy deadline hunters g g1 hpos1 hdom plan _ _ _ _ hrun
        rfl rfl (le_refl _)
    exact ⟨plan1, ns1, hrun1, by rw [hp1]; exact hgoal, by rw [hd1]; exact hday⟩
  · rintro ⟨plan, st, hrun, hgoal, hday⟩
    exact ⟨plan, st, runPlan_subgraph autonomy deadline hunters g g1 hsub plan _ _ hrun,
      hgoal, hday⟩

/-- Two routes between A and B in opposite directions, of 2 and of 5 days. -/
theorem parallel_routes_cheaper_decides_witness :
    SameResult [("A", [⟨"B", 2⟩, ⟨"B", 5⟩]), ("B", [⟨"A", 2⟩, ⟨"A", 5⟩])]
      [("A", [⟨"B", 2⟩]), ("B", [⟨"A", 2⟩])] "A" "B" 6 7
      (fun p d => p == "B" && d == 2) :=
  parallel_routes_cheaper_decides [⟨"A", "B", 2⟩, ⟨"B", "A", 5⟩] ⟨"A", "B", 2⟩
    ⟨"B", "A", 5⟩ _ _ 6 7 _ "A" "B" (by decide) (by decide) (by decide) (by decide)
    rfl rfl

/-! ## Travelling a plan backwards -/

section Search

variable (graph : Graph) (autonomy deadline : Int)

/-- On a graph in which every arc has a reverse arc of the same cost, a plan
can be travelled backwards: from the planet where the plan ends, starting on
any day `d0` that leaves enough days and with enough fuel for the jumps the
plan made since its last refuel, to the planet where the plan started, in as
many days as the plan took. -/
theorem runPlan_reverse (hpos : graph.PosCosts)
    (hsym : ∀ p e, e ∈ graph.get p → (⟨p, e.cost⟩ : edge) ∈ graph.get e.dest)
    (H H1 : Hunters) (start : String) (plan : List Move) :
    ∀ (st ns : state) (c : Int), StateOk graph autonomy deadline start st →
      runPlan graph autonomy deadline H st plan = some (ns, c) →
      ∀ (d0 x : Int), d0 + (ns.day - st.day) ≤ deadline →
        autonomy - ns.fuel + min autonomy 0 ≤ x →
        ∃ plan1 ns1 c1,
          runPlan graph autonomy deadline H1 ⟨d0, ns.planet, x⟩ plan1 = some (ns1, c1) ∧
          ns1.planet = st.planet ∧ ns1.day = d0 + (ns.day - st.day) ∧
          autonomy - st.fuel + min autonomy 0 ≤ ns1.fuel := by
  induction plan with
  | nil =>
    intro st ns c _ h d0 x _ hx
    simp only [runPlan, Option.some.injEq, Prod.mk.injEq] at h
    obtain ⟨rfl, _⟩ := h
    exact ⟨[], ⟨d0, st.planet, x⟩, 0, rfl, rfl, by simp, hx⟩
  | cons m ms ih =>
    intro st ns c hok h d0 x hd0 hx
    simp only [runPlan] at h
    cases hm : applyMove graph autonomy deadline H st m with
    | none => rw [hm] at h; cases h
    | some r =>
      obtain ⟨st1, c1⟩ := r
      rw [hm] at h
      simp only at h
      cases hr : runPlan graph autonomy deadline H st1 ms with
      | none => rw [hr] at h; cases h
      | some r2 =>
        obtain ⟨st2, c2⟩ := r2
        rw [hr] at h
        simp only [Option.some.injEq, Prod.mk.injEq] at h
        obtain ⟨rfl, _⟩ := h
        have hok1 := applyMove_stateOk graph autonomy deadline H hpos hm hok
        have hday1 := applyMove_cost graph autonomy deadline H hpos hm
        have hday2 := runPlan_cost graph autonomy deadline H hpos ms _ _ _ hr
        obtain ⟨plan1, ns1, a1, hrun1, hp1, hd1, hf1⟩ :=
          ih st1 st2 c2 hok1 hr d0 x (by omega) hx
        obtain ⟨_, _, hfl, hfu, _⟩ := hok
        -- the last move of the backward plan undoes the first move of the plan
        have hlast : ∃ t a, applyMove graph autonomy deadline H1 ns1 (m.back st.planet) = some (t, a) ∧
            t.planet = st.planet ∧ t.day = d0 + (st2.day - st.day) ∧
            autonomy - st.fuel + min autonomy 0 ≤ t.fuel := by
          obtain ⟨dn, pn, fn⟩ := ns1
          simp only at hp1 hd1 hf1
          subst hp1 hd1
          cases m with
          | wait =>
            simp only [applyMove] at hm
            split at hm
            · simp only [Option.some.injEq, Prod.mk.injEq] at hm
              obtain ⟨rfl, _⟩ := hm
              have hc : d0 + (st2.day - (st.day + 1)) + 1 ≤ deadline := by omega
              refine ⟨⟨d0 + (st2.day - (st.day + 1)) + 1, st.planet, fn⟩, 0,
                by simp only [Move.back, applyMove]; rw [if_pos hc], rfl, ?_, ?_⟩
              · simp only; omega
              · exact hf1
            · cases hm
          | refuel =>
            simp only [applyMove] at hm
            split at hm
            · simp only [Option.some.injEq, Prod.mk.injEq] at hm
              obtain ⟨rfl, _⟩ := hm
              have hc : d0 + (st2.day - (st.day + 1)) + 1 ≤ deadline := by omega
              refine ⟨⟨d0 + (st2.day - (st.day + 1)) + 1, st.planet, autonomy⟩,
                if H1 st.planet (d0 + (st2.day - (st.day + 1)) + 1) then 1 else 0,
                by simp only [Move.back, applyMove]; rw [if_pos hc], rfl, ?_, ?_⟩
              · simp only; omega
              · simp only; omega
            · cases hm
          | jump e =>
            simp only [applyMove] at hm
            split at hm
            · rename_i hc
              simp only [Option.some.injEq, Prod.mk.injEq] at hm
              obtain ⟨rfl, _⟩ := hm
              have hepos := hpos _ _ hc.1
              have hmin : min autonomy 0 = 0 := min_eq_right (by omega)
              rw [hmin] at hf1 ⊢
              simp only at hf1
              have hcond : (⟨st.planet, e.cost⟩ : edge) ∈ graph.get e.dest ∧
                  (⟨st.planet, e.cost⟩ : edge).cost ≤ fn ∧
                  d0 + (st2.day - (st.day + e.cost)) + (⟨st.planet, e.cost⟩ : edge).cost
                    ≤ deadline := by
                refine ⟨hsym _ _ hc.1, ?_, ?_⟩
                · show e.cost ≤ fn
                  omega
                · show d0 + (st2.day - (st.day + e.cost)) + e.cost ≤ deadline
                  omega
              refine ⟨⟨d0 + (st2.day - (st.day + e.cost)) + e.cost, st.planet, fn - e.cost⟩,
                if H1 st.planet (d0 + (st2.day - (st.day + e.cost)) + e.cost) then 1 else 0,
                by simp only [Move.back, applyMove]; rw [if_pos hcond], rfl, ?_, ?_⟩
              · simp only; omega
              · simp only; omega
            · cases hm
        obtain ⟨t, a, hmove, htp, htd, htf⟩ := hlast
        refine ⟨plan1 ++ [m.back st.planet], t, a1 + a, ?_, htp, htd, htf⟩
        rw [runPlan_append, hrun1]
        simp only [runPlan, hmove, add_zero]

end Search

section Search

variable (graph : Graph) (autonomy deadline : Int)

/-- On a graph with reverse arcs, if a plan arrives from `A` at `B`, some plan
arrives from `B` at `A`, whatever the hazard schedules. -/
theorem arrives_reverse (hpos : graph.PosCosts)
    (hsym : ∀ p e, e ∈ graph.get p → (⟨p, e.cost⟩ : edge) ∈ graph.get e.dest)
    (H H1 : Hunters) (A B : String)
    (h : ∃ plan c, Arrives graph autonomy deadline H A B plan c) :
    ∃ plan c, Arrives graph autonomy deadline H1 B A plan c := by
  obtain ⟨plan, c, ns, hrun, hgoal, hday⟩ := h
  have hok0 := startState_stateOk graph autonomy deadline A
  have hok := runPlan_stateOk graph autonomy deadline H hpos plan _ _ _ hrun hok0
  obtain ⟨plan1, ns1, c1, hrun1, hp1, hd1, _⟩ :=
    runPlan_reverse graph autonomy deadline hpos hsym H H1 A plan _ _ _ hok0 hrun 0 autonomy
      (by simpa [startState] using hday) (by have := hok.2.2.1; omega)
  rw [hgoal] at hrun1
  refine ⟨plan1, c1, ns1, hrun1, hp1, ?_⟩
  rw [hd1]
  simpa [startState] using hday

end Search

/-- Over the integers: on a graph built by `buildGraph`, with an empty hazard schedule
the search from `A` to `B` and the search from `B` to `A` return the same
value, which is 0 or `+Inf`; and whatever the hazards, some plan arrives from
`A` at `B` within the deadline exactly when some plan arrives from `B` at `A`
within the deadline. -/
theorem symmetric_reachability (routes : List Route) (g : Graph)
    (autonomy deadline : Int) (A B : String) (hg : buildGraph routes = .ok g) :
    (∃ r n, (r = .finite 0 ∨ r = .inf) ∧ ∀ m, n ≤ m →
      minCaptureAttempts m g A B autonomy deadline (fun _ _ => false) = some r ∧
      minCaptureAttempts m g B A autonomy deadline (fun _ _ => false) = some r) ∧
    (∀ hunters : Hunters,
      (∃ plan c, Arrives g autonomy deadline hunters A B plan c) ↔
        (∃ plan c, Arrives g autonomy deadline hunters B A plan c)) := by
  have hpos := buildGraph_posCosts routes g hg
  have hsym : ∀ p e, e ∈ g.get p → (⟨p, e.cost⟩ : edge) ∈ g.get e.dest := by
    rintro p ⟨q, c⟩ he
    rw [buildGraph_mem_get routes g hg] at he
    rw [buildGraph_mem_get routes g hg]
    exact he.symm
  have hrev : ∀ (H H1 : Hunters) (X Y : String),
      (∃ plan c, Arrives g autonomy deadline H X Y plan c) →
      ∃ plan c, Arrives g autonomy deadline H1 Y X plan c :=
    fun H H1 X Y => arrives_reverse g autonomy deadline hpos hsym H H1 X Y
  refine ⟨?_, fun hunters => ⟨hrev _ _ A B, hrev _ _ B A⟩⟩
  obtain ⟨r1, ⟨n1, hn1⟩, _, hc1⟩ := minCaptureAttempts_total g autonomy deadline
    (fun _ _ => false) hpos A B
  obtain ⟨r2, ⟨n2, hn2⟩, _, hc2⟩ := minCaptureAttempts_total g autonomy deadline
    (fun _ _ => false) hpos B A
  -- without hunters a finite result is 0
  have hzero : ∀ (X Y : String) (k : Int),
      Correct g autonomy deadline (fun _ _ => false) X Y (.finite k) → k = 0 := by
    intro X Y k hc
    obtain ⟨⟨plan, st, hrun, _⟩, _⟩ := hc
    exact runPlan_hazardFree autonomy (fun _ _ => false) g deadline plan _ _ _ hrun
      (hazardFree_of_no_hunters autonomy plan _)
  have heq : r1 = r2 := by
    cases r1 with
    | finite k1 =>
      have hk1 := hzero A B k1 hc1
      subst hk1
      cases r2 with
      | finite k2 =>
        have hk2 := hzero B A k2 hc2
        rw [hk2]
      | inf =>
        obtain ⟨⟨plan, hp⟩, _⟩ := hc1
        obtain ⟨p2, c2, hp2⟩ := hrev (fun _ _ => false) (fun _ _ => false) A B ⟨plan, 0, hp⟩
        exact absurd hp2 (hc2 p2 c2)
    | inf =>
      cases r2 with
      | finite k2 =>
        obtain ⟨⟨plan, hp⟩, _⟩ := hc2
        obtain ⟨p1, c1, hp1⟩ := hrev (fun _ _ => false) (fun _ _ => false) B A ⟨plan, k2, hp⟩
        exact absurd hp1 (hc1 p1 c1)
      | inf => rfl
  subst heq
  refine ⟨r1, max n1 n2, ?_, fun m hm =>
    ⟨hn1 m (le_trans (le_max_left _ _) hm), hn2 m (le_trans (le_max_right _ _) hm)⟩⟩
  cases r1 with
  | finite k => exact Or.inl (by rw [hzero A B k hc1])
  | inf => exact Or.inr rfl

/-- The graph of the routes T-D (2 days) and D-E (3 days), a tank of 3 and a
deadline of 6: the way there and the way back both need a refuel on D. -/
theorem symmetric_reachability_witness :
    ∃ r n, (r = .finite 0 ∨ r = .inf) ∧ ∀ m, n ≤ m →
      minCaptureAttempts m [("T", [⟨"D", 2⟩]), ("D", [⟨"T", 2⟩, ⟨"E", 3⟩]),
        ("E", [⟨"D", 3⟩])] "T" "E" 3 6 (fun _ _ => false) = some r ∧
      minCaptureAttempts m [("T", [⟨"D", 2⟩]), ("D", [⟨"T", 2⟩, ⟨"E", 3⟩]),
        ("E", [⟨"D", 3⟩])] "E" "T" 3 6 (fun _ _ => false) = some r :=
  (symmetric_reachability [⟨"T", "D", 2⟩, ⟨"D", "E", 3⟩] _ 3 6 "T" "E" rfl).1

/-! ## The 64-bit search within range -/

theorem wrap64_eq {x : Int} (h1 : -9223372036854775808 ≤ x)
    (h2 : x < 9223372036854775808) : wrap64 x = x := by
  unfold wrap64
  omega

section Search

variable (graph : Graph) (autonomy deadline : Int) (hunters : Hunters)

theorem bump64_eq (p : String) (d : Int) {k : Int} (h1 : 0 ≤ k)
    (h2 : k + 1 < 9223372036854775808) : bump64 hunters p d k = bump hunters p d k := by
  unfold bump64 bump
  rw [wrap64_eq (by omega) h2]

/-- Within range the jumps of the 64-bit search are those of the search over
the integers. -/
theorem jumps64_eq (hb : NoWrap autonomy deadline) {st : state} {k : Int}
    (hday : 0 ≤ st.day) (hday2 : st.day ≤ max deadline 0) (hfuel : st.fuel ≤ autonomy)
    (hk : 0 ≤ k) (hk2 : k ≤ st.day) :
    ∀ (es : List edge), (∀ e ∈ es, 0 < e.cost) → ∀ (s : searchState),
      jumps64 hunters deadline k st es s = jumps hunters deadline k st es s := by
  unfold NoWrap at hb
  intro es
  induction es with
  | nil => intro _ s; rfl
  | cons e es ih =>
    intro hpos s
    have hc : 0 < e.cost := hpos e (List.mem_cons_self _ _)
    have ih1 := ih (fun e1 h1 => hpos e1 (List.mem_cons_of_mem _ h1))
    simp only [jumps64, jumps]
    by_cases h1 : e.cost > st.fuel
    · rw [if_pos h1, if_pos h1]
      exact ih1 s
    · rw [if_neg h1, if_neg h1]
      have hm : 1 ≤ max autonomy 1 := le_max_right _ _
      have hm2 : autonomy ≤ max autonomy 1 := le_max_left _ _
      have hw : wrap64 (st.day + e.cost) = st.day + e.cost :=
        wrap64_eq (by omega) (by omega)
      have hw2 : wrap64 (st.fuel - e.cost) = st.fuel - e.cost :=
        wrap64_eq (by omega) (by omega)
      rw [hw, hw2, bump64_eq hunters _ _ hk (by omega)]
      by_cases h2 : st.day + e.cost > deadline
      · rw [if_pos h2, if_pos h2]
        exact ih1 s
      · rw [if_neg h2, if_neg h2]
        exact ih1 _

/-- Within range the expansion of the 64-bit search is that of the search over
the integers. -/
theorem expand64_eq (hpos : graph.PosCosts) (hb : NoWrap autonomy deadline)
    {st : state} {k : Int}
    (hday : 0 ≤ st.day) (hday2 : st.day ≤ max deadline 0) (hfuel : st.fuel ≤ autonomy)
    (hk : 0 ≤ k) (hk2 : k ≤ st.day) (s : searchState) :
    expand64 graph autonomy deadline hunters k st s
      = expand graph autonomy deadline hunters k st s := by
  have hb1 := hb
  unfold NoWrap at hb1
  have hm : 1 ≤ max autonomy 1 := le_max_right _ _
  have hw : wrap64 (st.day + 1) = st.day + 1 := wrap64_eq (by omega) (by omega)
  unfold expand64 expand
  simp only [hw]
  rw [bump64_eq hunters _ _ hk (by omega)]
  exact jumps64_eq autonomy deadline hunters hb hday hday2 hfuel hk hk2 _
    (fun e he => hpos _ e he) _

/-- Within range the main loop of the 64-bit search returns what the loop over
the integers returns, with every budget. -/
theorem searchLoop64_eq (hpos : graph.PosCosts) (hb : NoWrap autonomy deadline)
    {start goal : String} (n : Nat) :
    ∀ (s : searchState), Inv graph autonomy deadline hunters start goal s →
      searchLoop64 graph goal autonomy deadline hunters n s
        = searchLoop graph goal autonomy deadline hunters n s := by
  induction n with
  | zero => intro s _; rfl
  | succ n ih =>
    intro s hinv
    simp only [searchLoop64, searchLoop]
    by_cases hlen : s.pq.length > 0
    · simp only [hlen, if_true]
      cases hpop : heapPop s.pq with
      | none => rfl
      | some x =>
        obtain ⟨cur, pq1⟩ := x
        simp only
        by_cases hstale : s.best cur.st ≠ some cur.k
        · rw [if_pos hstale, if_pos hstale]
          exact ih _ (inv_of_stale graph autonomy deadline hunters hinv hpop hstale)
        · have hfresh : s.best cur.st = some cur.k := not_not.1 hstale
          rw [if_neg hstale, if_neg hstale]
          by_cases hgoal : cur.st.planet = goal ∧ cur.st.day ≤ deadline
          · rw [if_pos hgoal, if_pos hgoal]
          · rw [if_neg hgoal, if_neg hgoal]
            have hr := hinv.sound _ _ hfresh
            obtain ⟨_, hk1, hk2, hd2⟩ := Reach.bounds graph autonomy deadline hunters hpos hr
            obtain ⟨hd1, _, _, hf, _⟩ := Reach.stateOk graph autonomy deadline hunters hpos hr
            rw [expand64_eq graph autonomy deadline hunters hpos hb hd1 hd2 hf hk1 hk2]
            exact ih _
              (inv_of_expand graph autonomy deadline hunters hinv hpop hfresh hgoal)
    · simp only [hlen, if_false]

/-- Within range the configurations of the 64-bit loop are those of the loop
over the integers. -/
theorem loopConfig64_eq (hpos : graph.PosCosts) (hb : NoWrap autonomy deadline)
    {start goal : String} (n : Nat) :
    ∀ (s : searchState), Inv graph autonomy deadline hunters start goal s →
      loopConfig64 graph goal autonomy deadline hunters n s
        = loopConfig graph goal autonomy deadline hunters n s := by
  induction n with
  | zero => intro s _; rfl
  | succ n ih =>
    intro s hinv
    simp only [loopConfig64, loopConfig]
    by_cases hlen : s.pq.length > 0
    · simp only [hlen, if_true]
      cases hpop : heapPop s.pq with
      | none => rfl
      | some x =>
        obtain ⟨cur, pq1⟩ := x
        simp only
        by_cases hstale : s.best cur.st ≠ some cur.k
        · rw [if_pos hstale, if_pos hstale]
          exact ih _ (inv_of_stale graph autonomy deadline hunters hinv hpop hstale)
        · have hfresh : s.best cur.st = some cur.k := not_not.1 hstale
          rw [if_neg hstale, if_neg hstale]
          by_cases hgoal : cur.st.planet = goal ∧ cur.st.day ≤ deadline
          · rw [if_pos hgoal, if_pos hgoal]
          · rw [if_neg hgoal, if_neg hgoal]
            have hr := hinv.sound _ _ hfresh
            obtain ⟨_, hk1, hk2, hd2⟩ := Reach.bounds graph autonomy deadline hunters hpos hr
            obtain ⟨hd1, _, _, hf, _⟩ := Reach.stateOk graph autonomy deadline hunters hpos hr
            rw [expand64_eq graph autonomy deadline hunters hpos hb hd1 hd2 hf hk1 hk2]
            exact ih _
              (inv_of_expand graph autonomy deadline hunters hinv hpop hfresh hgoal)
    · simp only [hlen, if_false]

/-- When no sum leaves the 64-bit range, `minCaptureAttempts` in 64-bit
arithmetic returns what it returns over the integers, with every budget. -/
theorem minCaptureAttempts64_eq (hpos : graph.PosCosts) (hb : NoWrap autonomy deadline)
    (start goal : String) (budget : Nat) :
    minCaptureAttempts64 budget graph start goal autonomy deadline hunters
      = minCaptureAttempts budget graph start goal autonomy deadline hunters :=
  searchLoop64_eq graph autonomy deadline hunters hpos hb budget _
    (initState_inv graph autonomy deadline hunters start goal)

/-- When no sum leaves the 64-bit range, `minCaptureAttempts` in 64-bit
arithmetic returns, with every budget above a bound, the one result it has to
return: the least cost of a plan that arrives, or `+Inf` when none does. -/
theorem minCaptureAttempts64_total (hpos : graph.PosCosts) (hb : NoWrap autonomy deadline)
    (start goal : String) :
    ∃ r, (∃ n, ∀ m, n ≤ m →
        minCaptureAttempts64 m graph start goal autonomy deadline hunters = some r) ∧
      (∀ m r1, minCaptureAttempts64 m graph start goal autonomy deadline hunters = some r1 →
        r1 = r) ∧
      Correct graph autonomy deadline hunters start goal r := by
  obtain ⟨r, ⟨n, h1⟩, h2, h3⟩ :=
    minCaptureAttempts_total graph autonomy deadline hunters hpos start goal
  refine ⟨r, ⟨n, fun m hm => ?_⟩, fun m r1 hm => ?_, h3⟩
  · rw [minCaptureAttempts64_eq graph autonomy deadline hunters hpos hb]
    exact h1 m hm
  · rw [minCaptureAttempts64_eq graph autonomy deadline hunters hpos hb] at hm
    exact h2 m r1 hm

end Search

/-! ## The 64-bit search beyond the range

At the inputs of this section `arrival := st.day + e.cost` exceeds `2^63 - 1`
and wraps to a negative day, which then passes `arrival > deadline` and the
goal test `st.day <= deadline`. -/

/-- A larger budget does not change what the 64-bit loop returns. -/
theorem searchLoop64_mono (graph : Graph) (autonomy deadline : Int) (hunters : Hunters)
    (goal : String) (n : Nat) :
    ∀ (s : searchState) (r : Attempts) (m : Nat), n ≤ m →
      searchLoop64 graph goal autonomy deadline hunters n s = some r →
      searchLoop64 graph goal autonomy deadline hunters m s = some r := by
  induction n with
  | zero => intro s r m _ h; simp [searchLoop64] at h
  | succ n ih =>
    intro s r m hm h
    obtain ⟨m1, rfl⟩ : ∃ m1, m = m1 + 1 := ⟨m - 1, by omega⟩
    simp only [searchLoop64] at h ⊢
    by_cases hlen : s.pq.length > 0
    · simp only [hlen, if_true] at h ⊢
      cases hpop : heapPop s.pq with
      | none => rw [hpop] at h; cases h
      | some x =>
        obtain ⟨cur, pq1⟩ := x
        rw [hpop] at h
        simp only at h ⊢
        by_cases hstale : s.best cur.st ≠ some cur.k
        · rw [if_pos hstale] at h ⊢
          exact ih _ _ _ (by omega) h
        · rw [if_neg hstale] at h ⊢
          by_cases hgoal : cur.st.planet = goal ∧ cur.st.day ≤ deadline
          · rw [if_pos hgoal] at h ⊢
            exact h
          · rw [if_neg hgoal] at h ⊢
            exact ih _ _ _ (by omega) h
    · simp only [hlen, if_false] at h ⊢
      exact h

/-- A larger budget does not change what `minCaptureAttempts` returns in 64-bit
arithmetic. -/
theorem minCaptureAttempts64_mono (graph : Graph) (autonomy deadline : Int)
    (hunters : Hunters) (start goal : String) (n : Nat) (r : Attempts)
    (h : minCaptureAttempts64 n graph start goal autonomy deadline hunters = some r)
    (m : Nat) (hm : n ≤ m) :
    minCaptureAttempts64 m graph start goal autonomy deadline hunters = some r :=
  searchLoop64_mono graph autonomy deadline hunters goal n _ r m hm h

theorem longRoute_posCosts : longRoute.PosCosts :=
  Graph.posCosts_of_entries _ (by decide)

/-- With deadline 1 no legal plan on `longRoute` leaves Tatooine. -/
theorem longRoute_no_arrival (hunters : Hunters) (plan : List Move) (c : Int) :
    ¬ Arrives longRoute maxInt 1 hunters "Tatooine" "Endor" plan c := by
  rintro ⟨ns, hrun, hg, _⟩
  have := runPlan_stays longRoute maxInt 1 hunters "Tatooine" (by decide) plan _ _ _ rfl
    (le_refl _) hrun
  rw [hg] at this
  exact absurd this (by decide)

/-- Claim C1, at an input where `arrival` overflows: on the graph built from
the single route Tatooine-Endor with travel time `2^63 - 1`, with autonomy
`2^63 - 1`, deadline 1 and no hunters, `minCaptureAttempts` in 64-bit
arithmetic returns the finite value 0, but no legal plan from
`(0, Tatooine, 2^63 - 1)` ends at Endor on a day `≤ 1` with total cost 0: the
returned value is not the cost of a plan that arrives. -/
theorem overflow_returns_cost_of_no_plan :
    buildGraph [⟨"Tatooine", "Endor", maxInt⟩] = .ok longRoute ∧ longRoute.PosCosts ∧
    minCaptureAttempts64 3 longRoute "Tatooine" "Endor" maxInt 1 noHunters
      = some (.finite 0) ∧
    ¬ ∃ plan, Arrives longRoute maxInt 1 noHunters "Tatooine" "Endor" plan 0 :=
  ⟨rfl, longRoute_posCosts, by decide,
    fun ⟨plan, h⟩ => longRoute_no_arrival noHunters plan 0 h⟩

/-- Claim C2, at an input where `arrival` overflows: on the single route
Tatooine-Endor with travel time `2^63 - 1`, with autonomy `2^63 - 1`, deadline
1 and no hunters, no sequence of legal moves from `(0, Tatooine, 2^63 - 1)`
ends at Endor on a day `≤ 1`, and yet `minCaptureAttempts` in 64-bit
arithmetic returns 0 and not `+Inf`, with every budget of at least three
iterations. -/
theorem overflow_returns_finite_without_arrival :
    longRoute.PosCosts ∧
    (¬ ∃ plan c, Arrives longRoute maxInt 1 noHunters "Tatooine" "Endor" plan c) ∧
    (∀ m, 3 ≤ m →
      minCaptureAttempts64 m longRoute "Tatooine" "Endor" maxInt 1 noHunters
        = some (.finite 0)) ∧
    (∀ m, minCaptureAttempts64 m longRoute "Tatooine" "Endor" maxInt 1 noHunters
        ≠ some .inf) := by
  have h3 : minCaptureAttempts64 3 longRoute "Tatooine" "Endor" maxInt 1 noHunters
      = some (.finite 0) := by decide
  refine ⟨longRoute_posCosts, fun ⟨plan, c, h⟩ => longRoute_no_arrival noHunters plan c h,
    fun m hm => minCaptureAttempts64_mono _ _ _ _ _ _ 3 _ h3 m hm, ?_⟩
  intro m hinf
  have h1 := minCaptureAttempts64_mono _ _ _ _ _ _ m _ hinf (max m 3) (le_max_left _ _)
  have h2 := minCaptureAttempts64_mono _ _ _ _ _ _ 3 _ h3 (max m 3) (le_max_right _ _)
  rw [h1] at h2
  cases h2

/-- Claim C8, at an input where `arrival` overflows: on the single route
Tatooine-Endor with travel time `2^63 - 1`, with autonomy `2^63 - 1`, deadline
1 and no hunters, the second iteration of the 64-bit loop pops the only heap
entry, the recorded state `(1, Tatooine, 2^63 - 1)`, and records and pushes
its successor `(-2^63, Endor, 0)`, which had no record before: the day of the
successor is earlier than the day of the state it was generated from. -/
theorem overflow_successor_day_earlier :
    longRoute.PosCosts ∧
    ∃ s1 s2,
      loopConfig64 longRoute "Endor" maxInt 1 noHunters 1 (initState "Tatooine" maxInt)
        = some s1 ∧
      loopConfig64 longRoute "Endor" maxInt 1 noHunters 2 (initState "Tatooine" maxInt)
        = some s2 ∧
      s1.pq = [⟨0, ⟨1, "Tatooine", maxInt⟩⟩] ∧
      s1.best ⟨1, "Tatooine", maxInt⟩ = some 0 ∧
      s1.best ⟨minInt, "Endor", 0⟩ = none ∧
      s2.best ⟨minInt, "Endor", 0⟩ = some 0 ∧
      s2.pq = [⟨0, ⟨minInt, "Endor", 0⟩⟩] ∧ minInt < 1 := by
  have h1 : (loopConfig64 longRoute "Endor" maxInt 1 noHunters 1
      (initState "Tatooine" maxInt)).map
      (fun s => (s.pq, s.best ⟨1, "Tatooine", maxInt⟩, s.best ⟨minInt, "Endor", 0⟩))
      = some ([⟨0, ⟨1, "Tatooine", maxInt⟩⟩], some 0, none) := by decide
  have h2 : (loopConfig64 longRoute "Endor" maxInt 1 noHunters 2
      (initState "Tatooine" maxInt)).map
      (fun s => (s.pq, s.best ⟨minInt, "Endor", 0⟩))
      = some ([⟨0, ⟨minInt, "Endor", 0⟩⟩], some 0) := by decide
  obtain ⟨s1, hs1, e1⟩ := Option.map_eq_some'.1 h1
  obtain ⟨s2, hs2, e2⟩ := Option.map_eq_some'.1 h2
  simp only [Prod.mk.injEq] at e1 e2
  exact ⟨longRoute_posCosts, s1, s2, hs1, hs2, e1.1, e1.2.1, e1.2.2, e2.2, e2.1, by decide⟩

/-- Claim C11: for the route Tatooine-Endor of cost 6 with autonomy 6, deadline
6 and hunters exactly on (Endor, 6), `minCaptureAttempts` in 64-bit arithmetic
returns 1 and `GiveMeTheOdds` returns `math.Pow(0.9, 1)`. The general statement
fails at `c = 2^63 - 1`, where `arrival` overflows: on the single route
Tatooine-Endor of cost `c`, with autonomy `c`, deadline `c` and hunters exactly
on (Endor, `c`), the search returns 0 and not 1. -/
theorem overflow_single_route_hazard_not_charged :
    (∃ gT hT, buildGraph [⟨"Tatooine", "Endor", 6⟩] = .ok gT ∧
      buildHunters [⟨"Endor", 6⟩] = .ok hT ∧
      ∀ m, 8 ≤ m →
        minCaptureAttempts64 m gT "Tatooine" "Endor" 6 6 hT = some (.finite 1) ∧
        ∀ (F : Type) (fl : Float64Ops F),
          C3PO.GiveMeTheOdds ⟨6, gT⟩ fl m ⟨6, [⟨"Endor", 6⟩]⟩ = .ok (some (fl.pow 1))) ∧
    (∃ hM, buildGraph [⟨"Tatooine", "Endor", maxInt⟩] = .ok longRoute ∧ 0 < maxInt ∧
      "Tatooine" ≠ "Endor" ∧ buildHunters [⟨"Endor", maxInt⟩] = .ok hM ∧
      hM "Endor" maxInt = true ∧
      ∀ m, 4 ≤ m →
        minCaptureAttempts64 m longRoute "Tatooine" "Endor" maxInt maxInt hM
          = some (.finite 0)) := by
  have h6 : minCaptureAttempts64 8
      [("Tatooine", [⟨"Endor", 6⟩]), ("Endor", [⟨"Tatooine", 6⟩])] "Tatooine" "Endor" 6 6
      (setHunter (fun _ _ => false) "Endor" 6) = some (.finite 1) := by decide
  have hM : minCaptureAttempts64 4 longRoute "Tatooine" "Endor" maxInt maxInt
      (setHunter (fun _ _ => false) "Endor" maxInt) = some (.finite 0) := by decide
  refine ⟨⟨[("Tatooine", [⟨"Endor", 6⟩]), ("Endor", [⟨"Tatooine", 6⟩])],
      setHunter (fun _ _ => false) "Endor" 6, rfl, rfl, fun m hm => ?_⟩,
    ⟨_, rfl, by decide, by decide, rfl, by decide,
      fun m hm => minCaptureAttempts64_mono _ _ _ _ _ _ 4 _ hM m hm⟩⟩
  have h6m := minCaptureAttempts64_mono _ _ _ _ _ _ 8 _ h6 m hm
  refine ⟨h6m, fun F fl => ?_⟩
  have hbH : buildHunters [⟨"Endor", 6⟩]
      = .ok (setHunter (fun _ _ => false) "Endor" 6) := rfl
  simp only [C3PO.GiveMeTheOdds, hbH]
  rw [h6m]
  simp [odds]

/-- Claim C12: the general statement fails at an input where `arrival`
overflows. On the single route Tatooine-Endor with travel time `2^63 - 1`,
with autonomy `2^63 - 1` and no hunters, the deadline 1 is smaller than the
cost of every arc out of Tatooine, and yet `minCaptureAttempts` in 64-bit
arithmetic returns 0 and not `+Inf`, and `GiveMeTheOdds` returns the odds 1.
The two special cases hold in 64-bit arithmetic: with deadline 0, positive
costs and `start ≠ goal` the result is `+Inf` and no state other than the
initial one is ever recorded, and for the single route Tatooine-Endor of cost
6 with a tank of 6 and deadline 5 the result is `+Inf`. -/
theorem overflow_short_deadline_returns_zero :
    (longRoute.PosCosts ∧ "Tatooine" ≠ "Endor" ∧
      (∀ e ∈ longRoute.get "Tatooine", 1 < e.cost) ∧
      (∀ m, 3 ≤ m →
        minCaptureAttempts64 m longRoute "Tatooine" "Endor" maxInt 1 noHunters
          = some (.finite 0)) ∧
      (∀ (F : Type) (fl : Float64Ops F) (m : Nat), 3 ≤ m →
        C3PO.GiveMeTheOdds ⟨maxInt, longRoute⟩ fl m ⟨1, []⟩ = .ok (some fl.one))) ∧
    (∀ (graph : Graph) (autonomy : Int) (hunters : Hunters) (start goal : String),
      graph.PosCosts → start ≠ goal → autonomy ≤ maxInt →
      (∃ n, ∀ m, n ≤ m →
        minCaptureAttempts64 m graph start goal autonomy 0 hunters = some .inf) ∧
      (∀ (i : Nat) (s : searchState),
        loopConfig64 graph goal autonomy 0 hunters i (initState start autonomy) = some s →
        ∀ x k, s.best x = some k → x = startState start autonomy)) ∧
    (∃ gT, buildGraph [⟨"Tatooine", "Endor", 6⟩] = .ok gT ∧
      ∀ hunters : Hunters, ∃ n, ∀ m, n ≤ m →
        minCaptureAttempts64 m gT "Tatooine" "Endor" 6 5 hunters = some .inf) := by
  have h3 : minCaptureAttempts64 3 longRoute "Tatooine" "Endor" maxInt 1 noHunters
      = some (.finite 0) := by decide
  refine ⟨⟨longRoute_posCosts, by decide, by decide,
    fun m hm => minCaptureAttempts64_mono _ _ _ _ _ _ 3 _ h3 m hm, fun F fl m hm => ?_⟩,
    ?_, ?_⟩
  · have h3m := minCaptureAttempts64_mono _ _ _ _ _ _ 3 _ h3 m hm
    have hbH : buildHunters [] = .ok noHunters := rfl
    simp only [C3PO.GiveMeTheOdds, hbH]
    rw [h3m]
    simp [odds]
  · intro graph autonomy hunters start goal hpos hne ha
    have hb : NoWrap autonomy 0 := by
      unfold NoWrap
      unfold maxInt at ha
      rcases le_total autonomy 1 with h | h
      · rw [max_eq_right h]; decide
      · rw [max_eq_left h]
        simp only [max_self, zero_add]
        omega
    constructor
    · obtain ⟨n, hn⟩ := result_inf_of_no_arrival graph autonomy 0 hunters hpos
        start goal (by
          rintro plan c ⟨ns, hrun, hg, _⟩
          have := runPlan_deadline_zero graph autonomy hunters hpos _ _ _ plan
            (le_refl _) hrun
          rw [this] at hg
          exact hne hg)
      refine ⟨n, fun m hm => ?_⟩
      rw [minCaptureAttempts64_eq graph autonomy 0 hunters hpos hb]
      exact hn m hm
    · intro i s hs x k hk
      rw [loopConfig64_eq graph autonomy 0 hunters hpos hb i _
        (initState_inv graph autonomy 0 hunters start goal)] at hs
      obtain ⟨hinv, _⟩ := loopConfig_inv graph autonomy 0 hunters hpos i _ _
        (initState_inv graph autonomy 0 hunters start goal) hs
      obtain ⟨plan, hp⟩ := hinv.sound x k hk
      exact runPlan_deadline_zero graph autonomy hunters hpos _ _ _ plan (le_refl _) hp
  · refine ⟨[("Tatooine", [⟨"Endor", 6⟩]), ("Endor", [⟨"Tatooine", 6⟩])], rfl,
      fun hunters => ?_⟩
    obtain ⟨_, hposT, hget⟩ := buildGraph_single "Tatooine" "Endor" 6
      [("Tatooine", [⟨"Endor", 6⟩]), ("Endor", [⟨"Tatooine", 6⟩])] (by decide) rfl
    obtain ⟨n, hn⟩ := result_inf_of_no_arrival _ 6 5 hunters hposT "Tatooine" "Endor" (by
      rintro plan c ⟨ns, hrun, hg, _⟩
      have := runPlan_stays _ 6 5 hunters "Tatooine" (by rw [hget]; decide) plan _ _ _ rfl
        (le_refl _) hrun
      rw [hg] at this
      exact absurd this (by decide))
    refine ⟨n, fun m hm => ?_⟩
    rw [minCaptureAttempts64_eq _ 6 5 hunters hposT (by decide)]
    exact hn m hm

/-- Claim C16, at an input where `arrival` overflows: on the single route
Tatooine-Endor with travel time `2^63 - 1` (positive costs), with autonomy
`2^63 - 1 ≥ 0`, deadline `1 ≥ 0` and no hunters, at the head of the third
iteration of the 64-bit loop the state `(-2^63, Endor, 0)` is recorded in
`best` and sits on the heap: its day is negative. -/
theorem overflow_records_negative_day :
    longRoute.PosCosts ∧ 0 ≤ maxInt ∧ (0 : Int) ≤ 1 ∧
    ∃ s, loopConfig64 longRoute "Endor" maxInt 1 noHunters 2 (initState "Tatooine" maxInt)
        = some s ∧
      s.best ⟨minInt, "Endor", 0⟩ = some 0 ∧
      (⟨0, ⟨minInt, "Endor", 0⟩⟩ : pqNode) ∈ s.pq ∧
      ¬ (0 ≤ (⟨minInt, "Endor", 0⟩ : state).day) := by
  have h2 : (loopConfig64 longRoute "Endor" maxInt 1 noHunters 2
      (initState "Tatooine" maxInt)).map
      (fun s => (s.best ⟨minInt, "Endor", 0⟩,
        decide ((⟨0, ⟨minInt, "Endor", 0⟩⟩ : pqNode) ∈ s.pq)))
      = some (some 0, true) := by decide
  obtain ⟨s, hs, e⟩ := Option.map_eq_some'.1 h2
  simp only [Prod.mk.injEq, decide_eq_true_eq] at e
  exact ⟨longRoute_posCosts, by decide, by decide, s, hs, e.1, e.2, by decide⟩

/-- Claim C18, at an input where `arrival` overflows: for the valid route list
with the two routes Tatooine-Endor of cost 5 and Tatooine-Endor of cost
`2^63 - 1`, with autonomy `2^63 - 1`, deadline 3 and no hunters,
`minCaptureAttempts` in 64-bit arithmetic from Tatooine to Endor returns 0 on
the graph built from the whole list and `+Inf` on the graph built from the
list without the costlier route. -/
theorem overflow_parallel_routes_differ :
    ∃ g g1,
      buildGraph [⟨"Tatooine", "Endor", 5⟩, ⟨"Tatooine", "Endor", maxInt⟩] = .ok g ∧
      buildGraph ([⟨"Tatooine", "Endor", 5⟩, ⟨"Tatooine", "Endor", maxInt⟩].erase
        ⟨"Tatooine", "Endor", maxInt⟩) = .ok g1 ∧
      (5 : Int) ≤ maxInt ∧
      (∀ m, 4 ≤ m →
        minCaptureAttempts64 m g "Tatooine" "Endor" maxInt 3 noHunters
          = some (.finite 0)) ∧
      (∀ m, 5 ≤ m →
        minCaptureAttempts64 m g1 "Tatooine" "Endor" maxInt 3 noHunters = some .inf) := by
  have ha : minCaptureAttempts64 4
      [("Tatooine", [⟨"Endor", 5⟩, ⟨"Endor", maxInt⟩]),
        ("Endor", [⟨"Tatooine", 5⟩, ⟨"Tatooine", maxInt⟩])]
      "Tatooine" "Endor" maxInt 3 noHunters = some (.finite 0) := by decide
  have hb : minCaptureAttempts64 5
      [("Tatooine", [⟨"Endor", 5⟩]), ("Endor", [⟨"Tatooine", 5⟩])]
      "Tatooine" "Endor" maxInt 3 noHunters = some .inf := by decide
  exact ⟨_, _, rfl, rfl, by decide,
    fun m hm => minCaptureAttempts64_mono _ _ _ _ _ _ 4 _ ha m hm,
    fun m hm => minCaptureAttempts64_mono _ _ _ _ _ _ 5 _ hb m hm⟩

/-- Claim C19, at an input where `arrival` overflows: on the graph built from
the routes Tatooine-Hoth of cost 1 and Hoth-Endor of cost `2^63 - 1`, with
autonomy `2^63 - 1`, deadline 1 and no hunters, `minCaptureAttempts` in 64-bit
arithmetic returns `+Inf` from Tatooine to Endor and 0 from Endor to
Tatooine. -/
theorem overflow_reachability_one_way :
    ∃ g, buildGraph [⟨"Tatooine", "Hoth", 1⟩, ⟨"Hoth", "Endor", maxInt⟩] = .ok g ∧
      (∀ m, 4 ≤ m →
        minCaptureAttempts64 m g "Tatooine" "Endor" maxInt 1 noHunters = some .inf) ∧
      (∀ m, 9 ≤ m →
        minCaptureAttempts64 m g "Endor" "Tatooine" maxInt 1 noHunters
          = some (.finite 0)) := by
  have ha : minCaptureAttempts64 4
      [("Tatooine", [⟨"Hoth", 1⟩]), ("Hoth", [⟨"Tatooine", 1⟩, ⟨"Endor", maxInt⟩]),
        ("Endor", [⟨"Hoth", maxInt⟩])]
      "Tatooine" "Endor" maxInt 1 noHunters = some .inf := by decide
  have hb : minCaptureAttempts64 9
      [("Tatooine", [⟨"Hoth", 1⟩]), ("Hoth", [⟨"Tatooine", 1⟩, ⟨"Endor", maxInt⟩]),
        ("Endor", [⟨"Hoth", maxInt⟩])]
      "Endor" "Tatooine" maxInt 1 noHunters = some (.finite 0) := by decide
  exact ⟨_, rfl,
    fun m hm => minCaptureAttempts64_mono _ _ _ _ _ _ 4 _ ha m hm,
    fun m hm => minCaptureAttempts64_mono _ _ _ _ _ _ 9 _ hb m hm⟩

end Falcon
